import Mathlib

/-!
# go-autumn-vault: a shallow embedding and its verified properties

The development embeds the two secret resolvers of the repository:

* `pkg/vault` (`Vault.ObtainSecrets`, `appendSecretToMap`), which resolves the
  declared mappings into a `map[string]string` whose dotted destination keys
  are grouped as JSON objects, and
* the root package (`New`, `ensureToken`, `refreshAuthToken`, `FetchSecrets`,
  `FetchSecretsToEnv`, `parseSecretsConfig`, `ObtainValuesFromEnv`).

Conventions of the embedding.

* A Go `string` is a `GoString`: an arbitrary sequence of bytes, valid UTF-8
  or not. A string literal of this file stands for its UTF-8 bytes (`utf8`);
  strings are compared byte by byte (`keyLt`).
* A Go `map[string]T` is a `GoMapOf T`: an association list kept strictly
  sorted by key.  `mapInsert` is the assignment `m[k] = v`, `mapLookup` the
  comma-ok read `m[k]`.
* A Go `(T, error)` result is an `Except GoError T`; a run-time panic is the
  error value `GoError.panic`.
* The iteration order of `range` over a Go map is unspecified: a
  `SecretsConfig` is given as the list of its entries in the order in which
  `range` yields them, so a statement for every list covers every order.
* `unicode/utf8`, `encoding/json`, `fmt`, `os` and the store client are not
  part of the repository; the parts that the code calls are modelled below
  (`decodeRune`, `jsonUnmarshalStringMap`, `jsonMarshalStringMap`, `fmtV`,
  `Setenv`, `World`).
-/

namespace GoAutumnVault

/-! ## Go strings -/

/-- A Go `string`: a sequence of bytes. -/
abbrev GoString := List UInt8

/-- Go `utf8.EncodeRune` for a Unicode scalar value. -/
def encodeRune (c : Char) : GoString :=
  if c.toNat < 0x80 then [UInt8.ofNat c.toNat]
  else if c.toNat < 0x800 then
    [UInt8.ofNat (0xC0 + c.toNat / 64), UInt8.ofNat (0x80 + c.toNat % 64)]
  else if c.toNat < 0x10000 then
    [UInt8.ofNat (0xE0 + c.toNat / 4096), UInt8.ofNat (0x80 + c.toNat / 64 % 64),
      UInt8.ofNat (0x80 + c.toNat % 64)]
  else
    [UInt8.ofNat (0xF0 + c.toNat / 262144), UInt8.ofNat (0x80 + c.toNat / 4096 % 64),
      UInt8.ofNat (0x80 + c.toNat / 64 % 64), UInt8.ofNat (0x80 + c.toNat % 64)]

/-- The UTF-8 encoding of a sequence of characters (Go `string(runes)`). -/
def utf8Chars : List Char → GoString
  | [] => []
  | c :: cs => encodeRune c ++ utf8Chars cs

/-- The Go string that holds a text: its UTF-8 encoding. -/
def utf8 (s : String) : GoString := utf8Chars s.data

/-- A string literal stands for its UTF-8 bytes. -/
instance instCoeStringGoString : Coe String GoString := ⟨utf8⟩

/-- A continuation byte `10xxxxxx`. -/
def isCont (b : UInt8) : Bool := decide (0x80 ≤ b.toNat) && decide (b.toNat ≤ 0xBF)

/-- Lowest second byte that `utf8.DecodeRune` accepts after the first byte
`b0` (`acceptRanges`): it excludes the overlong encodings. -/
def secondLow (b0 : UInt8) : Nat :=
  if b0.toNat = 0xE0 then 0xA0 else if b0.toNat = 0xF0 then 0x90 else 0x80

/-- Highest second byte that `utf8.DecodeRune` accepts after the first byte
`b0` (`acceptRanges`): it excludes the surrogates and what lies above
U+10FFFF. -/
def secondHigh (b0 : UInt8) : Nat :=
  if b0.toNat = 0xED then 0x9F else if b0.toNat = 0xF4 then 0x8F else 0xBF

/-- Go `utf8.DecodeRune` at the head of a string: the character and the width
of its encoding. `none` stands for the result `(RuneError, 1)` of an invalid or
incomplete encoding (and for the empty input). -/
def decodeRune : GoString → Option (Char × Nat)
  | [] => none
  | b0 :: rest =>
    if b0.toNat < 0x80 then some (Char.ofNat b0.toNat, 1)
    else if 0xC2 ≤ b0.toNat ∧ b0.toNat ≤ 0xDF then
      match rest with
      | b1 :: _ =>
        if isCont b1 then some (Char.ofNat ((b0.toNat - 0xC0) * 64 + (b1.toNat - 0x80)), 2)
        else none
      | _ => none
    else if 0xE0 ≤ b0.toNat ∧ b0.toNat ≤ 0xEF then
      match rest with
      | b1 :: b2 :: _ =>
        if secondLow b0 ≤ b1.toNat ∧ b1.toNat ≤ secondHigh b0 ∧ isCont b2 then
          some (Char.ofNat ((b0.toNat - 0xE0) * 4096 + (b1.toNat - 0x80) * 64 +
            (b2.toNat - 0x80)), 3)
        else none
      | _ => none
    else if 0xF0 ≤ b0.toNat ∧ b0.toNat ≤ 0xF4 then
      match rest with
      | b1 :: b2 :: b3 :: _ =>
        if secondLow b0 ≤ b1.toNat ∧ b1.toNat ≤ secondHigh b0 ∧ isCont b2 ∧ isCont b3 then
          some (Char.ofNat ((b0.toNat - 0xF0) * 262144 + (b1.toNat - 0x80) * 4096 +
            (b2.toNat - 0x80) * 64 + (b3.toNat - 0x80)), 4)
        else none
      | _ => none
    else none

/-- The runes of a string from left to right, as a Go `range` loop or repeated
`utf8.DecodeRune` yields them: a character for each valid encoding, `none` for
each byte that starts none. The first argument counts the bytes still to skip
of the encoding that was decoded last. -/
def decodeRunesFrom : Nat → GoString → List (Option Char)
  | _, [] => []
  | skip + 1, _ :: rest => decodeRunesFrom skip rest
  | 0, b :: rest =>
    match decodeRune (b :: rest) with
    | some (c, size) => some c :: decodeRunesFrom (size - 1) rest
    | none => none :: decodeRunesFrom 0 rest

/-- The runes of a string; `none` marks an invalid byte. -/
def decodeRunes (s : GoString) : List (Option Char) := decodeRunesFrom 0 s

/-- The Unicode replacement character U+FFFD (`utf8.RuneError`). -/
def replacementChar : Char := Char.ofNat 0xFFFD

/-- Go `[]rune(s)`: the characters of a string, U+FFFD for each invalid byte. -/
def runesOf (s : GoString) : List Char := (decodeRunes s).map fun r => r.getD replacementChar

/-- The text that a string holds once every invalid byte is replaced by
U+FFFD: what the JSON encoder and decoder make of it. -/
def textOf (s : GoString) : String := String.mk (runesOf s)

/-- Go `utf8.ValidString`: no byte of the string is invalid. -/
def validString (s : GoString) : Bool := (decodeRunes s).all Option.isSome

/-! ## Go values -/

/-- Go error values and panics. `err` is a returned `error` with its message,
`panic` a run-time panic that unwinds the call. -/
inductive GoError where
  | err (msg : GoString) : GoError
  | panic (msg : GoString) : GoError
  deriving DecidableEq, Repr

/-- Decidable equality of results, so that closed instances evaluate. -/
instance instDecidableEqExcept {ε α : Type} [DecidableEq ε] [DecidableEq α] :
    DecidableEq (Except ε α)
  | .ok a, .ok b =>
    if h : a = b then isTrue (by rw [h]) else isFalse (fun h2 => h (by cases h2; rfl))
  | .error a, .error b =>
    if h : a = b then isTrue (by rw [h]) else isFalse (fun h2 => h (by cases h2; rfl))
  | .ok _, .error _ => isFalse (fun h => by cases h)
  | .error _, .ok _ => isFalse (fun h => by cases h)

/-- Representation of `map[string]T`: entries sorted strictly by key. -/
abbrev GoMapOf (β : Type) := List (GoString × β)

/-- Representation of `map[string]string`. -/
abbrev GoMap := GoMapOf GoString

/-- Go string comparison `a < b`: lexicographic, byte by byte. -/
def keyLt : GoString → GoString → Bool
  | _, [] => false
  | [], _ :: _ => true
  | a :: as, b :: bs =>
    if a.toNat < b.toNat then true
    else if a = b then keyLt as bs
    else false

/-- Comma-ok map read `v, ok := m[k]`. -/
def mapLookup {β : Type} (k : GoString) : GoMapOf β → Option β
  | [] => none
  | (k', v) :: rest => if k = k' then some v else mapLookup k rest

/-- Map assignment `m[k] = v`. -/
def mapInsert {β : Type} (k : GoString) (v : β) : GoMapOf β → GoMapOf β
  | [] => [(k, v)]
  | (k', v') :: rest =>
    if keyLt k k' then (k, v) :: (k', v') :: rest
    else if k = k' then (k, v) :: rest
    else (k', v') :: mapInsert k v rest

/-- Representation invariant of a Go map: the keys strictly increase. -/
def SortedKeys {β : Type} (m : GoMapOf β) : Prop :=
  List.Pairwise (fun a b => keyLt a.1 b.1 = true) m

/-- Go `strings.Split(s, ".")`: the pieces between the bytes `.` (0x2E). -/
def splitDot : GoString → List GoString
  | [] => [[]]
  | c :: cs =>
    if c = 0x2E then [] :: splitDot cs
    else
      match splitDot cs with
      | [] => [[c]]
      | h :: t => (c :: h) :: t

/-- Go `strings.Join(pieces, ".")`. -/
def joinDot : List GoString → GoString
  | [] => []
  | [s] => s
  | s :: t :: rest => s ++ 0x2E :: joinDot (t :: rest)

/-! ## encoding/json: the decoder

The scanner of `encoding/json` reads bytes. Outside string literals only ASCII
is legal, and inside a literal every byte that starts no valid UTF-8 encoding
is replaced by U+FFFD (`unquote`). The decoder below therefore reads the text
as the sequence of its runes, `runesOf`, in which each such byte is already
U+FFFD; the strings it yields are texts (`String`), stored as `utf8`. -/

/-- Syntax tree of a JSON text; object members are kept in textual order. -/
inductive JVal where
  | null : JVal
  | bool (b : Bool) : JVal
  | num (lit : String) : JVal
  | str (s : String) : JVal
  | arr (items : List JVal) : JVal
  | obj (fields : List (String × JVal)) : JVal

/-- JSON insignificant whitespace: space, tab, carriage return, line feed. -/
def isSpace (c : Char) : Bool :=
  c = ' ' || c = '\t' || c = '\r' || c = '\n'

/-- Drop leading JSON whitespace. -/
def skipSpace : List Char → List Char
  | [] => []
  | c :: cs => if isSpace c then skipSpace cs else c :: cs

/-- Value of a hexadecimal digit, in either case. -/
def hexVal (c : Char) : Option Nat :=
  if 48 ≤ c.toNat ∧ c.toNat ≤ 57 then some (c.toNat - 48)
  else if 97 ≤ c.toNat ∧ c.toNat ≤ 102 then some (c.toNat - 87)
  else if 65 ≤ c.toNat ∧ c.toNat ≤ 70 then some (c.toNat - 55)
  else none

/-- Value of the four hexadecimal digits of a `\u` escape (`getu4`). -/
def hex4 (a b c d : Char) : Option Nat :=
  match hexVal a, hexVal b, hexVal c, hexVal d with
  | some x, some y, some z, some w => some (((x * 16 + y) * 16 + z) * 16 + w)
  | _, _, _, _ => none

/-- One decoded unit of a string literal: a character, or the 16-bit value of
a `\u` escape (which may be half of a surrogate pair). -/
inductive StrUnit where
  | raw (c : Char) : StrUnit
  | esc (n : Nat) : StrUnit
  deriving DecidableEq

/-- The character denoted by a single-letter escape. -/
def simpleEscape (e : Char) : Option Char :=
  if e = '\x22' then some '\x22'
  else if e = '\x5c' then some '\x5c'
  else if e = '/' then some '/'
  else if e = 'b' then some '\x08'
  else if e = 'f' then some '\x0c'
  else if e = 'n' then some '\n'
  else if e = 'r' then some '\r'
  else if e = 't' then some '\t'
  else none

/-- Prepend a unit to a scan result. -/
def consUnit (u : StrUnit) (r : Option (List StrUnit × List Char)) :
    Option (List StrUnit × List Char) :=
  r.map fun p => (u :: p.1, p.2)

/-- Scan a string literal after its opening quote up to and including the
closing quote; `none` is a syntax error (unterminated literal, control
character, bad escape). -/
def strUnits : List Char → Option (List StrUnit × List Char)
  | [] => none
  | c :: cs =>
    if c = '\x22' then some ([], cs)
    else if c = '\x5c' then
      match cs with
      | [] => none
      | e :: r =>
        if e = 'u' then
          match r with
          | a :: b :: c1 :: d :: r1 =>
            match hex4 a b c1 d with
            | none => none
            | some n => consUnit (.esc n) (strUnits r1)
          | _ => none
        else
          match simpleEscape e with
          | some ch => consUnit (.raw ch) (strUnits r)
          | none => none
    else if c.toNat < 0x20 then none
    else consUnit (.raw c) (strUnits cs)

/-- Assemble the characters of a literal from its units (`unquote`): a high
surrogate escape directly followed by a low surrogate escape is one character,
any other surrogate escape is U+FFFD. The first argument is a pending high
surrogate. -/
def joinUnits : Option Nat → List StrUnit → List Char
  | none, [] => []
  | some _, [] => [replacementChar]
  | none, .raw c :: r => c :: joinUnits none r
  | some _, .raw c :: r => replacementChar :: c :: joinUnits none r
  | none, .esc n :: r =>
    if 0xD800 ≤ n ∧ n < 0xDC00 then joinUnits (some n) r
    else if 0xDC00 ≤ n ∧ n < 0xE000 then replacementChar :: joinUnits none r
    else Char.ofNat n :: joinUnits none r
  | some h, .esc n :: r =>
    if 0xDC00 ≤ n ∧ n < 0xE000 then
      Char.ofNat ((h - 0xD800) * 1024 + (n - 0xDC00) + 0x10000) :: joinUnits none r
    else if 0xD800 ≤ n ∧ n < 0xDC00 then replacementChar :: joinUnits (some n) r
    else replacementChar :: Char.ofNat n :: joinUnits none r

/-- Decode a string literal after its opening quote: the text and the rest of
the input. -/
def strBody (cs : List Char) : Option (List Char × List Char) :=
  (strUnits cs).map fun p => (joinUnits none p.1, p.2)

/-- Decimal digit test. -/
def isDigit (c : Char) : Bool := decide (48 ≤ c.toNat) && decide (c.toNat ≤ 57)

/-- Longest run of leading digits and the rest. -/
def spanDigits : List Char → List Char × List Char
  | [] => ([], [])
  | c :: cs =>
    if isDigit c then ((c :: (spanDigits cs).1), (spanDigits cs).2)
    else ([], c :: cs)

/-- Integer part of a number: `0` or a non-zero digit followed by digits. -/
def pInt : List Char → Option (List Char × List Char)
  | [] => none
  | c :: cs =>
    if c = '0' then some (['0'], cs)
    else if isDigit c then some (c :: (spanDigits cs).1, (spanDigits cs).2)
    else none

/-- Optional fraction: a dot followed by at least one digit. -/
def pFrac : List Char → Option (List Char × List Char)
  | [] => some ([], [])
  | c :: cs =>
    if c = '.' then
      if (spanDigits cs).1 = [] then none
      else some (c :: (spanDigits cs).1, (spanDigits cs).2)
    else some ([], c :: cs)

/-- Optional sign of an exponent. -/
def pSign : List Char → List Char × List Char
  | [] => ([], [])
  | c :: cs => if c = '+' ∨ c = '-' then ([c], cs) else ([], c :: cs)

/-- Optional exponent: `e` or `E`, an optional sign, at least one digit. -/
def pExp : List Char → Option (List Char × List Char)
  | [] => some ([], [])
  | c :: cs =>
    if c = 'e' ∨ c = 'E' then
      if (spanDigits (pSign cs).2).1 = [] then none
      else some (c :: (pSign cs).1 ++ (spanDigits (pSign cs).2).1, (spanDigits (pSign cs).2).2)
    else some ([], c :: cs)

/-- Number literal: optional minus, integer part, optional fraction and
exponent. Returns the literal and the rest of the input. -/
def pNumber (cs : List Char) : Option (List Char × List Char) :=
  let neg : List Char × List Char :=
    match cs with
    | [] => ([], [])
    | c :: r => if c = '-' then ([c], r) else ([], c :: r)
  match pInt neg.2 with
  | none => none
  | some (i, r1) =>
    match pFrac r1 with
    | none => none
    | some (f, r2) =>
      match pExp r2 with
      | none => none
      | some (e, r3) => some (neg.1 ++ i ++ f ++ e, r3)

/-- Expect the given characters at the head of the input. -/
def expectChars : List Char → List Char → Option (List Char)
  | [], cs => some cs
  | _ :: _, [] => none
  | w :: ws, c :: cs => if w = c then expectChars ws cs else none

/-- Nesting limit of the Go scanner (`maxNestingDepth`). -/
def maxNestingDepth : Nat := 10000

mutual
/-- Parse one JSON value at the head of the input (no leading whitespace).
The first argument bounds the recursion (the length of the text suffices), the
second is the nesting depth still allowed. `none` is a syntax error. -/
def pValue : Nat → Nat → List Char → Option (JVal × List Char)
  | 0, _, _ => none
  | fuel + 1, depth, cs =>
    match cs with
    | [] => none
    | c :: r =>
      if c = '\x7b' then
        match depth with
        | 0 => none
        | d + 1 =>
          match skipSpace r with
          | [] => none
          | c2 :: r2 =>
            if c2 = '\x7d' then some (JVal.obj [], r2)
            else (pMembers fuel d (c2 :: r2)).map fun p => (JVal.obj p.1, p.2)
      else if c = '[' then
        match depth with
        | 0 => none
        | d + 1 =>
          match skipSpace r with
          | [] => none
          | c2 :: r2 =>
            if c2 = ']' then some (JVal.arr [], r2)
            else (pElems fuel d (c2 :: r2)).map fun p => (JVal.arr p.1, p.2)
      else if c = '\x22' then
        (strBody r).map fun p => (JVal.str (String.mk p.1), p.2)
      else if c = 't' then
        (expectChars ['r', 'u', 'e'] r).map fun r2 => (JVal.bool true, r2)
      else if c = 'f' then
        (expectChars ['a', 'l', 's', 'e'] r).map fun r2 => (JVal.bool false, r2)
      else if c = 'n' then
        (expectChars ['u', 'l', 'l'] r).map fun r2 => (JVal.null, r2)
      else
        (pNumber (c :: r)).map fun p => (JVal.num (String.mk p.1), p.2)
/-- Parse the members of an object up to and including the closing brace. -/
def pMembers : Nat → Nat → List Char → Option (List (String × JVal) × List Char)
  | 0, _, _ => none
  | fuel + 1, depth, cs =>
    match cs with
    | [] => none
    | c :: r =>
      if c = '\x22' then
        match strBody r with
        | none => none
        | some (k, r1) =>
          match skipSpace r1 with
          | [] => none
          | c2 :: r2 =>
            if c2 = ':' then
              match pValue fuel depth (skipSpace r2) with
              | none => none
              | some (v, r3) =>
                match skipSpace r3 with
                | [] => none
                | c4 :: r4 =>
                  if c4 = ',' then
                    (pMembers fuel depth (skipSpace r4)).map fun p =>
                      ((String.mk k, v) :: p.1, p.2)
                  else if c4 = '\x7d' then some ([(String.mk k, v)], r4)
                  else none
            else none
      else none
/-- Parse the elements of an array up to and including the closing bracket. -/
def pElems : Nat → Nat → List Char → Option (List JVal × List Char)
  | 0, _, _ => none
  | fuel + 1, depth, cs =>
    match pValue fuel depth cs with
    | none => none
    | some (v, r) =>
      match skipSpace r with
      | [] => none
      | c2 :: r2 =>
        if c2 = ',' then (pElems fuel depth (skipSpace r2)).map fun p => (v :: p.1, p.2)
        else if c2 = ']' then some ([v], r2)
        else none
end

/-- Parse a complete JSON text given as its characters: one value surrounded
by optional whitespace (`checkValid` followed by decoding). `none` is a syntax
error. -/
def parseChars (cs : List Char) : Option JVal :=
  match pValue (cs.length + 1) maxNestingDepth (skipSpace cs) with
  | none => none
  | some (v, r) => if skipSpace r = [] then some v else none

/-- Parse a complete JSON text. -/
def parseJSON (text : GoString) : Option JVal := parseChars (runesOf text)

/-! ## encoding/json: `Marshal` and `Unmarshal` for `map[string]string` -/

/-- Lower-case hexadecimal digit of a value below 16. -/
def hexDigit (n : Nat) : Char :=
  if n < 10 then Char.ofNat (48 + n) else Char.ofNat (87 + n)

/-- Encoding of one character inside a string literal (`appendString` with
HTML escaping, as `json.Marshal` uses it). -/
def escapeChar (c : Char) : List Char :=
  if c = '\x22' then ['\x5c', '\x22']
  else if c = '\x5c' then ['\x5c', '\x5c']
  else if c = '\x08' then ['\x5c', 'b']
  else if c = '\x0c' then ['\x5c', 'f']
  else if c = '\n' then ['\x5c', 'n']
  else if c = '\r' then ['\x5c', 'r']
  else if c = '\t' then ['\x5c', 't']
  else if c.toNat < 0x20 ∨ c = '<' ∨ c = '>' ∨ c = '&' then
    ['\x5c', 'u', '0', '0', hexDigit (c.toNat / 16), hexDigit (c.toNat % 16)]
  else if c.toNat = 0x2028 ∨ c.toNat = 0x2029 then
    ['\x5c', 'u', '2', '0', '2', hexDigit (c.toNat % 16)]
  else [c]

/-- Encoding of one rune of a Go string inside a string literal: an invalid
byte is written as the escape `\ufffd`. -/
def escapeRune : Option Char → List Char
  | some c => escapeChar c
  | none => ['\x5c', 'u', 'f', 'f', 'f', 'd']

/-- Escaped body of a string literal. -/
def escapeRunes : List (Option Char) → List Char
  | [] => []
  | r :: rs => escapeRune r ++ escapeRunes rs

/-- A quoted string literal (`appendString`). -/
def quoteChars (s : GoString) : List Char :=
  '\x22' :: (escapeRunes (decodeRunes s) ++ ['\x22'])

/-- One object member `"key":"value"`. -/
def marshalMember (kv : GoString × GoString) : List Char :=
  quoteChars kv.1 ++ ':' :: quoteChars kv.2

/-- Comma-separated members of an object, in the order of the map. -/
def marshalMembers : GoMap → List Char
  | [] => []
  | [kv] => marshalMember kv
  | kv :: kv2 :: rest => marshalMember kv ++ ',' :: marshalMembers (kv2 :: rest)

/-- Go `json.Marshal` of a non-nil `map[string]string`: members sorted by key,
invalid bytes of keys and values written as `\ufffd`. It never fails for this
type. -/
def jsonMarshalStringMap (m : GoMap) : GoString :=
  utf8Chars ('\x7b' :: (marshalMembers m ++ ['\x7d']))

/-- Store the members of a JSON object into a `map[string]string`: a string is
stored, `null` stores the zero value, anything else is a type error (`none`). -/
def decodeStringFields : List (String × JVal) → GoMap → Option GoMap
  | [], m => some m
  | (k, v) :: rest, m =>
    match v with
    | JVal.str s => decodeStringFields rest (mapInsert (utf8 k) (utf8 s) m)
    | JVal.null => decodeStringFields rest (mapInsert (utf8 k) [] m)
    | _ => none

/-- Go `json.Unmarshal(text, &m)` for a freshly made `m : map[string]string`.
The result `none` is the nil map that a top-level `null` leaves behind. The
messages stand for `*json.SyntaxError` and `*json.UnmarshalTypeError`. -/
def jsonUnmarshalStringMap (text : GoString) : Except GoString (Option GoMap) :=
  match parseJSON text with
  | none => .error "invalid JSON text"
  | some JVal.null => .ok none
  | some (JVal.obj fields) =>
    match decodeStringFields fields [] with
    | some m => .ok (some m)
    | none => .error "json: cannot unmarshal value into Go value of type string"
  | some _ => .error "json: cannot unmarshal value into Go value of type map[string]string"

/-- A map whose keys and values are valid UTF-8: what `json.Marshal` writes
for it, `json.Unmarshal` reads back unchanged. -/
def CleanMap (m : GoMap) : Prop :=
  SortedKeys m ∧ ∀ e ∈ m, validString e.1 = true ∧ validString e.2 = true

/-! ## JSON texts as they are written

The texts of the shapes that the claims speak about, described by their
spelling (RFC 8259): string literals with their escapes and objects whose
members are strings, with any amount of whitespace between the tokens. These
definitions describe texts; they do not use the decoder. -/

/-- JSON whitespace: space, tab, line feed, carriage return. -/
def isBlank (c : Char) : Bool := c = ' ' || c = '\t' || c = '\n' || c = '\r'

/-- A run of whitespace. -/
def allBlank (cs : List Char) : Bool := cs.all isBlank

/-- A hexadecimal digit as it is written; `upper` selects `A`-`F` over
`a`-`f`. -/
def spellHex (d : Nat) (upper : Bool) : Char :=
  if d < 10 then Char.ofNat (48 + d)
  else if upper then Char.ofNat (55 + d)
  else Char.ofNat (87 + d)

/-- A `\uXXXX` escape: its 16-bit value and the case of each of its digits. -/
structure HexEscape where
  value : Nat
  upper3 : Bool
  upper2 : Bool
  upper1 : Bool
  upper0 : Bool

/-- The six characters of a `\uXXXX` escape. -/
def HexEscape.spelling (h : HexEscape) : List Char :=
  ['\x5c', 'u', spellHex (h.value / 4096) h.upper3, spellHex (h.value / 256 % 16) h.upper2,
    spellHex (h.value / 16 % 16) h.upper1, spellHex (h.value % 16) h.upper0]

/-- One item of a string literal: an unescaped character, a two-character
escape, a `\u` escape of a character of the basic plane, or a surrogate pair
of two `\u` escapes. -/
inductive StrItem where
  | plain (c : Char) : StrItem
  | short (e : Char) : StrItem
  | hex (h : HexEscape) : StrItem
  | pair (hi lo : HexEscape) : StrItem

/-- The item is legal JSON: an unescaped character is neither a control
character nor a quote nor a backslash, an escape letter is one of the eight
of the grammar, a single `\u` escape is no surrogate and a pair is a high
surrogate followed by a low one. -/
def StrItem.wellFormed : StrItem → Bool
  | .plain c => decide (0x20 ≤ c.toNat) && decide (c ≠ '\x22') && decide (c ≠ '\x5c')
  | .short e =>
    decide (e = '\x22' ∨ e = '\x5c' ∨ e = '/' ∨ e = 'b' ∨ e = 'f' ∨ e = 'n' ∨ e = 'r' ∨ e = 't')
  | .hex h => decide (h.value < 0xD800 ∨ (0xE000 ≤ h.value ∧ h.value < 0x10000))
  | .pair hi lo =>
    decide (0xD800 ≤ hi.value ∧ hi.value < 0xDC00 ∧ 0xDC00 ≤ lo.value ∧ lo.value < 0xE000)

/-- How the item is written. -/
def StrItem.spelling : StrItem → List Char
  | .plain c => [c]
  | .short e => ['\x5c', e]
  | .hex h => h.spelling
  | .pair hi lo => hi.spelling ++ lo.spelling

/-- The character that the item denotes. -/
def StrItem.char : StrItem → Char
  | .plain c => c
  | .short e =>
    if e = 'b' then '\x08'
    else if e = 'f' then '\x0c'
    else if e = 'n' then '\n'
    else if e = 'r' then '\r'
    else if e = 't' then '\t'
    else e
  | .hex h => Char.ofNat h.value
  | .pair hi lo => Char.ofNat (0x10000 + (hi.value - 0xD800) * 1024 + (lo.value - 0xDC00))

/-- The items of a literal, written one after the other. -/
def spellItems : List StrItem → List Char
  | [] => []
  | item :: rest => item.spelling ++ spellItems rest

/-- A string literal as it is written, between its quotes. -/
def spellLiteral (items : List StrItem) : List Char :=
  '\x22' :: (spellItems items ++ ['\x22'])

/-- The text that a string literal denotes. -/
def literalText (items : List StrItem) : String := String.mk (items.map StrItem.char)

/-- An object member whose value is a string, with the whitespace around its
tokens. -/
structure StrMember where
  before : List Char
  key : List StrItem
  afterKey : List Char
  afterColon : List Char
  value : List StrItem
  after : List Char

/-- The member is legal JSON. -/
def StrMember.wellFormed (m : StrMember) : Bool :=
  allBlank m.before && m.key.all StrItem.wellFormed && allBlank m.afterKey &&
    allBlank m.afterColon && m.value.all StrItem.wellFormed && allBlank m.after

/-- How the member is written: `key : value`. -/
def StrMember.spelling (m : StrMember) : List Char :=
  m.before ++ (spellLiteral m.key ++ (m.afterKey ++ ':' ::
    (m.afterColon ++ (spellLiteral m.value ++ m.after))))

/-- Members separated by commas. -/
def spellMembers : List StrMember → List Char
  | [] => []
  | [m] => m.spelling
  | m :: m2 :: rest => m.spelling ++ ',' :: spellMembers (m2 :: rest)

/-- A JSON object whose member values are all strings, as it is written:
whitespace, an opening brace, whitespace, the members, a closing brace,
whitespace. -/
structure ObjectDoc where
  lead : List Char
  inner : List Char
  members : List StrMember
  trail : List Char

/-- The object is legal JSON. -/
def ObjectDoc.wellFormed (o : ObjectDoc) : Bool :=
  allBlank o.lead && allBlank o.inner && o.members.all StrMember.wellFormed && allBlank o.trail

/-- How the object is written. -/
def ObjectDoc.spelling (o : ObjectDoc) : List Char :=
  o.lead ++ '\x7b' :: (o.inner ++ (spellMembers o.members ++ '\x7d' :: o.trail))

/-- The object as a Go string: its spelling in UTF-8. -/
def ObjectDoc.bytes (o : ObjectDoc) : GoString := utf8Chars o.spelling

/-- The members that the object denotes, in textual order. -/
def ObjectDoc.fields (o : ObjectDoc) : List (String × String) :=
  o.members.map fun m => (literalText m.key, literalText m.value)

/-! ## pkg/vault -/

namespace Pkg

/-- Go `SecretConfig` of `pkg/vault/config.go`; `ConfigKey` is a `*string`. -/
structure SecretConfig where
  VaultKey : GoString
  ConfigKey : Option GoString
  deriving DecidableEq, Repr

/-- Go `SecretsConfig`: the entries of the map in iteration order. -/
abbrev SecretsConfig := List (GoString × List SecretConfig)

/-- The `Client` interface: what `ObtainSecrets(ctx, path)` returns. -/
abbrev Client := GoString → Except GoError GoMap

/-- Go `appendSecretToMap`. On a decoding error Go returns the pair
`("{}", err)`; the string of that pair is dropped here, as the only caller
drops it. Assigning into the nil map left by a JSON `null` panics. -/
def appendSecretToMap (secretMapJson secretKey secretValue : GoString) :
    Except GoError GoString :=
  if secretMapJson ≠ "" then
    match jsonUnmarshalStringMap secretMapJson with
    | .error e => .error (GoError.err e)
    | .ok none => .error (GoError.panic "assignment to entry in nil map")
    | .ok (some secretMap) => .ok (jsonMarshalStringMap (mapInsert secretKey secretValue secretMap))
  else .ok (jsonMarshalStringMap (mapInsert secretKey secretValue []))

/-- The destination key of a mapping (lines 41-44 of `ObtainSecrets`). -/
def effectiveConfigKey (secretConfig : SecretConfig) : GoString :=
  match secretConfig.ConfigKey with
  | some k => if k ≠ "" then k else secretConfig.VaultKey
  | none => secretConfig.VaultKey

/-- Zero value for a missing map entry: `values[k]` without comma-ok. -/
def mapGet (k : GoString) (m : GoMap) : GoString := (mapLookup k m).getD ""

/-- Body of the inner loop of `ObtainSecrets` for one mapping. -/
def obtainEntry (path : GoString) (secrets : GoMap) (secretConfig : SecretConfig)
    (values : GoMap) : Except GoError GoMap :=
  match mapLookup secretConfig.VaultKey secrets with
  | some secret =>
    match splitDot (effectiveConfigKey secretConfig) with
    | k0 :: k1 :: _ =>
      match appendSecretToMap (mapGet k0 values) k1 secret with
      | .ok secretsMap => .ok (mapInsert k0 secretsMap values)
      | .error (GoError.err _) =>
        .error (GoError.err ("nested secret key " ++ effectiveConfigKey secretConfig ++
          " from vault path " ++ path ++ " is not valid"))
      | .error (GoError.panic p) => .error (GoError.panic p)
    | _ => .ok (mapInsert (effectiveConfigKey secretConfig) secret values)
  | none =>
    .error (GoError.err ("key " ++ secretConfig.VaultKey ++
      " does not exist at vault path " ++ path))

/-- Inner loop of `ObtainSecrets`: the mappings of one path, in order. -/
def obtainEntries (path : GoString) (secrets : GoMap) :
    List SecretConfig → GoMap → Except GoError GoMap
  | [], values => .ok values
  | secretConfig :: rest, values =>
    match obtainEntry path secrets secretConfig values with
    | .ok values2 => obtainEntries path secrets rest values2
    | .error e => .error e

/-- Outer loop of `ObtainSecrets`: the paths, in iteration order. -/
def obtainPaths (client : Client) : SecretsConfig → GoMap → Except GoError GoMap
  | [], values => .ok values
  | (path, secretsConfig) :: rest, values =>
    match client path with
    | .error e => .error e
    | .ok secrets =>
      match obtainEntries path secrets secretsConfig values with
      | .ok values2 => obtainPaths client rest values2
      | .error e => .error e

/-- Go `Vault.ObtainSecrets` of `pkg/vault/vault.go`. An error result stands
for the Go result `(nil, err)`. -/
def ObtainSecrets (config : SecretsConfig) (client : Client) : Except GoError GoMap :=
  obtainPaths client config []

/-- All mappings of a configuration with their path, in processing order. -/
def mappings : SecretsConfig → List (GoString × SecretConfig)
  | [] => []
  | (path, secretsConfig) :: rest => secretsConfig.map (fun sc => (path, sc)) ++ mappings rest

/-- The value fetched for a mapping: the entry of its vaultKey in the data the
client returns for its path. -/
def fetched (client : Client) (mapping : GoString × SecretConfig) : Option GoString :=
  match client mapping.1 with
  | .ok secrets => mapLookup mapping.2.VaultKey secrets
  | .error _ => none

/-- The dot-separated segments of the destination key of a mapping. -/
def segments (secretConfig : SecretConfig) : List GoString :=
  splitDot (effectiveConfigKey secretConfig)

/-- The map `values` holds exactly the destinations of the mappings `done`:
a one-segment key is bound to the fetched value, a two-segment key
`parent.child` is the entry `child` of the JSON object under `parent` (the
encoding of a map `g` of valid UTF-8 strings), whose children are all
declared, and every top-level key is declared. -/
def Resolves (client : Client) (done : List (GoString × SecretConfig)) (values : GoMap) : Prop :=
  (∀ pm ∈ done, (segments pm.2).length = 1 →
      mapLookup (effectiveConfigKey pm.2) values = fetched client pm) ∧
  (∀ pm ∈ done, ∀ p c, segments pm.2 = [p, c] →
      ∃ g, CleanMap g ∧ mapLookup p values = some (jsonMarshalStringMap g) ∧
        mapLookup c g = fetched client pm ∧
        ∀ c2, (mapLookup c2 g).isSome = true → ∃ pm2 ∈ done, segments pm2.2 = [p, c2]) ∧
  (∀ k, (mapLookup k values).isSome = true →
      ∃ pm ∈ done, ((segments pm.2).length = 1 ∧ effectiveConfigKey pm.2 = k) ∨
        ∃ c, segments pm.2 = [k, c])

/-- The map that a call returns; `none` when the call fails. -/
def resultMap (r : Except GoError GoMap) : Option GoMap :=
  match r with
  | .ok values => some values
  | .error _ => none

/-- The top-level key that a mapping assigns: `keys[0]` for a dotted
destination key, the destination key itself otherwise (lines 45-53 of
`ObtainSecrets`). -/
def topKey (secretConfig : SecretConfig) : GoString :=
  match segments secretConfig with
  | k0 :: _ :: _ => k0
  | _ => effectiveConfigKey secretConfig

/-- The child key `keys[1]` of a dotted destination key. -/
def childKey (secretConfig : SecretConfig) : Option GoString :=
  match segments secretConfig with
  | _ :: k1 :: _ => some k1
  | _ => none

/-- Two mappings write different places: their top-level keys differ, or both
are dotted and their child keys differ. -/
def independent (a b : SecretConfig) : Bool :=
  decide (topKey a ≠ topKey b) ||
    match childKey a, childKey b with
    | some c1, some c2 => decide (c1 ≠ c2)
    | _, _ => false

/-- Mappings of different paths write different places. -/
def PathsIndependent (config : SecretsConfig) : Prop :=
  config.Pairwise fun pe1 pe2 => ∀ sc1 ∈ pe1.2, ∀ sc2 ∈ pe2.2, independent sc1 sc2 = true

/-- Run partial steps one after the other, stopping at the first failure. -/
def runSteps : List (GoMap → Option GoMap) → GoMap → Option GoMap
  | [], values => some values
  | step :: rest, values => (step values).bind (runSteps rest)

/-- Two partial steps can be swapped: in either order they fail together or
yield the same map. -/
def Commutes (f g : GoMap → Option GoMap) : Prop :=
  ∀ values, (f values).bind g = (g values).bind f

/-- One mapping as a partial step on `values`. -/
def entryStep (path : GoString) (secrets : GoMap) (secretConfig : SecretConfig) :
    GoMap → Option GoMap :=
  fun values => resultMap (obtainEntry path secrets secretConfig values)

/-- One path with its mappings as a partial step on `values`. -/
def pathStep (client : Client) (pe : GoString × List SecretConfig) : GoMap → Option GoMap :=
  fun values =>
    match client pe.1 with
    | .ok secrets => resultMap (obtainEntries pe.1 secrets pe.2 values)
    | .error _ => none

/-- The assignment `values[k] = x` as a step. -/
def setStep (k x : GoString) : GoMap → Option GoMap :=
  fun values => some (mapInsert k x values)

/-- The merge of `c -> x` into the group under `k` as a step (lines 46-50 of
`ObtainSecrets`). -/
def mergeStep (k c x : GoString) : GoMap → Option GoMap :=
  fun values =>
    match appendSecretToMap (mapGet k values) c x with
    | .ok secretsMap => some (mapInsert k secretsMap values)
    | .error _ => none

end Pkg


/-! ## Dynamic values and `fmt` -/

/-- A Go value of type `interface{}` as the store client decodes it from JSON
(with `UseNumber`): nil, bool, `json.Number`, string, `[]interface{}` and
`map[string]interface{}`. -/
inductive GoAny where
  | nil : GoAny
  | bool (b : Bool) : GoAny
  | number (lit : GoString) : GoAny
  | str (s : GoString) : GoAny
  | slice (items : List GoAny) : GoAny
  | map (fields : List (GoString × GoAny)) : GoAny

mutual
/-- Go `fmt.Sprintf("%v", v)` for the dynamic values above. -/
def fmtV : GoAny → GoString
  | .nil => "<nil>"
  | .bool b => if b then "true" else "false"
  | .number lit => lit
  | .str s => s
  | .slice items => "[" ++ (fmtItems items ++ "]")
  | .map fields => "map[" ++ (fmtFields fields ++ "]")
/-- Elements of a slice, separated by blanks. -/
def fmtItems : List GoAny → GoString
  | [] => []
  | [x] => fmtV x
  | x :: y :: rest => fmtV x ++ (" " ++ fmtItems (y :: rest))
/-- Entries `key:value` of a map in key order, separated by blanks. -/
def fmtFields : List (GoString × GoAny) → GoString
  | [] => []
  | [(k, v)] => k ++ (":" ++ fmtV v)
  | (k, v) :: y :: rest => k ++ (":" ++ (fmtV v ++ (" " ++ fmtFields (y :: rest))))
end

/-! ## Root package: configuration -/

/-- Go `SecretConfig` of `config.go`; `EnvVar` is a `*string`. -/
structure SecretConfig where
  VaultKey : GoString
  EnvVar : Option GoString
  deriving DecidableEq, Repr

/-- Go `SecretsConfig` (`map[string][]SecretConfig`). Where the code ranges
over it, the list order is the iteration order. -/
abbrev SecretsConfig := GoMapOf (List SecretConfig)

/-- Go `Config` of `config.go`. -/
structure Config where
  Disabled : Bool
  ServerURL : GoString
  AuthToken : GoString
  AuthKubernetesRole : GoString
  AuthKubernetesTokenPath : GoString
  AuthKubernetesBackend : GoString
  SecretsConfig : SecretsConfig
  deriving DecidableEq, Repr

/-- Go `NewConfig`: the zero value. -/
def NewConfig : Config :=
  { Disabled := false, ServerURL := "", AuthToken := "", AuthKubernetesRole := "",
    AuthKubernetesTokenPath := "", AuthKubernetesBackend := "", SecretsConfig := [] }

/-- Case folding of one character as far as it matters for matching an ASCII
field name (`foldName` of `encoding/json`): ASCII letters, the long s and the
Kelvin sign fold to the upper-case ASCII letter. -/
def foldChar (c : Char) : Char :=
  if 97 ≤ c.toNat ∧ c.toNat ≤ 122 then Char.ofNat (c.toNat - 32)
  else if c.toNat = 0x17F then 'S'
  else if c.toNat = 0x212A then 'K'
  else c

/-- Folded spelling of an object key. -/
def foldName (s : String) : List Char := s.data.map foldChar

/-- Decode the members of a JSON object into a `SecretConfig`: a key that
matches `vaultKey` or `envVar` (exactly or up to case) sets the field, `null`
leaves a string unchanged and resets a pointer, other keys are skipped, a value
of another type is a type error (`none`). -/
def decodeSecretConfigFields : List (String × JVal) → SecretConfig → Option SecretConfig
  | [], sc => some sc
  | (name, v) :: rest, sc =>
    if foldName name = foldName "vaultKey" then
      match v with
      | JVal.str s => decodeSecretConfigFields rest { sc with VaultKey := utf8 s }
      | JVal.null => decodeSecretConfigFields rest sc
      | _ => none
    else if foldName name = foldName "envVar" then
      match v with
      | JVal.str s => decodeSecretConfigFields rest { sc with EnvVar := some (utf8 s) }
      | JVal.null => decodeSecretConfigFields rest { sc with EnvVar := none }
      | _ => none
    else decodeSecretConfigFields rest sc

/-- Decode one array element into a `SecretConfig`. -/
def decodeSecretConfig : JVal → Option SecretConfig
  | JVal.obj fields => decodeSecretConfigFields fields { VaultKey := "", EnvVar := none }
  | JVal.null => some { VaultKey := "", EnvVar := none }
  | _ => none

/-- Decode the elements of an array, in order. -/
def decodeSecretConfigs : List JVal → Option (List SecretConfig)
  | [] => some []
  | v :: rest =>
    match decodeSecretConfig v, decodeSecretConfigs rest with
    | some sc, some scs => some (sc :: scs)
    | _, _ => none

/-- Decode a JSON value into a `[]SecretConfig`. -/
def decodeSecretConfigSlice : JVal → Option (List SecretConfig)
  | JVal.arr items => decodeSecretConfigs items
  | JVal.null => some []
  | _ => none

/-- Store the members of the top-level object into the map, in order. -/
def decodeSecretsConfigFields : List (String × JVal) → SecretsConfig → Option SecretsConfig
  | [], m => some m
  | (path, v) :: rest, m =>
    match decodeSecretConfigSlice v with
    | some scs => decodeSecretsConfigFields rest (mapInsert (utf8 path) scs m)
    | none => none

/-- Go `parseSecretsConfig` of `config.go`: `json.Unmarshal` into a
`SecretsConfig`. The nil map left by a top-level `null` is the empty map. -/
def parseSecretsConfig (value : GoString) : Except GoError SecretsConfig :=
  match parseJSON value with
  | none => .error (GoError.err "invalid JSON text")
  | some JVal.null => .ok []
  | some (JVal.obj fields) =>
    match decodeSecretsConfigFields fields [] with
    | some m => .ok m
    | none => .error (GoError.err "json: cannot unmarshal value into Go struct field")
  | some _ =>
    .error (GoError.err "json: cannot unmarshal value into Go value of type vault.SecretsConfig")

/-! ## The configuration text as it is written

The JSON texts that the documentation of `VAULT_SECRETS_CONFIG` describes: an
object that maps paths to arrays of objects with a `vaultKey` and an optional
`envVar`. As above, the definitions describe how the text is spelt and what it
denotes, without the decoder. -/

/-- A member `path : [entries]` of the configuration object, with the
whitespace around its tokens; `inner` follows the opening bracket. -/
structure PathMember where
  before : List Char
  path : List StrItem
  afterKey : List Char
  afterColon : List Char
  inner : List Char
  entries : List ObjectDoc
  after : List Char

/-- The member is legal JSON. -/
def PathMember.wellFormed (m : PathMember) : Bool :=
  allBlank m.before && m.path.all StrItem.wellFormed && allBlank m.afterKey &&
    allBlank m.afterColon && allBlank m.inner && m.entries.all ObjectDoc.wellFormed &&
    allBlank m.after

/-- The elements of an array, separated by commas. -/
def spellEntries : List ObjectDoc → List Char
  | [] => []
  | [o] => o.spelling
  | o :: o2 :: rest => o.spelling ++ ',' :: spellEntries (o2 :: rest)

/-- How the member is written: `path : [entries]`. -/
def PathMember.spelling (m : PathMember) : List Char :=
  m.before ++ (spellLiteral m.path ++ (m.afterKey ++ ':' ::
    (m.afterColon ++ '[' :: (m.inner ++ (spellEntries m.entries ++ ']' :: m.after)))))

/-- Members separated by commas. -/
def spellPathMembers : List PathMember → List Char
  | [] => []
  | [m] => m.spelling
  | m :: m2 :: rest => m.spelling ++ ',' :: spellPathMembers (m2 :: rest)

/-- A configuration text as it is written. -/
structure ConfigDoc where
  lead : List Char
  inner : List Char
  members : List PathMember
  trail : List Char

/-- The text is legal JSON. -/
def ConfigDoc.wellFormed (d : ConfigDoc) : Bool :=
  allBlank d.lead && allBlank d.inner && d.members.all PathMember.wellFormed && allBlank d.trail

/-- How the configuration is written. -/
def ConfigDoc.spelling (d : ConfigDoc) : List Char :=
  d.lead ++ '\x7b' :: (d.inner ++ (spellPathMembers d.members ++ '\x7d' :: d.trail))

/-- The configuration as a Go string: its spelling in UTF-8. -/
def ConfigDoc.bytes (d : ConfigDoc) : GoString := utf8Chars d.spelling

/-- The mapping that an array element describes: an object with a `vaultKey`
and, optionally, an `envVar`; `none` for an object of another shape. -/
def describedEntry (o : ObjectDoc) : Option SecretConfig :=
  match o.fields with
  | [(k1, v1)] => if k1 = "vaultKey" then some ⟨utf8 v1, none⟩ else none
  | [(k1, v1), (k2, v2)] =>
    if k1 = "vaultKey" ∧ k2 = "envVar" then some ⟨utf8 v1, some (utf8 v2)⟩
    else if k1 = "envVar" ∧ k2 = "vaultKey" then some ⟨utf8 v2, some (utf8 v1)⟩
    else none
  | _ => none

/-- The described entries of an array, in array order. -/
def describedEntries : List ObjectDoc → Option (List SecretConfig)
  | [] => some []
  | o :: rest =>
    match describedEntry o, describedEntries rest with
    | some sc, some scs => some (sc :: scs)
    | _, _ => none

/-- The described paths of the members, in textual order. -/
def describedPaths : List PathMember → Option (List (GoString × List SecretConfig))
  | [] => some []
  | m :: rest =>
    match describedEntries m.entries, describedPaths rest with
    | some scs, some more => some ((utf8 (literalText m.path), scs) :: more)
    | _, _ => none

/-- The content of a configuration text: its paths with their mappings, in
textual order; `none` when some array element is not an object with a
`vaultKey` and an optional `envVar`. -/
def ConfigDoc.described (d : ConfigDoc) : Option (List (GoString × List SecretConfig)) :=
  describedPaths d.members

/-- Go `strconv.ParseBool`. -/
def parseBool (s : GoString) : Option Bool :=
  if s = "1" ∨ s = "t" ∨ s = "T" ∨ s = "TRUE" ∨ s = "true" ∨ s = "True" then some true
  else if s = "0" ∨ s = "f" ∨ s = "F" ∨ s = "FALSE" ∨ s = "false" ∨ s = "False" then some false
  else none

/-- The value that `env.Parse` processes for a field (`getOr`): the variable,
or the `envDefault` when the variable is unset or empty; the empty string when
there is neither. -/
def getOr (environ : GoMap) (key : GoString) (envDefault : Option GoString) : GoString :=
  match mapLookup key environ, envDefault with
  | none, some d => d
  | none, none => ""
  | some v, some d => if v = "" then d else v
  | some v, none => v

/-- A string field of the configuration: set when the value is not empty. -/
def envString (environ : GoMap) (key : GoString) (current : GoString) : GoString :=
  if getOr environ key none ≠ "" then getOr environ key none else current

/-- Go `Config.ObtainValuesFromEnv`: `env.ParseWithOptions` over the fields of
`Config` with `parseSecretsConfig` registered for `SecretsConfig`. A field is
set when its value is not empty; any field that fails to parse makes the call
return an error. -/
def ObtainValuesFromEnv (c : Config) (environ : GoMap) : Except GoError Config :=
  let disabled : Except GoError Bool :=
    if getOr environ "VAULT_DISABLED" (some "false") ≠ "" then
      match parseBool (getOr environ "VAULT_DISABLED" (some "false")) with
      | some b => .ok b
      | none => .error (GoError.err "env: parse error on field \"Disabled\" of type \"bool\"")
    else .ok c.Disabled
  let secretsConfig : Except GoError SecretsConfig :=
    if getOr environ "VAULT_SECRETS_CONFIG" (some "\x7b\x7d") ≠ "" then
      parseSecretsConfig (getOr environ "VAULT_SECRETS_CONFIG" (some "\x7b\x7d"))
    else .ok c.SecretsConfig
  match disabled, secretsConfig with
  | .ok d, .ok sc =>
    .ok { Disabled := d,
          ServerURL := envString environ "VAULT_URL" c.ServerURL,
          AuthToken := envString environ "VAULT_AUTH_TOKEN" c.AuthToken,
          AuthKubernetesRole := envString environ "VAULT_AUTH_KUBERNETES_ROLE" c.AuthKubernetesRole,
          AuthKubernetesTokenPath :=
            if getOr environ "VAULT_AUTH_KUBERNETES_TOKEN_PATH"
                (some "/var/run/secrets/kubernetes.io/serviceaccount/token") ≠ "" then
              getOr environ "VAULT_AUTH_KUBERNETES_TOKEN_PATH"
                (some "/var/run/secrets/kubernetes.io/serviceaccount/token")
            else c.AuthKubernetesTokenPath,
          AuthKubernetesBackend :=
            envString environ "VAULT_AUTH_KUBERNETES_BACKEND" c.AuthKubernetesBackend,
          SecretsConfig := sc }
  | .error e, _ => .error e
  | .ok _, .error e => .error e

/-! ## Root package: the store, the process and the Vault -/

/-- The `Auth` block of a store response (`baoapi.SecretAuth`). -/
structure SecretAuth where
  ClientToken : GoString

/-- A store response (`baoapi.Secret`), as far as the code reads it. -/
structure Secret where
  Data : GoMapOf GoAny
  Auth : Option SecretAuth

/-- An effect on the outside world. -/
inductive Event where
  | readFile (path : GoString) : Event
  | loginWrite (path jwt role : GoString) : Event
  | read (path : GoString) : Event
  | setenv (key value : GoString) : Event
  deriving DecidableEq, Repr

/-- The outside world: what the store client and the file system answer. Each
answer may depend on all effects that happened before (`hist`, oldest first).
`NewClient` is `baoapi.NewClient`: it fails or yields a client whose token is
taken from the process environment (possibly empty). -/
structure World where
  NewClient : GoString → Except GoString GoString
  ReadFile : List Event → GoString → Except GoString GoString
  Write : List Event → GoString → GoString → GoString → Except GoString (Option Secret)
  Read : List Event → GoString → GoString → Except GoString (Option Secret)

/-- The store client (`*baoapi.Client`) as far as the code uses it: its token. -/
structure BaoClient where
  token : GoString
  deriving DecidableEq, Repr

/-- Go `Vault` of `vault.go`; a nil `baoClient` is `none`. The mutex is
represented by the atomicity of the functions that hold it. -/
structure Vault where
  config : Config
  baoClient : Option BaoClient
  deriving DecidableEq, Repr

/-- The state a call runs in: the Vault, the process environment and the log
of effects so far (oldest first). -/
structure State where
  vault : Vault
  environ : GoMap
  log : List Event
  deriving DecidableEq, Repr

/-- Go `baoClient.SetToken`. -/
def State.setToken (s : State) (token : GoString) : State :=
  { s with vault := { s.vault with baoClient := some { token := token } } }

/-- Record an effect. -/
def State.logged (s : State) (e : Event) : State :=
  { s with log := s.log ++ [e] }

/-- The token of the client, when there is a client. -/
def State.token (s : State) : Option GoString := s.vault.baoClient.map BaoClient.token

/-- Go `New` of `vault.go`, in a process with the given environment. -/
def New (w : World) (config : Config) (environ : GoMap) : Except GoError State :=
  match w.NewClient config.ServerURL with
  | .error e => .error (GoError.err e)
  | .ok token0 =>
    .ok { vault := { config := config,
                     baoClient := some { token := if config.AuthToken ≠ "" then config.AuthToken
                                                  else token0 } },
          environ := environ, log := [] }

/-- The error of `refreshAuthToken` for a response without a client token. -/
def errNoClientToken : GoError := GoError.err "no client token returned from vault"

/-- Go `Vault.refreshAuthToken`; the whole body runs under `tokenMu.Lock`. -/
def refreshAuthToken (w : World) (s : State) : Option GoError × State :=
  match s.vault.baoClient with
  | none => (some (GoError.panic "invalid memory address or nil pointer dereference"), s)
  | some client =>
    if client.token ≠ "" then (none, s)
    else if s.vault.config.AuthToken ≠ "" then (none, s.setToken s.vault.config.AuthToken)
    else
      match w.ReadFile s.log s.vault.config.AuthKubernetesTokenPath with
      | .error e =>
        (some (GoError.err ("unable to read vault token file: " ++ e)),
          s.logged (Event.readFile s.vault.config.AuthKubernetesTokenPath))
      | .ok k8sToken =>
        let s1 := s.logged (Event.readFile s.vault.config.AuthKubernetesTokenPath)
        let authPath := "auth/" ++ s.vault.config.AuthKubernetesBackend ++ "/login"
        let s2 := s1.logged (Event.loginWrite authPath k8sToken s.vault.config.AuthKubernetesRole)
        match w.Write s1.log authPath k8sToken s.vault.config.AuthKubernetesRole with
        | .error e => (some (GoError.err ("kubernetes auth failed: " ++ e)), s2)
        | .ok none => (some errNoClientToken, s2)
        | .ok (some secret) =>
          match secret.Auth with
          | none => (some errNoClientToken, s2)
          | some auth =>
            if auth.ClientToken = "" then (some errNoClientToken, s2)
            else (none, s2.setToken auth.ClientToken)

/-- Go `Vault.ensureToken`: the token is read under `tokenMu.RLock`. -/
def ensureToken (w : World) (s : State) : Option GoError × State :=
  match s.vault.baoClient with
  | none => (some (GoError.panic "invalid memory address or nil pointer dereference"), s)
  | some client =>
    if client.token ≠ "" then (none, s)
    else refreshAuthToken w s

/-- How `FetchSecrets` stores one field: a string as it is, any other value
in its `%v` form. -/
def stringValue : GoAny → GoString
  | GoAny.str s => s
  | v => fmtV v

/-- The result map of `FetchSecrets` for the given secret fields. -/
def stringifyData : GoMapOf GoAny → GoMap
  | [] => []
  | (key, val) :: rest => mapInsert key (stringValue val) (stringifyData rest)

/-- The part of `FetchSecrets` after the read: unwrap the `data` envelope and
convert the fields to strings. -/
def secretData (secret : Secret) : Except GoError GoMap :=
  match mapLookup "data" secret.Data with
  | some (GoAny.map dataMap) => .ok (stringifyData dataMap)
  | some _ => .error (GoError.err "unexpected data format in KV v2 response")
  | none => .ok (stringifyData secret.Data)

/-- Go `Vault.FetchSecrets`. -/
def FetchSecrets (w : World) (s : State) (secretsPath : GoString) : Except GoError GoMap × State :=
  match s.vault.baoClient with
  | none => (.error (GoError.err "OpenBao client not initialized"), s)
  | some _ =>
    match ensureToken w s with
    | (some (GoError.err e), s1) =>
      (.error (GoError.err ("failed to ensure valid token: " ++ e)), s1)
    | (some (GoError.panic p), s1) => (.error (GoError.panic p), s1)
    | (none, s1) =>
      match w.Read s1.log secretsPath (s1.token.getD "") with
      | .error e =>
        (.error (GoError.err ("failed to read secrets from vault: " ++ e)),
          s1.logged (Event.read secretsPath))
      | .ok none =>
        (.error (GoError.err ("no secret found at path: " ++ secretsPath)),
          s1.logged (Event.read secretsPath))
      | .ok (some secret) => (secretData secret, s1.logged (Event.read secretsPath))

/-- The arguments that `os.Setenv` rejects on Unix with `EINVAL`: an empty
name, a name with `=` (0x3D) or NUL, a value with NUL. -/
def setenvInvalid (key value : GoString) : Bool :=
  decide (key = "") || key.any (fun c => c = 0x3D || c = 0x00) ||
    value.any (fun c => c = 0x00)

/-- Go `os.Setenv`. -/
def Setenv (key value : GoString) (environ : GoMap) : Except GoString GoMap :=
  if setenvInvalid key value = true then .error "setenv: invalid argument"
  else .ok (mapInsert key value environ)

/-- The destination variable of a mapping (lines 67-70 of `FetchSecretsToEnv`). -/
def effectiveEnvVar (secretConfig : SecretConfig) : GoString :=
  match secretConfig.EnvVar with
  | some e => if e ≠ "" then e else secretConfig.VaultKey
  | none => secretConfig.VaultKey

/-- Body of the inner loop of `FetchSecretsToEnv` for one mapping. -/
def fetchEntry (path : GoString) (secrets : GoMap) (secretConfig : SecretConfig) (s : State) :
    Option GoError × State :=
  match mapLookup secretConfig.VaultKey secrets with
  | some secret =>
    match Setenv (effectiveEnvVar secretConfig) secret s.environ with
    | .ok environ2 =>
      (none, { s.logged (Event.setenv (effectiveEnvVar secretConfig) secret) with
                 environ := environ2 })
    | .error e =>
      (some (GoError.err ("failed to set env var " ++ effectiveEnvVar secretConfig ++
          " for vault key " ++ secretConfig.VaultKey ++ " from vault path " ++ path ++
          ": " ++ e)),
        s.logged (Event.setenv (effectiveEnvVar secretConfig) secret))
  | none =>
    (some (GoError.err ("failed to find vault key " ++ secretConfig.VaultKey ++
        " at vault path " ++ path)), s)

/-- Inner loop of `FetchSecretsToEnv`: the mappings of one path, in order. -/
def fetchEntries (path : GoString) (secrets : GoMap) :
    List SecretConfig → State → Option GoError × State
  | [], s => (none, s)
  | secretConfig :: rest, s =>
    match fetchEntry path secrets secretConfig s with
    | (none, s1) => fetchEntries path secrets rest s1
    | (some e, s1) => (some e, s1)

/-- Outer loop of `FetchSecretsToEnv`: the paths, in iteration order. -/
def fetchPaths (w : World) : SecretsConfig → State → Option GoError × State
  | [], s => (none, s)
  | (path, secretsConfig) :: rest, s =>
    match FetchSecrets w s path with
    | (.error e, s1) => (some e, s1)
    | (.ok secrets, s1) =>
      match fetchEntries path secrets secretsConfig s1 with
      | (none, s2) => fetchPaths w rest s2
      | (some e, s2) => (some e, s2)

/-- All mappings of a configuration with their path, in processing order. -/
def envMappings : SecretsConfig → List (GoString × SecretConfig)
  | [] => []
  | (path, secretsConfig) :: rest => secretsConfig.map (fun sc => (path, sc)) ++ envMappings rest

/-- Go `Vault.FetchSecretsToEnv`. -/
def FetchSecretsToEnv (w : World) (s : State) : Option GoError × State :=
  fetchPaths w s.vault.config.SecretsConfig s

/-- The destinations of `done` hold their fetched values and the Vault is
unchanged. -/
def EnvHolds (data : GoString → GoMap) (vault : Vault) (done : List (GoString × SecretConfig))
    (s : State) : Prop :=
  s.vault = vault ∧
  ∀ pm ∈ done, mapLookup (effectiveEnvVar pm.2) s.environ = mapLookup pm.2.VaultKey (data pm.1)

/-- The world `w` with a store that answers every read with the given body. -/
def World.withBody (w : World) (body : GoMapOf GoAny) : World :=
  { w with Read := fun _ _ _ => .ok (some { Data := body, Auth := none }) }

/-- A call of one of the methods of a Vault. -/
inductive Call where
  | ensure : Call
  | refresh : Call
  | fetch (path : GoString) : Call
  | fetchToEnv : Call

/-- The state after a call. -/
def Call.run (w : World) : Call → State → State
  | Call.ensure, s => (ensureToken w s).2
  | Call.refresh, s => (refreshAuthToken w s).2
  | Call.fetch path, s => (FetchSecrets w s path).2
  | Call.fetchToEnv, s => (FetchSecretsToEnv w s).2

/-- The state after a sequence of calls. -/
def runCalls (w : World) : List Call → State → State
  | [], s => s
  | call :: rest, s => runCalls w rest (call.run w s)

/-- The effects of the Kubernetes login flow: reading the service-account
token file and the login write. -/
def Event.isLogin : Event → Bool
  | Event.readFile _ => true
  | Event.loginWrite _ _ _ => true
  | _ => false

/-- A token is installed and the login flow has never run. -/
def TokenInstalled (s : State) : Prop :=
  (∃ c, s.vault.baoClient = some c ∧ c.token ≠ "") ∧ ∀ e ∈ s.log, e.isLogin = false

/-! ## Concurrent callers of `ensureToken`

`ensureToken` touches the shared token in two critical sections: the read
under `tokenMu.RLock` and, when no token was seen, the body of
`refreshAuthToken` under `tokenMu.Lock`. The mutex makes each section atomic
with respect to the token, so a concurrent execution is an interleaving of
these sections. -/

/-- Where one goroutine stands inside `ensureToken`: before the read of the
token, after having seen no token (about to call `refreshAuthToken`), or
returned with its result. -/
inductive Caller where
  | start : Caller
  | waiting : Caller
  | returned (err : Option GoError) : Caller
  deriving DecidableEq, Repr

/-- The next critical section of a goroutine. -/
def Caller.step (w : World) (caller : Caller) (s : State) : Caller × State :=
  match caller with
  | Caller.start =>
    match s.vault.baoClient with
    | none =>
      (Caller.returned (some (GoError.panic "invalid memory address or nil pointer dereference")),
        s)
    | some client =>
      if client.token ≠ "" then (Caller.returned none, s) else (Caller.waiting, s)
  | Caller.waiting => (Caller.returned (refreshAuthToken w s).1, (refreshAuthToken w s).2)
  | Caller.returned err => (Caller.returned err, s)

/-- Run a schedule: each entry names the goroutine that executes its next
critical section. -/
def runSchedule (w : World) : List Nat → List Caller → State → List Caller × State
  | [], callers, s => (callers, s)
  | i :: rest, callers, s =>
    match callers[i]? with
    | none => runSchedule w rest callers s
    | some caller =>
      runSchedule w rest (callers.set i (caller.step w s).1) (caller.step w s).2

/-- The login writes among the effects. -/
def Event.isLoginWrite : Event → Bool
  | Event.loginWrite _ _ _ => true
  | _ => false

/-- Number of login writes issued to the store. -/
def loginWrites (log : List Event) : Nat := (log.filter Event.isLoginWrite).length

/-- Every goroutine has returned. -/
def allReturned (callers : List Caller) : Bool :=
  callers.all fun c =>
    match c with
    | Caller.returned _ => true
    | _ => false

/-- No goroutine has logged in yet: Vault and log are as at the beginning and
nobody has returned. -/
def BeforeLogin (s0 s : State) (callers : List Caller) : Prop :=
  s.vault = s0.vault ∧ s.log = s0.log ∧ s.environ = s0.environ ∧
  ∀ c ∈ callers, c = Caller.start ∨ c = Caller.waiting

/-- One goroutine has logged in: the token is installed, the log holds the one
file read and the one login write, and whoever returned, returned nil. -/
def AfterLogin (s0 s : State) (token jwt : GoString) (callers : List Caller) : Prop :=
  s.vault = (s0.setToken token).vault ∧
  s.log = s0.log ++ [Event.readFile s0.vault.config.AuthKubernetesTokenPath,
    Event.loginWrite ("auth/" ++ s0.vault.config.AuthKubernetesBackend ++ "/login") jwt
      s0.vault.config.AuthKubernetesRole] ∧
  s.environ = s0.environ ∧
  ∀ c ∈ callers, c = Caller.start ∨ c = Caller.waiting ∨ c = Caller.returned none

/-- Every login so far has failed with the error `e`. -/
def LoginFailing (s0 s : State) (e : GoError) (callers : List Caller) : Prop :=
  s.vault = s0.vault ∧
  ∀ c ∈ callers, c = Caller.start ∨ c = Caller.waiting ∨ c = Caller.returned (some e)

/-! ## Example data used by the witnesses -/

/-- A client that answers every path with `{a: hello, b: 1}`. -/
def Pkg.exampleClient : Pkg.Client := fun _ => .ok [("a", "hello"), ("b", "1")]

/-- The secret stored at `secret/data/app` in the examples, in its KV v2
envelope. -/
def exampleSecret : Secret :=
  { Data := [("data", GoAny.map [("password", GoAny.str "s3cr3t"), ("username", GoAny.str "svc")])],
    Auth := none }

/-- A world whose store knows the path `secret/data/app`, whose login always
fails and whose service-account token file is readable. -/
def exampleWorld : World :=
  { NewClient := fun _ => .ok "",
    ReadFile := fun _ _ => .ok "jwt",
    Write := fun _ _ _ _ => .error "permission denied",
    Read := fun _ path _ => if path = "secret/data/app" then .ok (some exampleSecret) else .ok none }

/-- A world like `exampleWorld` whose login succeeds with the token `t1`. -/
def exampleLoginWorld : World :=
  { exampleWorld with
    Write := fun _ _ _ _ => .ok (some { Data := [], Auth := some { ClientToken := "t1" } }) }

/-- A configuration with the given static token and mappings. -/
def exampleConfig (authToken : GoString) (secretsConfig : SecretsConfig) : Config :=
  { NewConfig with AuthToken := authToken, SecretsConfig := secretsConfig }

/-- The state that `New` returns for `exampleConfig` in an empty environment. -/
def exampleState (authToken : GoString) (secretsConfig : SecretsConfig) : State :=
  { vault := { config := exampleConfig authToken secretsConfig,
               baoClient := some { token := authToken } },
    environ := [], log := [] }

/-- The items of a literal that spells a text without any escape. -/
def plainItems (s : String) : List StrItem := s.data.map StrItem.plain

/-- A member `key:value` written without whitespace or escapes. -/
def plainMember (key value : String) : StrMember :=
  { before := [], key := plainItems key, afterKey := [], afterColon := [],
    value := plainItems value, after := [] }

/-- The configuration text of the repository's test, as it is written:
`{"my/secret/path":[{"vaultKey":"password","envVar":"APP_PASSWORD"},{"vaultKey":"username"}]}`. -/
def exampleConfigDoc : ConfigDoc :=
  { lead := [], inner := [],
    members := [
      { before := [], path := plainItems "my/secret/path", afterKey := [], afterColon := [],
        inner := [],
        entries := [
          { lead := [], inner := [],
            members := [plainMember "vaultKey" "password", plainMember "envVar" "APP_PASSWORD"],
            trail := [] },
          { lead := [], inner := [], members := [plainMember "vaultKey" "username"],
            trail := [] }],
        after := [] }],
    trail := [] }

/-- A configuration written with whitespace and escapes:
`{ "p" : [ {"envVar":"A\n", "vaultKey" : "k😀"} ] }` followed by a
line feed. -/
def exampleSpacedConfigDoc : ConfigDoc :=
  { lead := [], inner := [' '],
    members := [
      { before := [], path := plainItems "p", afterKey := [' '], afterColon := [' '],
        inner := [' '],
        entries := [
          { lead := [], inner := [],
            members := [
              { before := [], key := plainItems "envVar", afterKey := [], afterColon := [],
                value := [.hex ⟨0x41, false, false, false, false⟩, .short 'n'], after := [] },
              { before := [' '],
                key := plainItems "vault" ++ [.hex ⟨0x4B, false, false, false, false⟩] ++
                  plainItems "ey",
                afterKey := [' '], afterColon := [' '],
                value := [.plain 'k', .pair ⟨0xD83D, false, false, false, false⟩
                  ⟨0xDE00, false, false, false, false⟩],
                after := [] }],
            trail := [' '] }],
        after := [' '] }],
    trail := ['\n'] }
/-! ## UTF-8: encoding and decoding are inverse to each other -/

theorem utf8_empty : utf8 "" = [] := rfl

theorem byte_eq_of_toNat_eq {a b : UInt8} (h : a.toNat = b.toNat) : a = b := by
  cases a; cases b; simp only [UInt8.toNat] at h; congr 1; exact BitVec.eq_of_toNat_eq h

theorem byte_toNat_lt (b : UInt8) : b.toNat < 256 := UInt8.toNat_lt_size b

theorem byte_toNat_ofNat (n : Nat) (h : n < 256) : (UInt8.ofNat n).toNat = n :=
  UInt8.toNat_ofNat_of_lt h

theorem char_valid (c : Char) : c.toNat < 0xD800 ∨ (0xDFFF < c.toNat ∧ c.toNat < 0x110000) := by
  have := c.valid
  simp only [UInt32.isValidChar, Nat.isValidChar] at this
  exact this

theorem char_eq_of_toNat_eq {a b : Char} (h : a.toNat = b.toNat) : a = b := by
  rw [← Char.ofNat_toNat a, ← Char.ofNat_toNat b, h]

theorem char_ofNat_eq (c : Char) (n : Nat) (h : n = c.toNat) : Char.ofNat n = c := by
  subst h; exact Char.ofNat_toNat c

theorem char_toNat_ofNat (n : Nat) (h : n < 0xD800 ∨ (0xDFFF < n ∧ n < 0x110000)) :
    (Char.ofNat n).toNat = n := by
  have hv : n.isValidChar := h
  simp only [Char.ofNat, hv, dif_pos, Char.ofNatAux, Char.toNat]
  show (UInt32.ofNat' n _).toNat = n
  simp [UInt32.ofNat', UInt32.toNat]

/-- Decoding at the head of an encoded character yields that character and
the width of its encoding. -/
theorem decodeRune_encodeRune (c : Char) (more : GoString) :
    decodeRune (encodeRune c ++ more) = some (c, (encodeRune c).length) := by
  have hv := char_valid c
  unfold encodeRune
  split_ifs with h1 h2 h3
  · simp only [List.singleton_append, decodeRune, byte_toNat_ofNat _ (by omega : c.toNat < 256),
      h1, if_true, List.length_singleton, char_ofNat_eq c _ rfl]
  · have e0 := byte_toNat_ofNat (0xC0 + c.toNat / 64) (by omega)
    have e1 := byte_toNat_ofNat (0x80 + c.toNat % 64) (by omega)
    simp only [List.cons_append, List.nil_append, decodeRune, e0, e1, isCont]
    rw [if_neg (by omega), if_pos (by omega)]
    simp only [Bool.and_eq_true, decide_eq_true_eq]
    rw [if_pos (by omega)]
    simp only [List.length_cons, List.length_nil]
    rw [char_ofNat_eq c _ (by omega)]
  · have e0 := byte_toNat_ofNat (0xE0 + c.toNat / 4096) (by omega)
    have e1 := byte_toNat_ofNat (0x80 + c.toNat / 64 % 64) (by omega)
    have e2 := byte_toNat_ofNat (0x80 + c.toNat % 64) (by omega)
    simp only [List.cons_append, List.nil_append, decodeRune, e0, e1, e2, isCont]
    rw [if_neg (by omega), if_neg (by omega), if_pos (by omega)]
    simp only [Bool.and_eq_true, decide_eq_true_eq]
    rw [if_pos (by simp only [secondLow, secondHigh, e0]; split_ifs <;> omega)]
    simp only [List.length_cons, List.length_nil]
    rw [char_ofNat_eq c _ (by omega)]
  · have e0 := byte_toNat_ofNat (0xF0 + c.toNat / 262144) (by omega)
    have e1 := byte_toNat_ofNat (0x80 + c.toNat / 4096 % 64) (by omega)
    have e2 := byte_toNat_ofNat (0x80 + c.toNat / 64 % 64) (by omega)
    have e3 := byte_toNat_ofNat (0x80 + c.toNat % 64) (by omega)
    simp only [List.cons_append, List.nil_append, decodeRune, e0, e1, e2, e3, isCont]
    rw [if_neg (by omega), if_neg (by omega), if_neg (by omega), if_pos (by omega)]
    simp only [Bool.and_eq_true, decide_eq_true_eq]
    rw [if_pos (by simp only [secondLow, secondHigh, e0]; split_ifs <;> omega)]
    simp only [List.length_cons, List.length_nil]
    rw [char_ofNat_eq c _ (by omega)]

theorem decodeRunesFrom_skip (l more : GoString) :
    decodeRunesFrom l.length (l ++ more) = decodeRunesFrom 0 more := by
  induction l with
  | nil => rfl
  | cons b l ih => simpa [decodeRunesFrom] using ih

theorem encodeRune_cons (c : Char) : ∃ b l, encodeRune c = b :: l := by
  unfold encodeRune; split_ifs <;> exact ⟨_, _, rfl⟩

theorem decodeRunes_encodeRune (c : Char) (more : GoString) :
    decodeRunes (encodeRune c ++ more) = some c :: decodeRunes more := by
  obtain ⟨b, l, hbl⟩ := encodeRune_cons c
  have h := decodeRune_encodeRune c more
  simp only [decodeRunes]
  rw [hbl] at h ⊢
  simp only [List.cons_append] at h ⊢
  rw [decodeRunesFrom, h]
  simp only [List.length_cons, Nat.add_sub_cancel]
  rw [decodeRunesFrom_skip]

/-- The runes of an encoded text are its characters. -/
theorem decodeRunes_utf8Chars (cs : List Char) :
    decodeRunes (utf8Chars cs) = cs.map some := by
  induction cs with
  | nil => rfl
  | cons c cs ih =>
    simp only [utf8Chars, decodeRunes_encodeRune, ih, List.map_cons]

theorem runesOf_utf8Chars (cs : List Char) : runesOf (utf8Chars cs) = cs := by
  simp only [runesOf, decodeRunes_utf8Chars, List.map_map]
  induction cs with
  | nil => rfl
  | cons c cs ih => simp only [List.map_cons, Function.comp, Option.getD_some, ih]

theorem runesOf_utf8 (s : String) : String.mk (runesOf (utf8 s)) = s := by
  simp [utf8, runesOf_utf8Chars]

theorem validString_utf8Chars (cs : List Char) : validString (utf8Chars cs) = true := by
  simp [validString, decodeRunes_utf8Chars]

theorem validString_utf8 (s : String) : validString (utf8 s) = true :=
  validString_utf8Chars s.data

theorem validString_nil : validString [] = true := rfl

/-- A valid encoding at the head of a string is the encoding of the character
it decodes to. -/
theorem decodeRune_some (s : GoString) (c : Char) (n : Nat)
    (h : decodeRune s = some (c, n)) :
    ∃ more, s = encodeRune c ++ more ∧ n = (encodeRune c).length := by
  cases s with
  | nil => simp [decodeRune] at h
  | cons b0 rest =>
    have l0 := byte_toNat_lt b0
    simp only [decodeRune] at h
    split_ifs at h with h1 h2 h3 h4
    · simp only [Option.some.injEq, Prod.mk.injEq] at h
      obtain ⟨hc, hn⟩ := h
      subst hc; subst hn
      have e := char_toNat_ofNat b0.toNat (by omega)
      have hb : UInt8.ofNat b0.toNat = b0 :=
        byte_eq_of_toNat_eq (by rw [byte_toNat_ofNat _ l0])
      refine ⟨rest, ?_, ?_⟩ <;> simp only [encodeRune, e, h1, if_true, hb] <;> rfl
    · cases rest with
      | nil => simp at h
      | cons b1 r1 =>
        have l1 := byte_toNat_lt b1
        simp only [isCont, Bool.and_eq_true, decide_eq_true_eq] at h
        split_ifs at h with hc1
        simp only [Option.some.injEq, Prod.mk.injEq] at h
        obtain ⟨hc, hn⟩ := h
        subst hc; subst hn
        have e := char_toNat_ofNat ((b0.toNat - 0xC0) * 64 + (b1.toNat - 0x80)) (by omega)
        have hb0 : UInt8.ofNat (0xC0 + ((b0.toNat - 0xC0) * 64 + (b1.toNat - 0x80)) / 64) = b0 :=
          byte_eq_of_toNat_eq (by rw [byte_toNat_ofNat _ (by omega)]; omega)
        have hb1 : UInt8.ofNat (0x80 + ((b0.toNat - 0xC0) * 64 + (b1.toNat - 0x80)) % 64) = b1 :=
          byte_eq_of_toNat_eq (by rw [byte_toNat_ofNat _ (by omega)]; omega)
        have henc : encodeRune (Char.ofNat ((b0.toNat - 0xC0) * 64 + (b1.toNat - 0x80))) =
            [b0, b1] := by
          unfold encodeRune
          rw [e, if_neg (by omega), if_pos (by omega), hb0, hb1]
        exact ⟨r1, by rw [henc]; rfl, by rw [henc]; rfl⟩
    · cases rest with
      | nil => simp at h
      | cons b1 r1 =>
        cases r1 with
        | nil => simp at h
        | cons b2 r2 =>
          have l1 := byte_toNat_lt b1
          have l2 := byte_toNat_lt b2
          simp only [isCont, Bool.and_eq_true, decide_eq_true_eq] at h
          split_ifs at h with hc1
          simp only [Option.some.injEq, Prod.mk.injEq] at h
          obtain ⟨hc, hn⟩ := h
          subst hc; subst hn
          obtain ⟨ha, hb, hd⟩ := hc1
          have hlo : 0x80 ≤ b1.toNat ∧ (b0.toNat = 0xE0 → 0xA0 ≤ b1.toNat) := by
            unfold secondLow at ha; split_ifs at ha <;> omega
          have hhi : b1.toNat ≤ 0xBF ∧ (b0.toNat = 0xED → b1.toNat ≤ 0x9F) := by
            unfold secondHigh at hb; split_ifs at hb <;> omega
          have hge : 0x800 ≤
              (b0.toNat - 0xE0) * 4096 + (b1.toNat - 0x80) * 64 + (b2.toNat - 0x80) := by
            omega
          have hns :
              (b0.toNat - 0xE0) * 4096 + (b1.toNat - 0x80) * 64 + (b2.toNat - 0x80) < 0xD800 ∨
              (0xDFFF < (b0.toNat - 0xE0) * 4096 + (b1.toNat - 0x80) * 64 + (b2.toNat - 0x80) ∧
                (b0.toNat - 0xE0) * 4096 + (b1.toNat - 0x80) * 64 + (b2.toNat - 0x80) <
                  0x110000) := by
            omega
          have e := char_toNat_ofNat _ hns
          have hb0 : UInt8.ofNat (0xE0 + ((b0.toNat - 0xE0) * 4096 + (b1.toNat - 0x80) * 64 +
              (b2.toNat - 0x80)) / 4096) = b0 :=
            byte_eq_of_toNat_eq (by rw [byte_toNat_ofNat _ (by omega)]; omega)
          have hb1 : UInt8.ofNat (0x80 + ((b0.toNat - 0xE0) * 4096 + (b1.toNat - 0x80) * 64 +
              (b2.toNat - 0x80)) / 64 % 64) = b1 :=
            byte_eq_of_toNat_eq (by rw [byte_toNat_ofNat _ (by omega)]; omega)
          have hb2 : UInt8.ofNat (0x80 + ((b0.toNat - 0xE0) * 4096 + (b1.toNat - 0x80) * 64 +
              (b2.toNat - 0x80)) % 64) = b2 :=
            byte_eq_of_toNat_eq (by rw [byte_toNat_ofNat _ (by omega)]; omega)
          have henc : encodeRune (Char.ofNat ((b0.toNat - 0xE0) * 4096 +
              (b1.toNat - 0x80) * 64 + (b2.toNat - 0x80))) = [b0, b1, b2] := by
            unfold encodeRune
            rw [e, if_neg (by omega), if_neg (by omega), if_pos (by omega), hb0, hb1, hb2]
          exact ⟨r2, by rw [henc]; rfl, by rw [henc]; rfl⟩
    · cases rest with
      | nil => simp at h
      | cons b1 r1 =>
        cases r1 with
        | nil => simp at h
        | cons b2 r2 =>
          cases r2 with
          | nil => simp at h
          | cons b3 r3 =>
            have l1 := byte_toNat_lt b1
            have l2 := byte_toNat_lt b2
            have l3 := byte_toNat_lt b3
            simp only [isCont, Bool.and_eq_true, decide_eq_true_eq] at h
            split_ifs at h with hc1
            simp only [Option.some.injEq, Prod.mk.injEq] at h
            obtain ⟨hc, hn⟩ := h
            subst hc; subst hn
            obtain ⟨ha, hb, hd, hf⟩ := hc1
            have hlo : 0x80 ≤ b1.toNat ∧ (b0.toNat = 0xF0 → 0x90 ≤ b1.toNat) := by
              unfold secondLow at ha; split_ifs at ha <;> omega
            have hhi : b1.toNat ≤ 0xBF ∧ (b0.toNat = 0xF4 → b1.toNat ≤ 0x8F) := by
              unfold secondHigh at hb; split_ifs at hb <;> omega
            have hge : 0x10000 ≤ (b0.toNat - 0xF0) * 262144 + (b1.toNat - 0x80) * 4096 +
                (b2.toNat - 0x80) * 64 + (b3.toNat - 0x80) := by
              omega
            have hlt : (b0.toNat - 0xF0) * 262144 + (b1.toNat - 0x80) * 4096 +
                (b2.toNat - 0x80) * 64 + (b3.toNat - 0x80) < 0x110000 := by
              omega
            have e := char_toNat_ofNat _ (Or.inr ⟨by omega, hlt⟩)
            have hb0 : UInt8.ofNat (0xF0 + ((b0.toNat - 0xF0) * 262144 +
                (b1.toNat - 0x80) * 4096 + (b2.toNat - 0x80) * 64 + (b3.toNat - 0x80)) /
                  262144) = b0 :=
              byte_eq_of_toNat_eq (by rw [byte_toNat_ofNat _ (by omega)]; omega)
            have hb1 : UInt8.ofNat (0x80 + ((b0.toNat - 0xF0) * 262144 +
                (b1.toNat - 0x80) * 4096 + (b2.toNat - 0x80) * 64 + (b3.toNat - 0x80)) /
                  4096 % 64) = b1 :=
              byte_eq_of_toNat_eq (by rw [byte_toNat_ofNat _ (by omega)]; omega)
            have hb2 : UInt8.ofNat (0x80 + ((b0.toNat - 0xF0) * 262144 +
                (b1.toNat - 0x80) * 4096 + (b2.toNat - 0x80) * 64 + (b3.toNat - 0x80)) /
                  64 % 64) = b2 :=
              byte_eq_of_toNat_eq (by rw [byte_toNat_ofNat _ (by omega)]; omega)
            have hb3 : UInt8.ofNat (0x80 + ((b0.toNat - 0xF0) * 262144 +
                (b1.toNat - 0x80) * 4096 + (b2.toNat - 0x80) * 64 + (b3.toNat - 0x80)) %
                  64) = b3 :=
              byte_eq_of_toNat_eq (by rw [byte_toNat_ofNat _ (by omega)]; omega)
            have henc : encodeRune (Char.ofNat ((b0.toNat - 0xF0) * 262144 +
                (b1.toNat - 0x80) * 4096 + (b2.toNat - 0x80) * 64 + (b3.toNat - 0x80))) =
                [b0, b1, b2, b3] := by
              unfold encodeRune
              rw [e, if_neg (by omega), if_neg (by omega), if_neg (by omega), hb0, hb1, hb2, hb3]
            exact ⟨r3, by rw [henc]; rfl, by rw [henc]; rfl⟩

/-- A valid string is the encoding of its runes: the conversion to runes and
back leaves it unchanged. -/
theorem utf8Chars_runesOf : ∀ (n : Nat) (s : GoString), s.length ≤ n →
    validString s = true → utf8Chars (runesOf s) = s := by
  intro n
  induction n with
  | zero =>
    intro s hlen _
    have : s = [] := List.length_eq_zero.1 (Nat.le_zero.1 hlen)
    subst this
    rfl
  | succ n ih =>
    intro s hlen hv
    cases s with
    | nil => rfl
    | cons b rest =>
      cases hd : decodeRune (b :: rest) with
      | none =>
        simp [validString, decodeRunes, decodeRunesFrom, hd] at hv
      | some p =>
        obtain ⟨c, size⟩ := p
        obtain ⟨more, hs, hsize⟩ := decodeRune_some _ _ _ hd
        have hdec : decodeRunes (b :: rest) = some c :: decodeRunes more := by
          rw [hs]; exact decodeRunes_encodeRune c more
        obtain ⟨b2, l2, hbl⟩ := encodeRune_cons c
        have hmore : more.length ≤ n := by
          have := congrArg List.length hs
          rw [hbl] at this
          simp only [List.length_cons, List.length_append] at this hlen
          omega
        have hvm : validString more = true := by
          simp only [validString, hdec, List.all_cons, Option.isSome_some, Bool.true_and] at hv
          exact hv
        have hrec := ih more hmore hvm
        simp only [runesOf, hdec, List.map_cons, Option.getD_some, utf8Chars]
        simp only [runesOf] at hrec
        rw [hrec, ← hs]

theorem utf8Chars_runesOf_valid {s : GoString} (h : validString s = true) :
    utf8Chars (runesOf s) = s :=
  utf8Chars_runesOf s.length s (Nat.le_refl _) h

theorem utf8_runesOf_valid {s : GoString} (h : validString s = true) :
    utf8 (String.mk (runesOf s)) = s :=
  utf8Chars_runesOf_valid h

/-! ## Order and map lemmas -/

theorem keyLt_irrefl (a : GoString) : keyLt a a = false := by
  induction a with
  | nil => rfl
  | cons c cs ih => simp [keyLt, ih]

theorem keyLt_asymm : ∀ {a b : GoString}, keyLt a b = true → keyLt b a = false
  | _, [], h => by simp [keyLt] at h
  | [], _ :: _, _ => by simp [keyLt]
  | a :: as, b :: bs, h => by
    simp only [keyLt] at h ⊢
    by_cases h1 : a.toNat < b.toNat
    · have h2 : ¬ b.toNat < a.toNat := by omega
      have h3 : b ≠ a := by rintro rfl; omega
      simp [h2, h3]
    · simp only [h1, if_false] at h
      by_cases h4 : a = b
      · subst h4
        simp only [if_true] at h
        simp [keyLt_asymm h]
      · simp [h4] at h

theorem keyLt_ne {a b : GoString} (h : keyLt a b = true) : a ≠ b := by
  rintro rfl
  rw [keyLt_irrefl] at h
  exact Bool.noConfusion h

theorem keyLt_total : ∀ {a b : GoString}, keyLt a b = false → a ≠ b → keyLt b a = true
  | [], [], _, hne => absurd rfl hne
  | _ :: _, [], _, _ => by simp [keyLt]
  | [], _ :: _, h, _ => by simp [keyLt] at h
  | a :: as, b :: bs, h, hne => by
    simp only [keyLt] at h ⊢
    by_cases h1 : a.toNat < b.toNat
    · simp [h1] at h
    · simp only [h1, if_false] at h
      by_cases h4 : a = b
      · subst h4
        simp only [if_true] at h
        have hne2 : as ≠ bs := fun e => hne (by rw [e])
        simp [keyLt_total h hne2]
      · have h5 : a.toNat ≠ b.toNat := fun e => h4 (byte_eq_of_toNat_eq e)
        have h6 : b.toNat < a.toNat := by omega
        simp [h6]

theorem keyLt_trans : ∀ {a b c : GoString},
    keyLt a b = true → keyLt b c = true → keyLt a c = true
  | _, [], _, h, _ => by simp [keyLt] at h
  | _, _ :: _, [], _, h => by simp [keyLt] at h
  | [], _ :: _, _ :: _, _, _ => by simp [keyLt]
  | a :: as, b :: bs, c :: cs, h1, h2 => by
    simp only [keyLt] at h1 h2 ⊢
    by_cases hab : a.toNat < b.toNat
    · by_cases hbc : b.toNat < c.toNat
      · have : a.toNat < c.toNat := by omega
        simp [this]
      · simp only [hbc, if_false] at h2
        by_cases e : b = c
        · subst e; simp [hab]
        · simp [e] at h2
    · simp only [hab, if_false] at h1
      by_cases e : a = b
      · subst e
        simp only [if_true] at h1
        by_cases hbc : a.toNat < c.toNat
        · simp [hbc]
        · simp only [hbc, if_false] at h2 ⊢
          by_cases e2 : a = c
          · subst e2
            simp only [if_true] at h2 ⊢
            exact keyLt_trans h1 h2
          · simp [e2] at h2
      · simp [e] at h1

theorem mapLookup_insert_self {β : Type} (k : GoString) (v : β) (m : GoMapOf β) :
    mapLookup k (mapInsert k v m) = some v := by
  induction m with
  | nil => simp [mapInsert, mapLookup]
  | cons e rest ih =>
    obtain ⟨k', v'⟩ := e
    simp only [mapInsert]
    split
    · simp [mapLookup]
    · split
      · simp [mapLookup]
      · rename_i h1 h2
        simp [mapLookup, h2, ih]

theorem mapLookup_insert_ne {β : Type} {k k' : GoString} (v : β) (m : GoMapOf β) (h : k' ≠ k) :
    mapLookup k' (mapInsert k v m) = mapLookup k' m := by
  induction m with
  | nil => simp [mapInsert, mapLookup, h]
  | cons e rest ih =>
    obtain ⟨k2, v2⟩ := e
    simp only [mapInsert]
    split
    · simp [mapLookup, h]
    · split
      · rename_i h1 h2
        subst h2
        simp [mapLookup, h]
      · simp [mapLookup, ih]

theorem mapInsert_comm {β : Type} {k1 k2 : GoString} (v1 v2 : β) (m : GoMapOf β) (h : k1 ≠ k2) :
    mapInsert k1 v1 (mapInsert k2 v2 m) = mapInsert k2 v2 (mapInsert k1 v1 m) := by
  induction m with
  | nil =>
    simp only [mapInsert]
    by_cases h12 : keyLt k1 k2 = true
    · simp [h12, keyLt_asymm h12, h.symm]
    · have h12' : keyLt k1 k2 = false := by simpa using h12
      simp [h12', keyLt_total h12' h, h]
  | cons e rest ih =>
    obtain ⟨k, v⟩ := e
    simp only [mapInsert]
    by_cases a1 : keyLt k1 k = true <;> by_cases a2 : keyLt k2 k = true
    · simp only [a1, a2, if_true, mapInsert]
      by_cases h12 : keyLt k1 k2 = true
      · simp [h12, keyLt_asymm h12, h.symm, a2]
      · have h12' : keyLt k1 k2 = false := by simpa using h12
        simp [h12', keyLt_total h12' h, h, a1]
    · have a2' : keyLt k2 k = false := by simpa using a2
      simp only [a1, a2', if_true, mapInsert]
      by_cases e2 : k2 = k
      · subst e2
        simp [a1, keyLt_asymm a1, h.symm, keyLt_irrefl, mapInsert]
      · have hk : keyLt k k2 = true := keyLt_total a2' e2
        have h12 : keyLt k1 k2 = true := keyLt_trans a1 hk
        simp [e2, mapInsert, a1, a2', keyLt_asymm h12, h.symm]
    · have a1' : keyLt k1 k = false := by simpa using a1
      simp only [a1', a2, if_true, mapInsert]
      by_cases e1 : k1 = k
      · subst e1
        simp [a2, keyLt_asymm a2, h, keyLt_irrefl, mapInsert]
      · have hk : keyLt k k1 = true := keyLt_total a1' e1
        have h21 : keyLt k2 k1 = true := keyLt_trans a2 hk
        simp [e1, mapInsert, a1', a2, keyLt_asymm h21, h]
    · have a1' : keyLt k1 k = false := by simpa using a1
      have a2' : keyLt k2 k = false := by simpa using a2
      simp only [a1', a2']
      by_cases e1 : k1 = k <;> by_cases e2 : k2 = k
      · exact absurd (e1.trans e2.symm) h
      · subst e1
        simp [e2, mapInsert, a2', keyLt_irrefl]
      · subst e2
        simp [e1, mapInsert, a1', keyLt_irrefl]
      · simp [e1, e2, mapInsert, a1', a2', ih]


/-! ## Round trip of `json.Marshal` and `json.Unmarshal` -/

theorem hexVal_hexDigit (d : Nat) (h : d < 16) : hexVal (hexDigit d) = some d := by
  interval_cases d <;> decide

theorem hex4_low (n : Nat) (h : n < 256) :
    hex4 '0' '0' (hexDigit (n / 16)) (hexDigit (n % 16)) = some n := by
  have h0 : hexVal '0' = some 0 := by decide
  have h1 : hexVal (hexDigit (n / 16)) = some (n / 16) := hexVal_hexDigit _ (by omega)
  have h2 : hexVal (hexDigit (n % 16)) = some (n % 16) := hexVal_hexDigit _ (by omega)
  simp only [hex4, h0, h1, h2]
  congr 1
  omega

/-- One escaped character is scanned back as one unit that denotes it. -/
theorem strUnits_escapeChar (c : Char) (rest : List Char) :
    ∃ u, strUnits (escapeChar c ++ rest) = consUnit u (strUnits rest) ∧
      ∀ us, joinUnits none (u :: us) = c :: joinUnits none us := by
  unfold escapeChar
  split
  · rename_i h; subst h
    exact ⟨.raw '\x22', by rw [strUnits.eq_def]; simp [simpleEscape], fun us => by simp [joinUnits]⟩
  split
  · rename_i h; subst h
    exact ⟨.raw '\x5c', by rw [strUnits.eq_def]; simp [simpleEscape], fun us => by simp [joinUnits]⟩
  split
  · rename_i h; subst h
    exact ⟨.raw '\x08', by rw [strUnits.eq_def]; simp [simpleEscape], fun us => by simp [joinUnits]⟩
  split
  · rename_i h; subst h
    exact ⟨.raw '\x0c', by rw [strUnits.eq_def]; simp [simpleEscape], fun us => by simp [joinUnits]⟩
  split
  · rename_i h; subst h
    exact ⟨.raw '\n', by rw [strUnits.eq_def]; simp [simpleEscape], fun us => by simp [joinUnits]⟩
  split
  · rename_i h; subst h
    exact ⟨.raw '\r', by rw [strUnits.eq_def]; simp [simpleEscape], fun us => by simp [joinUnits]⟩
  split
  · rename_i h; subst h
    exact ⟨.raw '\t', by rw [strUnits.eq_def]; simp [simpleEscape], fun us => by simp [joinUnits]⟩
  split
  · rename_i h
    have hlt : c.toNat < 64 := by
      rcases h with h | h | h | h
      · omega
      · subst h; decide
      · subst h; decide
      · subst h; decide
    refine ⟨.esc c.toNat, ?_, fun us => ?_⟩
    · have h4 := hex4_low c.toNat (by omega)
      rw [strUnits.eq_def]; simp [h4]
    · have h1 : ¬ (0xD800 ≤ c.toNat ∧ c.toNat < 0xDC00) := by omega
      have h2 : ¬ (0xDC00 ≤ c.toNat ∧ c.toNat < 0xE000) := by omega
      simp only [joinUnits, h1, h2, if_false, Char.ofNat_toNat]
  split
  · rename_i h
    refine ⟨.esc c.toNat, ?_, fun us => ?_⟩
    · have h4 : hex4 '2' '0' '2' (hexDigit (c.toNat % 16)) = some c.toNat := by
        rcases h with h | h <;> rw [h] <;> decide
      rw [strUnits.eq_def]; simp [h4]
    · have h1 : ¬ (0xD800 ≤ c.toNat ∧ c.toNat < 0xDC00) := by omega
      have h2 : ¬ (0xDC00 ≤ c.toNat ∧ c.toNat < 0xE000) := by omega
      simp only [joinUnits, h1, h2, if_false, Char.ofNat_toNat]
  · rename_i hq hb _ _ _ _ _ hctl _
    refine ⟨.raw c, ?_, fun us => by simp [joinUnits]⟩
    have hc : ¬ c.toNat < 0x20 := fun hh => hctl (Or.inl hh)
    rw [strUnits.eq_def]; simp [hq, hb, hc]

theorem strUnits_escapeRune (r : Option Char) (rest : List Char) :
    ∃ u, strUnits (escapeRune r ++ rest) = consUnit u (strUnits rest) ∧
      ∀ us, joinUnits none (u :: us) = r.getD replacementChar :: joinUnits none us := by
  cases r with
  | some c => exact strUnits_escapeChar c rest
  | none =>
    refine ⟨.esc 0xFFFD, ?_, fun us => ?_⟩
    · have h4 : hex4 'f' 'f' 'f' 'd' = some 0xFFFD := by decide
      simp only [escapeRune, List.cons_append, List.nil_append]
      rw [strUnits.eq_def]; simp [h4]
    · simp only [joinUnits, Option.getD_none]
      rw [if_neg (by omega), if_neg (by omega)]
      rfl

/-- The escaped body of a literal followed by the closing quote scans back to
the runes of the string, U+FFFD standing for each invalid byte. -/
theorem strBody_escapeRunes (rs : List (Option Char)) (rest : List Char) :
    strBody (escapeRunes rs ++ '\x22' :: rest) =
      some (rs.map (fun r => r.getD replacementChar), rest) := by
  have key : ∀ rs : List (Option Char), ∃ us,
      strUnits (escapeRunes rs ++ '\x22' :: rest) = some (us, rest) ∧
      joinUnits none us = rs.map (fun r => r.getD replacementChar) := by
    intro rs
    induction rs with
    | nil => exact ⟨[], by rw [strUnits.eq_def]; simp [escapeRunes], by simp [joinUnits]⟩
    | cons c cs ih =>
      obtain ⟨us, h1, h2⟩ := ih
      obtain ⟨u, h3, h4⟩ := strUnits_escapeRune c (escapeRunes cs ++ '\x22' :: rest)
      refine ⟨u :: us, ?_, ?_⟩
      · simp only [escapeRunes, List.append_assoc]
        rw [h3, h1]
        rfl
      · rw [h4, h2]
        rfl
  obtain ⟨us, h1, h2⟩ := key rs
  simp [strBody, h1, h2]

theorem pValue_quoteChars (fuel depth : Nat) (v : GoString) (rest : List Char) :
    pValue (fuel + 1) depth (quoteChars v ++ rest) = some (JVal.str (textOf v), rest) := by
  simp only [quoteChars, List.cons_append, List.append_assoc, List.nil_append, pValue]
  rw [strBody_escapeRunes]
  simp [textOf, runesOf]

theorem skipSpace_cons_of_not_space {c : Char} (h : isSpace c = false) (cs : List Char) :
    skipSpace (c :: cs) = c :: cs := by
  simp [skipSpace, h]

theorem marshalMembers_head (kv : GoString × GoString) (m : GoMap) :
    ∃ tl, marshalMembers (kv :: m) = '\x22' :: tl := by
  cases m with
  | nil => exact ⟨_, by simp [marshalMembers, marshalMember, quoteChars]; rfl⟩
  | cons kv2 m2 => exact ⟨_, by simp [marshalMembers, marshalMember, quoteChars]; rfl⟩

/-- One member followed by a non-blank character: a single step of `pMembers`. -/
theorem pMembers_step (fuel depth : Nat) (kv : GoString × GoString) (c4 : Char)
    (r4 : List Char) (h4 : isSpace c4 = false) :
    pMembers (fuel + 2) depth (marshalMember kv ++ c4 :: r4) =
      if c4 = ',' then
        (pMembers (fuel + 1) depth (skipSpace r4)).map fun p =>
          ((textOf kv.1, JVal.str (textOf kv.2)) :: p.1, p.2)
      else if c4 = '\x7d' then some ([(textOf kv.1, JVal.str (textOf kv.2))], r4)
      else none := by
  have hv := pValue_quoteChars fuel depth kv.2 (c4 :: r4)
  simp only [quoteChars, List.cons_append, List.append_assoc, List.nil_append] at hv
  simp only [marshalMember, quoteChars, List.cons_append, List.append_assoc, List.nil_append]
  rw [pMembers]
  simp only [if_true]
  rw [strBody_escapeRunes]
  have e1 : ∀ r : List Char, skipSpace (':' :: r) = ':' :: r :=
    fun r => skipSpace_cons_of_not_space (by decide) r
  have e2 : ∀ r : List Char, skipSpace ('\x22' :: r) = '\x22' :: r :=
    fun r => skipSpace_cons_of_not_space (by decide) r
  simp only [e1, e2, if_true, hv, skipSpace_cons_of_not_space h4]
  rfl

/-- The members written by `json.Marshal` are parsed back in order. -/
theorem pMembers_marshalMembers (depth : Nat) (rest : List Char) :
    ∀ (m : GoMap) (kv : GoString × GoString) (fuel : Nat), m.length + 2 ≤ fuel →
      pMembers fuel depth (marshalMembers (kv :: m) ++ '\x7d' :: rest) =
        some ((kv :: m).map (fun e => (textOf e.1, JVal.str (textOf e.2))), rest) := by
  intro m
  induction m with
  | nil =>
    intro kv fuel hf
    obtain ⟨f2, rfl⟩ : ∃ f2, fuel = f2 + 2 := ⟨fuel - 2, by simp at hf; omega⟩
    simp only [marshalMembers]
    rw [pMembers_step _ _ _ _ _ (by decide)]
    simp
  | cons kv2 m2 ih =>
    intro kv fuel hf
    obtain ⟨f2, rfl⟩ : ∃ f2, fuel = f2 + 2 := ⟨fuel - 2, by simp at hf; omega⟩
    have hrec := ih kv2 (f2 + 1) (by simp at hf ⊢; omega)
    obtain ⟨tl, htl⟩ := marshalMembers_head kv2 m2
    have hsk : skipSpace (marshalMembers (kv2 :: m2) ++ '\x7d' :: rest) =
        marshalMembers (kv2 :: m2) ++ '\x7d' :: rest := by
      rw [htl]; simp [skipSpace, isSpace]
    simp only [marshalMembers, List.append_assoc, List.cons_append]
    rw [pMembers_step _ _ _ _ _ (by decide)]
    simp only [if_true]
    rw [hsk, hrec]
    simp

theorem length_le_marshalMembers (m : GoMap) : m.length ≤ (marshalMembers m).length := by
  induction m with
  | nil => simp
  | cons kv m ih =>
    cases m with
    | nil => simp [marshalMembers, marshalMember, quoteChars]
    | cons kv2 m2 =>
      simp only [marshalMembers, List.length_cons, List.length_append] at ih ⊢
      omega

theorem parseJSON_utf8Chars (cs : List Char) : parseJSON (utf8Chars cs) = parseChars cs := by
  simp only [parseJSON, runesOf_utf8Chars]

/-- What `json.Marshal` writes for a map parses back to the object with the
same members in the same order, each invalid byte replaced by U+FFFD. -/
theorem parseJSON_marshal (m : GoMap) :
    parseJSON (jsonMarshalStringMap m) =
      some (JVal.obj (m.map fun e => (textOf e.1, JVal.str (textOf e.2)))) := by
  rw [jsonMarshalStringMap, parseJSON_utf8Chars]
  cases m with
  | nil => rfl
  | cons kv m =>
    obtain ⟨tl, htl⟩ := marshalMembers_head kv m
    have hlen := length_le_marshalMembers (kv :: m)
    have hfuel : m.length + 2 ≤ ('\x7b' :: (marshalMembers (kv :: m) ++ ['\x7d'])).length := by
      simp only [List.length_append, List.length_cons, List.length_nil] at hlen ⊢
      omega
    have hmem := pMembers_marshalMembers (maxNestingDepth - 1) [] m kv _ hfuel
    have e0 : ∀ r : List Char, skipSpace ('\x7b' :: r) = '\x7b' :: r :=
      fun r => skipSpace_cons_of_not_space (by decide) r
    have e2 : ∀ r : List Char, skipSpace ('\x22' :: r) = '\x22' :: r :=
      fun r => skipSpace_cons_of_not_space (by decide) r
    have hd : maxNestingDepth = (maxNestingDepth - 1) + 1 := by decide
    simp only [parseChars, e0]
    rw [hd, pValue]
    simp only [if_true]
    rw [htl] at hmem ⊢
    simp only [List.cons_append, e2] at hmem ⊢
    rw [hmem]
    simp [skipSpace]

theorem mem_mapInsert {β : Type} {k : GoString} {v : β} {m : GoMapOf β} {x : GoString × β}
    (h : x ∈ mapInsert k v m) : x = (k, v) ∨ x ∈ m := by
  induction m with
  | nil => simpa [mapInsert] using h
  | cons e rest ih =>
    obtain ⟨k', v'⟩ := e
    simp only [mapInsert] at h
    split at h
    · simpa using h
    · split at h
      · rcases List.mem_cons.1 h with h | h
        · exact Or.inl h
        · exact Or.inr (List.mem_cons_of_mem _ h)
      · rcases List.mem_cons.1 h with h | h
        · exact Or.inr (by rw [h]; exact List.mem_cons_self _ _)
        · rcases ih h with h | h
          · exact Or.inl h
          · exact Or.inr (List.mem_cons_of_mem _ h)

theorem mapInsert_sorted {β : Type} (k : GoString) (v : β) (m : GoMapOf β) (h : SortedKeys m) :
    SortedKeys (mapInsert k v m) := by
  induction m with
  | nil => simp [mapInsert, SortedKeys]
  | cons e rest ih =>
    obtain ⟨k', v'⟩ := e
    unfold SortedKeys at h ih ⊢
    rw [List.pairwise_cons] at h
    simp only [mapInsert]
    by_cases h1 : keyLt k k' = true
    · simp only [h1, if_true]
      refine List.pairwise_cons.2 ⟨?_, List.pairwise_cons.2 h⟩
      intro x hx
      rcases List.mem_cons.1 hx with hx | hx
      · rw [hx]; exact h1
      · exact keyLt_trans h1 (h.1 x hx)
    · have h1' : keyLt k k' = false := by simpa using h1
      simp only [h1', Bool.false_eq_true, if_false]
      by_cases h2 : k = k'
      · subst h2
        simp only [if_true]
        exact List.pairwise_cons.2 ⟨fun x hx => h.1 x hx, h.2⟩
      · simp only [h2, if_false]
        refine List.pairwise_cons.2 ⟨?_, ih h.2⟩
        intro x hx
        rcases mem_mapInsert hx with hx | hx
        · rw [hx]; exact keyLt_total h1' h2
        · exact h.1 x hx

theorem mapInsert_append_last {β : Type} (k : GoString) (v : β) (acc : GoMapOf β)
    (h : ∀ x ∈ acc, keyLt x.1 k = true) : mapInsert k v acc = acc ++ [(k, v)] := by
  induction acc with
  | nil => rfl
  | cons e rest ih =>
    obtain ⟨k', v'⟩ := e
    have h1 : keyLt k' k = true := h (k', v') (List.mem_cons_self _ _)
    have h2 : keyLt k k' = false := keyLt_asymm h1
    have h3 : k ≠ k' := (keyLt_ne h1).symm
    simp [mapInsert, h2, h3, ih (fun x hx => h x (List.mem_cons_of_mem _ hx))]

theorem CleanMap_nil : CleanMap [] :=
  ⟨by simp [SortedKeys], fun e he => by cases he⟩

theorem mapInsert_clean (k v : GoString) (m : GoMap) (hk : validString k = true)
    (hv : validString v = true) (h : CleanMap m) : CleanMap (mapInsert k v m) := by
  refine ⟨mapInsert_sorted k v m h.1, ?_⟩
  intro e he
  rcases mem_mapInsert he with rfl | hm
  · exact ⟨hk, hv⟩
  · exact h.2 e hm

theorem decodeStringFields_map (l : GoMap)
    (hvalid : ∀ e ∈ l, validString e.1 = true ∧ validString e.2 = true) :
    ∀ acc : GoMap, SortedKeys (acc ++ l) →
      decodeStringFields (l.map fun e => (textOf e.1, JVal.str (textOf e.2))) acc =
        some (acc ++ l) := by
  induction l with
  | nil => intro acc _; simp [decodeStringFields]
  | cons e rest ih =>
    intro acc h
    obtain ⟨k, v⟩ := e
    obtain ⟨hk, hv⟩ := hvalid (k, v) (List.mem_cons_self _ _)
    simp only at hk hv
    have hlast : mapInsert k v acc = acc ++ [(k, v)] := by
      apply mapInsert_append_last
      intro x hx
      unfold SortedKeys at h
      rw [List.pairwise_append] at h
      exact h.2.2 x hx (k, v) (List.mem_cons_self _ _)
    simp only [List.map_cons, decodeStringFields, textOf, utf8_runesOf_valid hk,
      utf8_runesOf_valid hv]
    rw [hlast]
    have := ih (fun e he => hvalid e (List.mem_cons_of_mem _ he)) (acc ++ [(k, v)])
      (by simpa using h)
    simp only [textOf] at this
    rw [this]
    simp

/-- Decoding what `json.Marshal` wrote for a map of valid UTF-8 strings gives
the map back. -/
theorem jsonUnmarshal_marshal (m : GoMap) (h : CleanMap m) :
    jsonUnmarshalStringMap (jsonMarshalStringMap m) = .ok (some m) := by
  have hd := decodeStringFields_map m h.2 [] (by simpa using h.1)
  simp only [jsonUnmarshalStringMap, parseJSON_marshal, hd, List.nil_append]

/-- Whatever `json.Unmarshal` stores is valid UTF-8, and the map stays
sorted. -/
theorem decodeStringFields_clean (fields : List (String × JVal)) :
    ∀ (acc m : GoMap), CleanMap acc → decodeStringFields fields acc = some m → CleanMap m := by
  induction fields with
  | nil => intro acc m h hd; simp [decodeStringFields] at hd; rw [← hd]; exact h
  | cons f rest ih =>
    intro acc m h hd
    obtain ⟨k, v⟩ := f
    cases v with
    | str s =>
      exact ih _ _ (mapInsert_clean _ _ acc (validString_utf8 k) (validString_utf8 s) h)
        (by simpa [decodeStringFields] using hd)
    | null =>
      exact ih _ _ (mapInsert_clean _ _ acc (validString_utf8 k) validString_nil h)
        (by simpa [decodeStringFields] using hd)
    | bool b => simp [decodeStringFields] at hd
    | num l => simp [decodeStringFields] at hd
    | arr xs => simp [decodeStringFields] at hd
    | obj fs => simp [decodeStringFields] at hd

theorem decodeStringFields_of_strings (fields : List (String × JVal))
    (h : ∀ f ∈ fields, ∃ s, f.2 = JVal.str s) :
    ∀ acc : GoMap, ∃ m, decodeStringFields fields acc = some m := by
  induction fields with
  | nil => intro acc; exact ⟨acc, rfl⟩
  | cons f rest ih =>
    intro acc
    obtain ⟨k, v⟩ := f
    obtain ⟨s, hs⟩ := h (k, v) (List.mem_cons_self _ _)
    simp only at hs
    subst hs
    simp only [decodeStringFields]
    exact ih (fun f hf => h f (List.mem_cons_of_mem _ hf)) _

theorem jsonUnmarshal_clean {g : GoString} {m : GoMap}
    (h : jsonUnmarshalStringMap g = .ok (some m)) : CleanMap m := by
  unfold jsonUnmarshalStringMap at h
  cases hp : parseJSON g with
  | none => rw [hp] at h; cases h
  | some v =>
    rw [hp] at h
    cases v with
    | obj fields =>
      simp only at h
      cases hd : decodeStringFields fields [] with
      | none => rw [hd] at h; cases h
      | some m2 =>
        rw [hd] at h
        injection h with h
        injection h with h
        subst h
        exact decodeStringFields_clean fields [] m2 CleanMap_nil hd
    | null => cases h
    | bool b => cases h
    | num l => cases h
    | str s => cases h
    | arr xs => cases h

theorem jsonMarshal_ne_empty (m : GoMap) : jsonMarshalStringMap m ≠ [] := by
  intro h
  have := congrArg List.length h
  simp [jsonMarshalStringMap, utf8Chars, encodeRune] at this

namespace Pkg

theorem appendSecretToMap_empty (k v : GoString) :
    appendSecretToMap [] k v = .ok (jsonMarshalStringMap [(k, v)]) := by
  simp [appendSecretToMap, mapInsert, utf8_empty]

theorem appendSecretToMap_marshal (m : GoMap) (h : CleanMap m) (k v : GoString) :
    appendSecretToMap (jsonMarshalStringMap m) k v =
      .ok (jsonMarshalStringMap (mapInsert k v m)) := by
  simp [appendSecretToMap, utf8_empty, jsonMarshal_ne_empty, jsonUnmarshal_marshal m h]

theorem appendSecretToMap_of_decode {g : GoString} {m : GoMap} (hne : g ≠ [])
    (hd : jsonUnmarshalStringMap g = .ok (some m)) (k v : GoString) :
    appendSecretToMap g k v = .ok (jsonMarshalStringMap (mapInsert k v m)) := by
  simp [appendSecretToMap, utf8_empty, hne, hd]

/-- Merging two distinct valid keys into any string ends the same way in both
orders: the same result, or the same failure of the first step. -/
theorem appendSecretToMap_agree (g k1 k2 v1 v2 : GoString) (hk : k1 ≠ k2)
    (hk1 : validString k1 = true) (hk2 : validString k2 = true)
    (hv1 : validString v1 = true) (hv2 : validString v2 = true) :
    ((appendSecretToMap g k1 v1).bind fun g1 => appendSecretToMap g1 k2 v2) =
      (appendSecretToMap g k2 v2).bind fun g2 => appendSecretToMap g2 k1 v1 := by
  by_cases hg : g = []
  · subst hg
    rw [appendSecretToMap_empty, appendSecretToMap_empty]
    simp only [Except.bind]
    rw [appendSecretToMap_marshal [(k1, v1)] (mapInsert_clean k1 v1 [] hk1 hv1 CleanMap_nil),
      appendSecretToMap_marshal [(k2, v2)] (mapInsert_clean k2 v2 [] hk2 hv2 CleanMap_nil)]
    exact congrArg (fun m => Except.ok (jsonMarshalStringMap m)) (mapInsert_comm v1 v2 [] hk).symm
  · cases hd : jsonUnmarshalStringMap g with
    | error e => simp [appendSecretToMap, utf8_empty, hg, hd, Except.bind]
    | ok r =>
      cases r with
      | none => simp [appendSecretToMap, utf8_empty, hg, hd, Except.bind]
      | some m =>
        have hs := jsonUnmarshal_clean hd
        rw [appendSecretToMap_of_decode hg hd, appendSecretToMap_of_decode hg hd]
        simp only [Except.bind]
        rw [appendSecretToMap_marshal _ (mapInsert_clean k1 v1 m hk1 hv1 hs),
          appendSecretToMap_marshal _ (mapInsert_clean k2 v2 m hk2 hv2 hs)]
        exact congrArg (fun m => Except.ok (jsonMarshalStringMap m))
          (mapInsert_comm v1 v2 m hk).symm

end Pkg

/-! ## `strings.Split` is injective; `json.Marshal` is injective on maps -/

theorem splitDot_ne_nil (cs : GoString) : splitDot cs ≠ [] := by
  induction cs with
  | nil => simp [splitDot]
  | cons c cs ih =>
    simp only [splitDot]
    split
    · simp
    · split <;> simp

theorem joinDot_split (cs : GoString) : joinDot (splitDot cs) = cs := by
  induction cs with
  | nil => rfl
  | cons c cs ih =>
    simp only [splitDot]
    cases hs : splitDot cs with
    | nil => exact absurd hs (splitDot_ne_nil cs)
    | cons h t =>
      rw [hs] at ih
      split
      · rename_i hc
        subst hc
        simp [joinDot, ih]
      · cases t with
        | nil => simp only [joinDot] at ih ⊢; rw [ih]
        | cons t1 t2 =>
          simp only [joinDot] at ih ⊢
          rw [List.cons_append, ih]

theorem splitDot_injective {a b : GoString} (h : splitDot a = splitDot b) : a = b := by
  rw [← joinDot_split a, h, joinDot_split]

theorem jsonMarshal_injective {g1 g2 : GoMap} (h1 : CleanMap g1) (h2 : CleanMap g2)
    (h : jsonMarshalStringMap g1 = jsonMarshalStringMap g2) : g1 = g2 := by
  have e1 := jsonUnmarshal_marshal g1 h1
  have e2 := jsonUnmarshal_marshal g2 h2
  rw [h, e2] at e1
  injection e1 with e3
  injection e3 with e4
  exact e4.symm

/-! ## The decoder reads JSON texts as they are written -/

theorem isSpace_of_isBlank {c : Char} (h : isBlank c = true) : isSpace c = true := by
  simp only [isBlank, isSpace, Bool.or_eq_true, decide_eq_true_eq] at h ⊢
  rcases h with ((h | h) | h) | h
  · exact Or.inl (Or.inl (Or.inl h))
  · exact Or.inl (Or.inl (Or.inr h))
  · exact Or.inr h
  · exact Or.inl (Or.inr h)

theorem allBlank_cons {c : Char} {cs : List Char} (h : allBlank (c :: cs) = true) :
    isBlank c = true ∧ allBlank cs = true := by
  simpa [allBlank] using h

theorem skipSpace_blanks (ws rest : List Char) (h : allBlank ws = true) :
    skipSpace (ws ++ rest) = skipSpace rest := by
  induction ws with
  | nil => rfl
  | cons c cs ih =>
    obtain ⟨h1, h2⟩ := allBlank_cons h
    simp only [List.cons_append, skipSpace, isSpace_of_isBlank h1, if_true]
    exact ih h2

theorem skipSpace_allBlank (ws : List Char) (h : allBlank ws = true) : skipSpace ws = [] := by
  have := skipSpace_blanks ws [] h
  simpa [skipSpace] using this

theorem skipSpace_blanks_cons (ws : List Char) (c : Char) (rest : List Char)
    (h : allBlank ws = true) (hc : isSpace c = false) :
    skipSpace (ws ++ c :: rest) = c :: rest := by
  rw [skipSpace_blanks ws _ h, skipSpace_cons_of_not_space hc]

theorem hexVal_spellHex (d : Nat) (upper : Bool) (h : d < 16) :
    hexVal (spellHex d upper) = some d := by
  interval_cases d <;> cases upper <;> decide

theorem hex4_spelling (h : HexEscape) (hv : h.value < 65536) :
    hex4 (spellHex (h.value / 4096) h.upper3) (spellHex (h.value / 256 % 16) h.upper2)
      (spellHex (h.value / 16 % 16) h.upper1) (spellHex (h.value % 16) h.upper0) =
      some h.value := by
  simp only [hex4, hexVal_spellHex _ _ (show h.value / 4096 < 16 by omega),
    hexVal_spellHex _ _ (show h.value / 256 % 16 < 16 by omega),
    hexVal_spellHex _ _ (show h.value / 16 % 16 < 16 by omega),
    hexVal_spellHex _ _ (show h.value % 16 < 16 by omega)]
  congr 1
  omega

theorem strUnits_hexEscape (h : HexEscape) (hv : h.value < 65536) (rest : List Char) :
    strUnits (h.spelling ++ rest) = consUnit (.esc h.value) (strUnits rest) := by
  simp only [HexEscape.spelling, List.cons_append, List.nil_append]
  rw [strUnits.eq_def]
  simp [hex4_spelling h hv]

theorem joinUnits_pair (hi lo : Nat) (more : List StrUnit) (h1 : 0xD800 ≤ hi) (h2 : hi < 0xDC00)
    (h3 : 0xDC00 ≤ lo) (h4 : lo < 0xE000) :
    joinUnits none ([.esc hi, .esc lo] ++ more) =
      Char.ofNat (0x10000 + (hi - 0xD800) * 1024 + (lo - 0xDC00)) :: joinUnits none more := by
  have e : (hi - 0xD800) * 1024 + (lo - 0xDC00) + 0x10000 =
      0x10000 + (hi - 0xD800) * 1024 + (lo - 0xDC00) := by omega
  show joinUnits none (.esc hi :: .esc lo :: more) = _
  rw [joinUnits, if_pos ⟨h1, h2⟩, joinUnits, if_pos ⟨h3, h4⟩, e]

/-- One item of a literal is scanned as the units of the character that it
denotes. -/
theorem strUnits_item (item : StrItem) (h : item.wellFormed = true) :
    ∃ us, (∀ rest, strUnits (item.spelling ++ rest) =
        (strUnits rest).map (fun p => (us ++ p.1, p.2))) ∧
      ∀ more, joinUnits none (us ++ more) = item.char :: joinUnits none more := by
  cases item with
  | plain c =>
    simp only [StrItem.wellFormed, Bool.and_eq_true, decide_eq_true_eq] at h
    obtain ⟨⟨h1, h2⟩, h3⟩ := h
    refine ⟨[.raw c], fun rest => ?_, fun more => by simp [joinUnits, StrItem.char]⟩
    have hc : ¬ c.toNat < 0x20 := by omega
    simp only [StrItem.spelling, List.cons_append, List.nil_append]
    rw [strUnits.eq_def]
    simp [h2, h3, hc, consUnit]
  | short e =>
    simp only [StrItem.wellFormed, decide_eq_true_eq] at h
    rcases h with h | h | h | h | h | h | h | h <;> subst h
    · exact ⟨[.raw '\x22'], fun rest => by
        simp only [StrItem.spelling, List.cons_append, List.nil_append]
        rw [strUnits.eq_def]; simp [simpleEscape, consUnit],
        fun more => by simp [joinUnits, StrItem.char]⟩
    · exact ⟨[.raw '\x5c'], fun rest => by
        simp only [StrItem.spelling, List.cons_append, List.nil_append]
        rw [strUnits.eq_def]; simp [simpleEscape, consUnit],
        fun more => by simp [joinUnits, StrItem.char]⟩
    · exact ⟨[.raw '/'], fun rest => by
        simp only [StrItem.spelling, List.cons_append, List.nil_append]
        rw [strUnits.eq_def]; simp [simpleEscape, consUnit],
        fun more => by simp [joinUnits, StrItem.char]⟩
    · exact ⟨[.raw '\x08'], fun rest => by
        simp only [StrItem.spelling, List.cons_append, List.nil_append]
        rw [strUnits.eq_def]; simp [simpleEscape, consUnit],
        fun more => by simp [joinUnits, StrItem.char]⟩
    · exact ⟨[.raw '\x0c'], fun rest => by
        simp only [StrItem.spelling, List.cons_append, List.nil_append]
        rw [strUnits.eq_def]; simp [simpleEscape, consUnit],
        fun more => by simp [joinUnits, StrItem.char]⟩
    · exact ⟨[.raw '\n'], fun rest => by
        simp only [StrItem.spelling, List.cons_append, List.nil_append]
        rw [strUnits.eq_def]; simp [simpleEscape, consUnit],
        fun more => by simp [joinUnits, StrItem.char]⟩
    · exact ⟨[.raw '\r'], fun rest => by
        simp only [StrItem.spelling, List.cons_append, List.nil_append]
        rw [strUnits.eq_def]; simp [simpleEscape, consUnit],
        fun more => by simp [joinUnits, StrItem.char]⟩
    · exact ⟨[.raw '\t'], fun rest => by
        simp only [StrItem.spelling, List.cons_append, List.nil_append]
        rw [strUnits.eq_def]; simp [simpleEscape, consUnit],
        fun more => by simp [joinUnits, StrItem.char]⟩
  | hex x =>
    simp only [StrItem.wellFormed, decide_eq_true_eq] at h
    refine ⟨[.esc x.value], fun rest => ?_, fun more => ?_⟩
    · simp only [StrItem.spelling]
      rw [strUnits_hexEscape x (by omega)]
      simp [consUnit]
    · simp only [List.singleton_append, joinUnits, StrItem.char]
      rw [if_neg (by omega), if_neg (by omega)]
      rfl
  | pair hi lo =>
    simp only [StrItem.wellFormed, decide_eq_true_eq] at h
    refine ⟨[.esc hi.value, .esc lo.value], fun rest => ?_, fun more => ?_⟩
    · simp only [StrItem.spelling, List.append_assoc]
      rw [strUnits_hexEscape hi (by omega), strUnits_hexEscape lo (by omega)]
      cases strUnits rest <;> simp [consUnit]
    · exact joinUnits_pair hi.value lo.value more (by omega) (by omega) (by omega) (by omega)

/-- A literal as it is written is decoded to the text that it denotes. -/
theorem strBody_spellItems (items : List StrItem) (h : items.all StrItem.wellFormed = true)
    (rest : List Char) :
    strBody (spellItems items ++ '\x22' :: rest) = some (items.map StrItem.char, rest) := by
  have key : ∀ items : List StrItem, items.all StrItem.wellFormed = true →
      ∃ us, strUnits (spellItems items ++ '\x22' :: rest) = some (us, rest) ∧
        joinUnits none us = items.map StrItem.char := by
    intro items
    induction items with
    | nil =>
      intro _
      exact ⟨[], by rw [strUnits.eq_def]; simp [spellItems], by simp [joinUnits]⟩
    | cons item more ih =>
      intro hall
      simp only [List.all_cons, Bool.and_eq_true] at hall
      obtain ⟨us, h1, h2⟩ := ih hall.2
      obtain ⟨us0, h3, h4⟩ := strUnits_item item hall.1
      refine ⟨us0 ++ us, ?_, ?_⟩
      · simp only [spellItems, List.append_assoc]
        rw [h3, h1]
        rfl
      · rw [h4, h2]
        rfl
  obtain ⟨us, h1, h2⟩ := key items h
  simp [strBody, h1, h2]

theorem pValue_spellLiteral (fuel depth : Nat) (items : List StrItem)
    (h : items.all StrItem.wellFormed = true) (rest : List Char) :
    pValue (fuel + 1) depth ('\x22' :: (spellItems items ++ '\x22' :: rest)) =
      some (JVal.str (literalText items), rest) := by
  simp only [pValue]
  rw [strBody_spellItems items h]
  simp [literalText]

theorem strMember_spelling_eq (m : StrMember) (tail : List Char) :
    m.spelling ++ tail =
      m.before ++ '\x22' :: (spellItems m.key ++ '\x22' :: (m.afterKey ++ ':' ::
        (m.afterColon ++ '\x22' :: (spellItems m.value ++ '\x22' :: (m.after ++ tail))))) := by
  simp [StrMember.spelling, spellLiteral, List.append_assoc]

theorem strMember_wellFormed_iff (m : StrMember) (h : m.wellFormed = true) :
    allBlank m.before = true ∧ m.key.all StrItem.wellFormed = true ∧
      allBlank m.afterKey = true ∧ allBlank m.afterColon = true ∧
      m.value.all StrItem.wellFormed = true ∧ allBlank m.after = true := by
  simp only [StrMember.wellFormed, Bool.and_eq_true] at h
  obtain ⟨⟨⟨⟨⟨h1, h2⟩, h3⟩, h4⟩, h5⟩, h6⟩ := h
  exact ⟨h1, h2, h3, h4, h5, h6⟩

/-- One member followed by a non-blank character: a single step of `pMembers`. -/
theorem pMembers_member (fuel depth : Nat) (m : StrMember) (hm : m.wellFormed = true)
    (c4 : Char) (r4 : List Char) (h4 : isSpace c4 = false) :
    pMembers (fuel + 2) depth (skipSpace (m.spelling ++ c4 :: r4)) =
      if c4 = ',' then
        (pMembers (fuel + 1) depth (skipSpace r4)).map fun p =>
          ((literalText m.key, JVal.str (literalText m.value)) :: p.1, p.2)
      else if c4 = '\x7d' then some ([(literalText m.key, JVal.str (literalText m.value))], r4)
      else none := by
  obtain ⟨h1, h2, h3, h5, h6, h7⟩ := strMember_wellFormed_iff m hm
  rw [strMember_spelling_eq m, skipSpace_blanks_cons _ _ _ h1 (by decide)]
  rw [pMembers]
  simp only [if_true]
  rw [strBody_spellItems m.key h2]
  simp only [skipSpace_blanks_cons _ _ _ h3 (show isSpace ':' = false by decide), if_true,
    skipSpace_blanks_cons _ _ _ h5 (show isSpace '\x22' = false by decide),
    pValue_spellLiteral fuel depth m.value h6, skipSpace_blanks_cons _ _ _ h7 h4]
  rfl

/-- The members of an object as they are written are parsed in order. -/
theorem pMembers_spellMembers (depth : Nat) (tail : List Char) :
    ∀ (ms : List StrMember) (m : StrMember) (fuel : Nat), ms.length + 2 ≤ fuel →
      (m :: ms).all StrMember.wellFormed = true →
      pMembers fuel depth (skipSpace (spellMembers (m :: ms) ++ '\x7d' :: tail)) =
        some ((m :: ms).map (fun x => (literalText x.key, JVal.str (literalText x.value))),
          tail) := by
  intro ms
  induction ms with
  | nil =>
    intro m fuel hf hall
    obtain ⟨f2, rfl⟩ : ∃ f2, fuel = f2 + 2 := ⟨fuel - 2, by simp at hf; omega⟩
    simp only [List.all_cons, List.all_nil, Bool.and_true] at hall
    simp only [spellMembers]
    rw [pMembers_member _ _ m hall _ _ (by decide)]
    simp
  | cons m2 ms2 ih =>
    intro m fuel hf hall
    obtain ⟨f2, rfl⟩ : ∃ f2, fuel = f2 + 2 := ⟨fuel - 2, by simp at hf; omega⟩
    simp only [List.all_cons, Bool.and_eq_true] at hall
    have hrec := ih m2 (f2 + 1) (by simp at hf ⊢; omega)
      (by simp only [List.all_cons, Bool.and_eq_true]; exact hall.2)
    simp only [spellMembers, List.append_assoc, List.cons_append]
    rw [pMembers_member _ _ m hall.1 _ _ (by decide)]
    simp only [if_true]
    rw [hrec]
    simp

theorem skipSpace_spellMembers (m : StrMember) (ms : List StrMember) (tail : List Char)
    (hm : m.wellFormed = true) :
    ∃ r, skipSpace (spellMembers (m :: ms) ++ tail) = '\x22' :: r := by
  obtain ⟨h1, _⟩ := strMember_wellFormed_iff m hm
  cases ms with
  | nil =>
    simp only [spellMembers]
    rw [strMember_spelling_eq m, skipSpace_blanks_cons _ _ _ h1 (by decide)]
    exact ⟨_, rfl⟩
  | cons m2 ms2 =>
    simp only [spellMembers, List.append_assoc]
    rw [strMember_spelling_eq m, skipSpace_blanks_cons _ _ _ h1 (by decide)]
    exact ⟨_, rfl⟩

/-- An object of strings as it is written, without the whitespace before it,
is parsed to its members; the whitespace after it is left over. -/
theorem pValue_object (fuel depth : Nat) (o : ObjectDoc) (ho : o.wellFormed = true)
    (hf : o.members.length + 1 ≤ fuel) (tail : List Char) :
    pValue (fuel + 1) (depth + 1)
        ('\x7b' :: (o.inner ++ (spellMembers o.members ++ '\x7d' :: tail))) =
      some (JVal.obj (o.fields.map fun f => (f.1, JVal.str f.2)), tail) := by
  simp only [ObjectDoc.wellFormed, Bool.and_eq_true] at ho
  obtain ⟨⟨⟨_, h2⟩, h3⟩, _⟩ := ho
  rw [pValue]
  simp only [if_true]
  rw [skipSpace_blanks _ _ h2]
  cases hms : o.members with
  | nil =>
    simp [spellMembers, skipSpace, isSpace, ObjectDoc.fields, hms]
  | cons m ms =>
    rw [hms] at h3 hf
    have hm : m.wellFormed = true := by
      simp only [List.all_cons, Bool.and_eq_true] at h3
      exact h3.1
    obtain ⟨r, hr⟩ := skipSpace_spellMembers m ms ('\x7d' :: tail) hm
    have hmem := pMembers_spellMembers depth tail ms m fuel (by simp at hf; omega) h3
    rw [hr] at hmem ⊢
    simp only [show ('\x22' : Char) ≠ '\x7d' by decide, if_false, hmem, Option.map_some',
      ObjectDoc.fields, hms, List.map_map]
    rfl

theorem length_le_spellMembers (ms : List StrMember) : ms.length ≤ (spellMembers ms).length := by
  induction ms with
  | nil => simp
  | cons m ms ih =>
    cases ms with
    | nil => simp [spellMembers, StrMember.spelling, spellLiteral]; omega
    | cons m2 ms2 =>
      simp only [spellMembers, List.length_cons, List.length_append] at ih ⊢
      omega

theorem objectDoc_length_spelling (o : ObjectDoc) :
    o.members.length + 2 ≤ o.spelling.length := by
  have := length_le_spellMembers o.members
  simp only [ObjectDoc.spelling, List.length_append, List.length_cons]
  omega

/-- A legal object of strings is parsed to the members that it denotes. -/
theorem parseChars_object (o : ObjectDoc) (ho : o.wellFormed = true) :
    parseChars o.spelling = some (JVal.obj (o.fields.map fun f => (f.1, JVal.str f.2))) := by
  have hw := ho
  simp only [ObjectDoc.wellFormed, Bool.and_eq_true] at hw
  obtain ⟨⟨⟨h1, _⟩, _⟩, h4⟩ := hw
  have hd : maxNestingDepth = (maxNestingDepth - 1) + 1 := by decide
  have hv := pValue_object o.spelling.length (maxNestingDepth - 1) o ho
    (by have := objectDoc_length_spelling o; omega) o.trail
  simp only [parseChars]
  rw [hd]
  have hsk : skipSpace o.spelling =
      '\x7b' :: (o.inner ++ (spellMembers o.members ++ '\x7d' :: o.trail)) := by
    simp only [ObjectDoc.spelling]
    exact skipSpace_blanks_cons _ _ _ h1 (by decide)
  rw [hsk, hv]
  simp [skipSpace_allBlank _ h4]

theorem objectDoc_bytes_ne_nil (o : ObjectDoc) : o.bytes ≠ [] := by
  intro h
  have hlen := congrArg List.length h
  have : ∀ cs : List Char, cs.length ≤ (utf8Chars cs).length := by
    intro cs
    induction cs with
    | nil => simp [utf8Chars]
    | cons c cs ih =>
      obtain ⟨b, l, hbl⟩ := encodeRune_cons c
      simp only [utf8Chars, hbl, List.length_append, List.length_cons]
      omega
  have h2 := this o.spelling
  have h3 := objectDoc_length_spelling o
  simp only [ObjectDoc.bytes, List.length_nil] at hlen
  omega

/-- A legal object of strings is decoded by `json.Unmarshal` into a map. -/
theorem objectDoc_decode (o : ObjectDoc) (ho : o.wellFormed = true) :
    ∃ m, jsonUnmarshalStringMap o.bytes = .ok (some m) := by
  have hp : parseJSON o.bytes = some (JVal.obj (o.fields.map fun f => (f.1, JVal.str f.2))) := by
    rw [ObjectDoc.bytes, parseJSON_utf8Chars, parseChars_object o ho]
  obtain ⟨m, hm⟩ := decodeStringFields_of_strings
    (o.fields.map fun f => (f.1, JVal.str f.2))
    (by
      intro f hf
      obtain ⟨x, _, rfl⟩ := List.mem_map.1 hf
      exact ⟨x.2, rfl⟩) []
  exact ⟨m, by simp only [jsonUnmarshalStringMap, hp, hm]⟩

/-! ## The invariant of `ObtainSecrets` -/

namespace Pkg

theorem fetched_of_client {client : Client} {path : GoString} {secrets : GoMap}
    (h : client path = .ok secrets) (sc : SecretConfig) :
    fetched client (path, sc) = mapLookup sc.VaultKey secrets := by
  simp [fetched, h]

theorem Resolves_nil (client : Client) : Resolves client [] [] := by
  refine ⟨?_, ?_, ?_⟩
  · intro pm hpm; cases hpm
  · intro pm hpm; cases hpm
  · intro k hk; simp [mapLookup] at hk

/-- The group that a two-segment mapping is merged into. -/
theorem group_of_parent (client : Client) (done : List (GoString × SecretConfig)) (values : GoMap)
    (sc : SecretConfig) (k0 k1 v : GoString) (hs : segments sc = [k0, k1])
    (hcoll1 : ∀ pm ∈ done, (segments pm.2).length = 1 → ∀ p c, segments sc = [p, c] →
      effectiveConfigKey pm.2 ≠ p)
    (hinv : Resolves client done values) :
    ∃ g0, CleanMap g0 ∧
      appendSecretToMap (mapGet k0 values) k1 v = .ok (jsonMarshalStringMap (mapInsert k1 v g0)) ∧
      (∀ g, CleanMap g → mapLookup k0 values = some (jsonMarshalStringMap g) → g = g0) ∧
      (∀ c2, (mapLookup c2 g0).isSome = true → ∃ pm2 ∈ done, segments pm2.2 = [k0, c2]) := by
  obtain ⟨_, h2, h3⟩ := hinv
  cases hl : mapLookup k0 values with
  | none =>
    refine ⟨[], CleanMap_nil, ?_, ?_, ?_⟩
    · simp [mapGet, hl, utf8_empty, appendSecretToMap_empty, mapInsert]
    · intro g _ hg; cases hg
    · intro c2 hc2; simp [mapLookup] at hc2
  | some x0 =>
    obtain ⟨pm0, hm0, hor⟩ := h3 k0 (by rw [hl]; rfl)
    rcases hor with ⟨hlen, hkey⟩ | ⟨c0, hseg0⟩
    · exact absurd hkey (hcoll1 pm0 hm0 hlen k0 k1 hs)
    · obtain ⟨g0, hs0, hl0, _, hch⟩ := h2 pm0 hm0 k0 c0 hseg0
      rw [hl] at hl0
      have hx0 : x0 = jsonMarshalStringMap g0 := by injection hl0
      subst hx0
      refine ⟨g0, hs0, ?_, ?_, hch⟩
      · simp [mapGet, hl, appendSecretToMap_marshal g0 hs0]
      · intro g hg hlg
        injection hlg with hlg
        exact (jsonMarshal_injective hs0 hg hlg).symm

/-- Processing one mapping keeps the invariant. -/
theorem obtainEntry_resolves (client : Client) (path : GoString) (secrets : GoMap)
    (sc : SecretConfig) (done : List (GoString × SecretConfig)) (values : GoMap) (v : GoString)
    (hclient : client path = .ok secrets)
    (hv : mapLookup sc.VaultKey secrets = some v)
    (hseg : (segments sc).length ≤ 2)
    (hvalid : ∀ p c, segments sc = [p, c] → validString c = true ∧ validString v = true)
    (hnew : ∀ pm ∈ done, effectiveConfigKey pm.2 ≠ effectiveConfigKey sc)
    (hcoll1 : ∀ pm ∈ done, (segments pm.2).length = 1 → ∀ p c, segments sc = [p, c] →
      effectiveConfigKey pm.2 ≠ p)
    (hcoll2 : ∀ pm ∈ done, ∀ p c, segments pm.2 = [p, c] → (segments sc).length = 1 →
      effectiveConfigKey sc ≠ p)
    (hinv : Resolves client done values) :
    ∃ values2, obtainEntry path secrets sc values = .ok values2 ∧
      Resolves client (done ++ [(path, sc)]) values2 := by
  have hf : fetched client (path, sc) = some v := by rw [fetched_of_client hclient, hv]
  have hsegdef : splitDot (effectiveConfigKey sc) = segments sc := rfl
  cases hs : segments sc with
  | nil => exact absurd hs (splitDot_ne_nil _)
  | cons k0 t =>
    cases t with
    | nil =>
      obtain ⟨h1, h2, h3⟩ := hinv
      have hstep : obtainEntry path secrets sc values =
          .ok (mapInsert (effectiveConfigKey sc) v values) := by
        simp [obtainEntry, hv, hsegdef, hs]
      refine ⟨_, hstep, ?_, ?_, ?_⟩
      · intro pm hpm hlen
        rcases List.mem_append.1 hpm with hd | hx
        · rw [mapLookup_insert_ne _ _ (hnew pm hd)]
          exact h1 pm hd hlen
        · rw [List.mem_singleton] at hx
          subst hx
          rw [mapLookup_insert_self, hf]
      · intro pm hpm p c hpc
        rcases List.mem_append.1 hpm with hd | hx
        · obtain ⟨g, hg1, hg2, hg3, hg4⟩ := h2 pm hd p c hpc
          refine ⟨g, hg1, ?_, hg3, ?_⟩
          · rw [mapLookup_insert_ne _ _ (Ne.symm (hcoll2 pm hd p c hpc (by rw [hs]; rfl)))]
            exact hg2
          · intro c2 hc2
            obtain ⟨pm2, hm, hseg2⟩ := hg4 c2 hc2
            exact ⟨pm2, List.mem_append_left _ hm, hseg2⟩
        · rw [List.mem_singleton] at hx
          subst hx
          simp only [hs] at hpc
          simp at hpc
      · intro k hk
        by_cases hkk : k = effectiveConfigKey sc
        · exact ⟨(path, sc), by simp, Or.inl ⟨by simp only [hs]; rfl, hkk.symm⟩⟩
        · rw [mapLookup_insert_ne _ _ hkk] at hk
          obtain ⟨pm, hm, hor⟩ := h3 k hk
          exact ⟨pm, List.mem_append_left _ hm, hor⟩
    | cons k1 t2 =>
      cases t2 with
      | cons k2 t3 => rw [hs] at hseg; simp at hseg
      | nil =>
        obtain ⟨hvk, hvv⟩ := hvalid k0 k1 hs
        obtain ⟨g0, hs0, happ, huniq, hch⟩ :=
          group_of_parent client done values sc k0 k1 v hs hcoll1 hinv
        obtain ⟨h1, h2, h3⟩ := hinv
        have hstep : obtainEntry path secrets sc values =
            .ok (mapInsert k0 (jsonMarshalStringMap (mapInsert k1 v g0)) values) := by
          simp [obtainEntry, hv, hsegdef, hs, happ]
        have hchildren : ∀ c2, (mapLookup c2 (mapInsert k1 v g0)).isSome = true →
            ∃ pm2 ∈ done ++ [(path, sc)], segments pm2.2 = [k0, c2] := by
          intro c2 hc2
          by_cases hck : c2 = k1
          · subst hck
            exact ⟨(path, sc), by simp, hs⟩
          · rw [mapLookup_insert_ne _ _ hck] at hc2
            obtain ⟨pm2, hm, hseg2⟩ := hch c2 hc2
            exact ⟨pm2, List.mem_append_left _ hm, hseg2⟩
        refine ⟨_, hstep, ?_, ?_, ?_⟩
        · intro pm hpm hlen
          rcases List.mem_append.1 hpm with hd | hx
          · rw [mapLookup_insert_ne _ _ (hcoll1 pm hd hlen k0 k1 hs)]
            exact h1 pm hd hlen
          · rw [List.mem_singleton] at hx
            subst hx
            simp only [hs] at hlen
            simp at hlen
        · intro pm hpm p c hpc
          rcases List.mem_append.1 hpm with hd | hx
          · obtain ⟨g, hg1, hg2, hg3, hg4⟩ := h2 pm hd p c hpc
            by_cases hp : p = k0
            · subst hp
              have hgg : g = g0 := huniq g hg1 hg2
              subst hgg
              have hc : c ≠ k1 := by
                intro hc
                subst hc
                exact hnew pm hd (splitDot_injective (hpc.trans hs.symm))
              refine ⟨mapInsert k1 v g, mapInsert_clean _ _ _ hvk hvv hg1,
                mapLookup_insert_self _ _ _, ?_, hchildren⟩
              rw [mapLookup_insert_ne _ _ hc]
              exact hg3
            · refine ⟨g, hg1, ?_, hg3, ?_⟩
              · rw [mapLookup_insert_ne _ _ hp]
                exact hg2
              · intro c2 hc2
                obtain ⟨pm2, hm, hseg2⟩ := hg4 c2 hc2
                exact ⟨pm2, List.mem_append_left _ hm, hseg2⟩
          · rw [List.mem_singleton] at hx
            subst hx
            simp only [hs] at hpc
            simp only [List.cons.injEq, and_true] at hpc
            obtain ⟨hp, hc⟩ := hpc
            subst hp
            subst hc
            exact ⟨mapInsert k1 v g0, mapInsert_clean _ _ _ hvk hvv hs0,
              mapLookup_insert_self _ _ _, by rw [mapLookup_insert_self, hf], hchildren⟩
        · intro k hk
          by_cases hkk : k = k0
          · subst hkk
            exact ⟨(path, sc), by simp, Or.inr ⟨k1, hs⟩⟩
          · rw [mapLookup_insert_ne _ _ hkk] at hk
            obtain ⟨pm, hm, hor⟩ := h3 k hk
            exact ⟨pm, List.mem_append_left _ hm, hor⟩

end Pkg

namespace Pkg

/-- The inner loop keeps the invariant when the mappings are admissible. -/
theorem obtainEntries_resolves (client : Client) (path : GoString) (secrets : GoMap)
    (all : List (GoString × SecretConfig))
    (hclient : client path = .ok secrets)
    (hfetch : ∀ pm ∈ all, (fetched client pm).isSome = true)
    (hsegs : ∀ pm ∈ all, (segments pm.2).length ≤ 2)
    (hvalid : ∀ pm ∈ all, ∀ p c v, segments pm.2 = [p, c] → fetched client pm = some v →
      validString c = true ∧ validString v = true)
    (hdist : (all.map fun pm => effectiveConfigKey pm.2).Nodup)
    (hcoll : ∀ pm ∈ all, ∀ pm2 ∈ all, (segments pm.2).length = 1 →
      (segments pm2.2).length = 2 → (segments pm2.2).head? ≠ some (effectiveConfigKey pm.2)) :
    ∀ (es : List SecretConfig) (done tail : List (GoString × SecretConfig)) (values : GoMap),
      all = done ++ (es.map (fun sc => (path, sc)) ++ tail) → Resolves client done values →
      ∃ values2, obtainEntries path secrets es values = .ok values2 ∧
        Resolves client (done ++ es.map (fun sc => (path, sc))) values2 := by
  intro es
  induction es with
  | nil =>
    intro done tail values _ hinv
    exact ⟨values, rfl, by simpa using hinv⟩
  | cons sc es ih =>
    intro done tail values hall hinv
    have hx : (path, sc) ∈ all := by rw [hall]; simp
    have hdone : ∀ pm ∈ done, pm ∈ all := fun pm h => by rw [hall]; exact List.mem_append_left _ h
    obtain ⟨v, hv⟩ : ∃ v, mapLookup sc.VaultKey secrets = some v := by
      have := hfetch _ hx
      rw [fetched_of_client hclient] at this
      exact Option.isSome_iff_exists.1 this
    have hnew : ∀ pm ∈ done, effectiveConfigKey pm.2 ≠ effectiveConfigKey sc := by
      intro pm hpm heq
      rw [hall, List.map_append, List.nodup_append] at hdist
      refine hdist.2.2 (List.mem_map_of_mem (fun pm => effectiveConfigKey pm.2) hpm) ?_
      rw [heq]
      simp
    have hcoll1 : ∀ pm ∈ done, (segments pm.2).length = 1 → ∀ p c, segments sc = [p, c] →
        effectiveConfigKey pm.2 ≠ p := by
      intro pm hpm hlen p c hpc heq
      refine hcoll pm (hdone pm hpm) (path, sc) hx hlen (by simp [hpc]) ?_
      simp [hpc, heq]
    have hcoll2 : ∀ pm ∈ done, ∀ p c, segments pm.2 = [p, c] → (segments sc).length = 1 →
        effectiveConfigKey sc ≠ p := by
      intro pm hpm p c hpc hlen heq
      refine hcoll (path, sc) hx pm (hdone pm hpm) hlen (by simp [hpc]) ?_
      simp [hpc, heq]
    obtain ⟨values1, hstep, hinv1⟩ := obtainEntry_resolves client path secrets sc done values v
      hclient hv (hsegs _ hx)
      (fun p c hpc => hvalid _ hx p c v hpc (by rw [fetched_of_client hclient, hv]))
      hnew hcoll1 hcoll2 hinv
    obtain ⟨values2, hrest, hinv2⟩ := ih (done ++ [(path, sc)]) tail values1
      (by rw [hall]; simp) hinv1
    refine ⟨values2, ?_, by simpa using hinv2⟩
    simp [obtainEntries, hstep, hrest]

/-- The outer loop keeps the invariant when the mappings are admissible. -/
theorem obtainPaths_resolves (client : Client) (all : List (GoString × SecretConfig))
    (hfetch : ∀ pm ∈ all, (fetched client pm).isSome = true)
    (hsegs : ∀ pm ∈ all, (segments pm.2).length ≤ 2)
    (hvalid : ∀ pm ∈ all, ∀ p c v, segments pm.2 = [p, c] → fetched client pm = some v →
      validString c = true ∧ validString v = true)
    (hdist : (all.map fun pm => effectiveConfigKey pm.2).Nodup)
    (hcoll : ∀ pm ∈ all, ∀ pm2 ∈ all, (segments pm.2).length = 1 →
      (segments pm2.2).length = 2 → (segments pm2.2).head? ≠ some (effectiveConfigKey pm.2)) :
    ∀ (config : SecretsConfig) (done : List (GoString × SecretConfig)) (values : GoMap),
      all = done ++ mappings config →
      (∀ pe ∈ config, ∃ secrets, client pe.1 = .ok secrets) →
      Resolves client done values →
      ∃ values2, obtainPaths client config values = .ok values2 ∧
        Resolves client (done ++ mappings config) values2 := by
  intro config
  induction config with
  | nil =>
    intro done values _ _ hinv
    exact ⟨values, rfl, by simpa [mappings] using hinv⟩
  | cons pe rest ih =>
    intro done values hall hclients hinv
    obtain ⟨path, es⟩ := pe
    obtain ⟨secrets, hclient⟩ := hclients (path, es) (List.mem_cons_self _ _)
    simp only at hclient
    obtain ⟨values1, hes, hinv1⟩ := obtainEntries_resolves client path secrets all hclient
      hfetch hsegs hvalid hdist hcoll es done (mappings rest) values (by rw [hall]; rfl) hinv
    obtain ⟨values2, hrest, hinv2⟩ := ih (done ++ es.map (fun sc => (path, sc))) values1
      (by rw [hall]; simp [mappings])
      (fun pe hpe => hclients pe (List.mem_cons_of_mem _ hpe)) hinv1
    refine ⟨values2, ?_, by simpa [mappings] using hinv2⟩
    simp [obtainPaths, hclient, hes, hrest]

end Pkg

/-! ## Fail-fast behaviour of the loops -/

namespace Pkg

theorem obtainEntries_append_ok (path : GoString) (secrets : GoMap) (es1 es2 : List SecretConfig) :
    ∀ (values values1 : GoMap), obtainEntries path secrets es1 values = .ok values1 →
      obtainEntries path secrets (es1 ++ es2) values = obtainEntries path secrets es2 values1 := by
  induction es1 with
  | nil =>
    intro values values1 h
    simp only [obtainEntries] at h
    injection h with h
    subst h
    rfl
  | cons sc es ih =>
    intro values values1 h
    simp only [obtainEntries, List.cons_append] at h ⊢
    cases hstep : obtainEntry path secrets sc values with
    | error e => rw [hstep] at h; cases h
    | ok v =>
      rw [hstep] at h
      simp only at h ⊢
      exact ih v values1 h

theorem obtainPaths_append_ok (client : Client) (pre rest : SecretsConfig) :
    ∀ (values values1 : GoMap), obtainPaths client pre values = .ok values1 →
      obtainPaths client (pre ++ rest) values = obtainPaths client rest values1 := by
  induction pre with
  | nil =>
    intro values values1 h
    simp only [obtainPaths] at h
    injection h with h
    subst h
    rfl
  | cons pe pre ih =>
    intro values values1 h
    obtain ⟨path, es⟩ := pe
    simp only [obtainPaths, List.cons_append] at h ⊢
    cases hc : client path with
    | error e => rw [hc] at h; cases h
    | ok secrets =>
      rw [hc] at h
      simp only at h ⊢
      cases hes : obtainEntries path secrets es values with
      | error e => rw [hes] at h; cases h
      | ok v =>
        rw [hes] at h
        simp only at h ⊢
        exact ih v values1 h

theorem obtainEntry_absent (path : GoString) (secrets : GoMap) (sc : SecretConfig) (values : GoMap)
    (h : mapLookup sc.VaultKey secrets = none) :
    obtainEntry path secrets sc values =
      .error (GoError.err ("key " ++ sc.VaultKey ++ " does not exist at vault path " ++ path)) := by
  simp [obtainEntry, h]

theorem obtainEntries_fails (path : GoString) (secrets : GoMap) (sc : SecretConfig)
    (h : mapLookup sc.VaultKey secrets = none) :
    ∀ (es : List SecretConfig) (values : GoMap), sc ∈ es →
      ∃ e, obtainEntries path secrets es values = .error e := by
  intro es
  induction es with
  | nil => intro _ hm; cases hm
  | cons sc2 es ih =>
    intro values hm
    simp only [obtainEntries]
    cases hstep : obtainEntry path secrets sc2 values with
    | error e => exact ⟨e, rfl⟩
    | ok v =>
      rcases List.mem_cons.1 hm with heq | hin
      · subst heq
        rw [obtainEntry_absent path secrets sc values h] at hstep
        cases hstep
      · exact ih v hin

/-- Whenever a declared vaultKey has no fetched value, `ObtainSecrets` fails. -/
theorem obtainPaths_fails (client : Client) :
    ∀ (config : SecretsConfig) (values : GoMap),
      (∃ pm ∈ mappings config, fetched client pm = none) →
      ∃ e, obtainPaths client config values = .error e := by
  intro config
  induction config with
  | nil => intro _ ⟨pm, hm, _⟩; cases hm
  | cons pe rest ih =>
    intro values ⟨pm, hm, hf⟩
    obtain ⟨path, es⟩ := pe
    simp only [obtainPaths]
    cases hc : client path with
    | error e => exact ⟨e, rfl⟩
    | ok secrets =>
      simp only
      cases hes : obtainEntries path secrets es values with
      | error e => exact ⟨e, rfl⟩
      | ok v =>
        simp only
        simp only [mappings] at hm
        rcases List.mem_append.1 hm with h1 | h2
        · obtain ⟨sc, hsc, rfl⟩ := List.mem_map.1 h1
          rw [fetched_of_client hc] at hf
          obtain ⟨e, he⟩ := obtainEntries_fails path secrets sc hf es values hsc
          rw [he] at hes
          cases hes
        · exact ih v ⟨pm, h2, hf⟩

end Pkg

theorem fetchEntries_append_ok (path : GoString) (secrets : GoMap) (es1 es2 : List SecretConfig) :
    ∀ (s s1 : State), fetchEntries path secrets es1 s = (none, s1) →
      fetchEntries path secrets (es1 ++ es2) s = fetchEntries path secrets es2 s1 := by
  induction es1 with
  | nil =>
    intro s s1 h
    simp only [fetchEntries] at h
    injection h with _ h
    subst h
    rfl
  | cons sc es ih =>
    intro s s1 h
    simp only [fetchEntries, List.cons_append] at h ⊢
    cases hstep : fetchEntry path secrets sc s with
    | mk r s2 =>
      rw [hstep] at h
      cases r with
      | some e => simp at h
      | none =>
        simp only at h ⊢
        exact ih s2 s1 h

theorem fetchPaths_append_ok (w : World) (pre rest : SecretsConfig) :
    ∀ (s s1 : State), fetchPaths w pre s = (none, s1) →
      fetchPaths w (pre ++ rest) s = fetchPaths w rest s1 := by
  induction pre with
  | nil =>
    intro s s1 h
    simp only [fetchPaths] at h
    injection h with _ h
    subst h
    rfl
  | cons pe pre ih =>
    intro s s1 h
    obtain ⟨path, es⟩ := pe
    simp only [fetchPaths, List.cons_append] at h ⊢
    cases hf : FetchSecrets w s path with
    | mk r s2 =>
      rw [hf] at h
      cases r with
      | error e => simp at h
      | ok secrets =>
        simp only at h ⊢
        cases hes : fetchEntries path secrets es s2 with
        | mk r2 s3 =>
          rw [hes] at h
          cases r2 with
          | some e => simp at h
          | none =>
            simp only at h ⊢
            exact ih s3 s1 h

/-! ## `FetchSecrets` and `FetchSecretsToEnv` with an installed token -/

theorem ensureToken_of_token (w : World) (s : State) (c : BaoClient)
    (hc : s.vault.baoClient = some c) (ht : c.token ≠ "") : ensureToken w s = (none, s) := by
  simp [ensureToken, hc, ht]

theorem FetchSecrets_of_token (w : World) (s : State) (c : BaoClient) (path : GoString)
    (secret : Secret) (hc : s.vault.baoClient = some c) (ht : c.token ≠ "")
    (hread : w.Read s.log path c.token = .ok (some secret)) :
    FetchSecrets w s path = (secretData secret, s.logged (Event.read path)) := by
  have htok : s.token.getD "" = c.token := by simp [State.token, hc]
  simp only [FetchSecrets, hc, ensureToken_of_token w s c hc ht, htok, hread]

theorem fetchEntries_holds (data : GoString → GoMap) (vault : Vault) (path : GoString)
    (all : List (GoString × SecretConfig))
    (hkeys : ∀ pm ∈ all, (mapLookup pm.2.VaultKey (data pm.1)).isSome = true)
    (hvalid : ∀ pm ∈ all, ∀ v, mapLookup pm.2.VaultKey (data pm.1) = some v →
      setenvInvalid (effectiveEnvVar pm.2) v = false)
    (hdist : (all.map fun pm => effectiveEnvVar pm.2).Nodup) :
    ∀ (es : List SecretConfig) (done tail : List (GoString × SecretConfig)) (s : State),
      all = done ++ (es.map (fun sc => (path, sc)) ++ tail) → EnvHolds data vault done s →
      ∃ s2, fetchEntries path (data path) es s = (none, s2) ∧
        EnvHolds data vault (done ++ es.map (fun sc => (path, sc))) s2 := by
  intro es
  induction es with
  | nil =>
    intro done tail s _ hinv
    exact ⟨s, rfl, by simpa using hinv⟩
  | cons sc es ih =>
    intro done tail s hall hinv
    have hx : (path, sc) ∈ all := by rw [hall]; simp
    obtain ⟨v, hv⟩ := Option.isSome_iff_exists.1 (hkeys _ hx)
    simp only at hv
    have hok := hvalid _ hx v hv
    simp only at hok
    have hnew : ∀ pm ∈ done, effectiveEnvVar pm.2 ≠ effectiveEnvVar sc := by
      intro pm hpm heq
      rw [hall, List.map_append, List.nodup_append] at hdist
      refine hdist.2.2 (List.mem_map_of_mem (fun pm => effectiveEnvVar pm.2) hpm) ?_
      rw [heq]
      simp
    have hstep : fetchEntry path (data path) sc s =
        (none, { s.logged (Event.setenv (effectiveEnvVar sc) v) with
                   environ := mapInsert (effectiveEnvVar sc) v s.environ }) := by
      simp [fetchEntry, hv, Setenv, hok]
    obtain ⟨s2, hrest, hinv2⟩ := ih (done ++ [(path, sc)]) tail _ (by rw [hall]; simp)
      (show EnvHolds data vault (done ++ [(path, sc)])
          { s.logged (Event.setenv (effectiveEnvVar sc) v) with
              environ := mapInsert (effectiveEnvVar sc) v s.environ } from by
        refine ⟨hinv.1, ?_⟩
        intro pm hpm
        rcases List.mem_append.1 hpm with hd | hnewm
        · simp only
          rw [mapLookup_insert_ne _ _ (hnew pm hd)]
          exact hinv.2 pm hd
        · rw [List.mem_singleton] at hnewm
          subst hnewm
          simp only
          rw [mapLookup_insert_self, hv])
    refine ⟨s2, ?_, by simpa using hinv2⟩
    simp only [fetchEntries, hstep, hrest]

theorem fetchPaths_holds (w : World) (data : GoString → GoMap) (vault : Vault) (c : BaoClient)
    (all : List (GoString × SecretConfig))
    (hc : vault.baoClient = some c) (ht : c.token ≠ "")
    (hkeys : ∀ pm ∈ all, (mapLookup pm.2.VaultKey (data pm.1)).isSome = true)
    (hvalid : ∀ pm ∈ all, ∀ v, mapLookup pm.2.VaultKey (data pm.1) = some v →
      setenvInvalid (effectiveEnvVar pm.2) v = false)
    (hdist : (all.map fun pm => effectiveEnvVar pm.2).Nodup) :
    ∀ (config : SecretsConfig) (done : List (GoString × SecretConfig)) (s : State),
      all = done ++ envMappings config →
      (∀ pe ∈ config, ∀ hist, ∃ secret, w.Read hist pe.1 c.token = .ok (some secret) ∧
        secretData secret = .ok (data pe.1)) →
      EnvHolds data vault done s →
      ∃ s2, fetchPaths w config s = (none, s2) ∧
        EnvHolds data vault (done ++ envMappings config) s2 := by
  intro config
  induction config with
  | nil =>
    intro done s _ _ hinv
    exact ⟨s, rfl, by simpa [envMappings] using hinv⟩
  | cons pe rest ih =>
    intro done s hall hread hinv
    obtain ⟨path, es⟩ := pe
    obtain ⟨secret, hr, hd⟩ := hread (path, es) (List.mem_cons_self _ _) s.log
    simp only at hr hd
    have hfetch := FetchSecrets_of_token w s c path secret (by rw [hinv.1]; exact hc) ht hr
    rw [hd] at hfetch
    obtain ⟨s1, hes, hinv1⟩ := fetchEntries_holds data vault path all hkeys hvalid hdist es done
      (envMappings rest) (s.logged (Event.read path)) (by rw [hall]; rfl) ⟨hinv.1, hinv.2⟩
    obtain ⟨s2, hrest, hinv2⟩ := ih (done ++ es.map (fun sc => (path, sc))) s1
      (by rw [hall]; simp [envMappings])
      (fun pe hpe => hread pe (List.mem_cons_of_mem _ hpe)) hinv1
    refine ⟨s2, ?_, by simpa [envMappings] using hinv2⟩
    simp only [fetchPaths, hfetch, hes, hrest]

/-! ## Calls on a Vault with an installed token -/

theorem refreshAuthToken_installed (w : World) (s : State) (h : TokenInstalled s) :
    refreshAuthToken w s = (none, s) := by
  obtain ⟨⟨c, hc, ht⟩, _⟩ := h
  simp [refreshAuthToken, hc, ht]

theorem ensureToken_installed (w : World) (s : State) (h : TokenInstalled s) :
    ensureToken w s = (none, s) := by
  obtain ⟨⟨c, hc, ht⟩, _⟩ := h
  simp [ensureToken, hc, ht]

theorem TokenInstalled_logged (s : State) (e : Event) (he : e.isLogin = false)
    (h : TokenInstalled s) : TokenInstalled (s.logged e) := by
  obtain ⟨hc, hl⟩ := h
  refine ⟨hc, ?_⟩
  intro e2 he2
  simp only [State.logged, List.mem_append, List.mem_singleton] at he2
  rcases he2 with h1 | h1
  · exact hl e2 h1
  · rw [h1]; exact he

theorem FetchSecrets_installed (w : World) (s : State) (path : GoString) (h : TokenInstalled s) :
    TokenInstalled (FetchSecrets w s path).2 := by
  have hlog := TokenInstalled_logged s (Event.read path) rfl h
  obtain ⟨⟨c, hc, ht⟩, _⟩ := h
  simp only [FetchSecrets, hc, ensureToken_of_token w s c hc ht]
  cases hr : w.Read s.log path (s.token.getD "") with
  | error e => exact hlog
  | ok r =>
    cases r with
    | none => exact hlog
    | some secret => exact hlog

theorem fetchEntry_installed (path : GoString) (secrets : GoMap) (sc : SecretConfig) (s : State)
    (h : TokenInstalled s) : TokenInstalled (fetchEntry path secrets sc s).2 := by
  unfold fetchEntry
  cases hl : mapLookup sc.VaultKey secrets with
  | none => exact h
  | some secret =>
    have hlog := TokenInstalled_logged s (Event.setenv (effectiveEnvVar sc) secret) rfl h
    simp only
    cases hse : Setenv (effectiveEnvVar sc) secret s.environ with
    | error e => exact hlog
    | ok environ2 => exact ⟨hlog.1, hlog.2⟩

theorem fetchEntries_installed (path : GoString) (secrets : GoMap) :
    ∀ (es : List SecretConfig) (s : State), TokenInstalled s →
      TokenInstalled (fetchEntries path secrets es s).2 := by
  intro es
  induction es with
  | nil => intro s h; exact h
  | cons sc es ih =>
    intro s h
    have h1 := fetchEntry_installed path secrets sc s h
    simp only [fetchEntries]
    cases hstep : fetchEntry path secrets sc s with
    | mk r s1 =>
      rw [hstep] at h1
      cases r with
      | none => exact ih s1 h1
      | some e => exact h1

theorem fetchPaths_installed (w : World) :
    ∀ (config : SecretsConfig) (s : State), TokenInstalled s →
      TokenInstalled (fetchPaths w config s).2 := by
  intro config
  induction config with
  | nil => intro s h; exact h
  | cons pe rest ih =>
    intro s h
    obtain ⟨path, es⟩ := pe
    have h1 := FetchSecrets_installed w s path h
    simp only [fetchPaths]
    cases hf : FetchSecrets w s path with
    | mk r s1 =>
      rw [hf] at h1
      cases r with
      | error e => exact h1
      | ok secrets =>
        have h2 := fetchEntries_installed path secrets es s1 h1
        simp only
        cases hes : fetchEntries path secrets es s1 with
        | mk r2 s2 =>
          rw [hes] at h2
          cases r2 with
          | none => exact ih s2 h2
          | some e => exact h2

theorem runCalls_installed (w : World) :
    ∀ (calls : List Call) (s : State), TokenInstalled s → TokenInstalled (runCalls w calls s) := by
  intro calls
  induction calls with
  | nil => intro s h; exact h
  | cons call rest ih =>
    intro s h
    simp only [runCalls]
    apply ih
    cases call with
    | ensure => simp only [Call.run, ensureToken_installed w s h]; exact h
    | refresh => simp only [Call.run, refreshAuthToken_installed w s h]; exact h
    | fetch path => exact FetchSecrets_installed w s path h
    | fetchToEnv => exact fetchPaths_installed w _ s h

theorem New_installed (w : World) (config : Config) (environ : GoMap) (s : State)
    (hauth : config.AuthToken ≠ "") (hnew : New w config environ = .ok s) :
    TokenInstalled s := by
  unfold New at hnew
  cases hc : w.NewClient config.ServerURL with
  | error e => rw [hc] at hnew; cases hnew
  | ok token0 =>
    rw [hc] at hnew
    simp only [hauth, ne_eq, not_false_eq_true, if_true] at hnew
    injection hnew with hnew
    subst hnew
    exact ⟨⟨_, rfl, hauth⟩, fun e he => by cases he⟩

/-- After a successful `ensureToken` a token is installed; configuration and
environment are untouched. -/
theorem ensureToken_ok (w : World) (s : State) (h : (ensureToken w s).1 = none) :
    (∃ c, (ensureToken w s).2.vault.baoClient = some c ∧ c.token ≠ "") ∧
    (ensureToken w s).2.environ = s.environ ∧
    (ensureToken w s).2.vault.config = s.vault.config := by
  revert h
  unfold ensureToken
  cases hc : s.vault.baoClient with
  | none => simp
  | some c =>
    simp only
    by_cases ht : c.token = ""
    · simp only [ht, ne_eq, not_true_eq_false, if_false]
      unfold refreshAuthToken
      simp only [hc, ht, ne_eq, not_true_eq_false, if_false]
      by_cases ha : s.vault.config.AuthToken = ""
      · simp only [ha, ne_eq, not_true_eq_false, if_false]
        cases w.ReadFile s.log s.vault.config.AuthKubernetesTokenPath with
        | error e => simp
        | ok k8sToken =>
          simp only
          cases w.Write _ _ k8sToken s.vault.config.AuthKubernetesRole with
          | error e => simp
          | ok r =>
            cases r with
            | none => simp [errNoClientToken]
            | some secret =>
              simp only
              cases secret.Auth with
              | none => simp [errNoClientToken]
              | some auth =>
                simp only
                by_cases hk : auth.ClientToken = ""
                · simp [hk, errNoClientToken]
                · simp [hk, State.logged, State.setToken]
      · simp [ha, State.setToken]
    · simp [ht, hc]

/-- A call of `FetchSecrets` behaves as if `ensureToken` had run before it. -/
theorem FetchSecrets_after_ensure (w : World) (s : State) (path : GoString)
    (h : (ensureToken w s).1 = none) :
    FetchSecrets w s path = FetchSecrets w (ensureToken w s).2 path := by
  obtain ⟨⟨c1, hc1, ht1⟩, _, _⟩ := ensureToken_ok w s h
  have h1 : ensureToken w (ensureToken w s).2 = (none, (ensureToken w s).2) :=
    ensureToken_of_token w _ c1 hc1 ht1
  cases hc : s.vault.baoClient with
  | none => simp [ensureToken, hc] at h
  | some c =>
    cases he : ensureToken w s with
    | mk r s1 =>
      rw [he] at h h1 hc1
      simp only at h h1 hc1
      subst h
      simp only [FetchSecrets, hc, he, hc1, h1]

theorem fetchPaths_after_ensure (w : World) (s : State) (config : SecretsConfig)
    (h : (ensureToken w s).1 = none) :
    (fetchPaths w config s).1 = (fetchPaths w config (ensureToken w s).2).1 ∧
    (fetchPaths w config s).2.environ = (fetchPaths w config (ensureToken w s).2).2.environ := by
  cases config with
  | nil => exact ⟨rfl, (ensureToken_ok w s h).2.1.symm⟩
  | cons pe rest =>
    obtain ⟨path, es⟩ := pe
    simp only [fetchPaths, FetchSecrets_after_ensure w s path h, and_self]

/-! ## Normalisation of the response in `FetchSecrets` -/

theorem mapLookup_stringifyData (k : GoString) (m : GoMapOf GoAny) :
    mapLookup k (stringifyData m) = (mapLookup k m).map stringValue := by
  induction m with
  | nil => rfl
  | cons e rest ih =>
    obtain ⟨k2, v⟩ := e
    simp only [stringifyData, mapLookup]
    by_cases h : k = k2
    · subst h
      simp [mapLookup_insert_self]
    · simp [mapLookup_insert_ne _ _ h, h, ih]

theorem ensureToken_withBody (w : World) (body : GoMapOf GoAny) (s : State) :
    ensureToken (w.withBody body) s = ensureToken w s := rfl

theorem FetchSecrets_withBody (w : World) (body : GoMapOf GoAny) (s : State) (path : GoString) :
    FetchSecrets (w.withBody body) s path =
      match s.vault.baoClient with
      | none => (.error (GoError.err "OpenBao client not initialized"), s)
      | some _ =>
        match ensureToken w s with
        | (some (GoError.err e), s1) =>
          (.error (GoError.err ("failed to ensure valid token: " ++ e)), s1)
        | (some (GoError.panic p), s1) => (.error (GoError.panic p), s1)
        | (none, s1) =>
          (secretData { Data := body, Auth := none }, s1.logged (Event.read path)) := rfl

/-! ## `parseSecretsConfig` on configuration texts as they are written -/

/-- The value that an object of strings denotes. -/
theorem objectDoc_spelling_eq (o : ObjectDoc) (tail : List Char) :
    o.spelling ++ tail =
      o.lead ++ '\x7b' :: (o.inner ++ (spellMembers o.members ++ '\x7d' :: (o.trail ++ tail))) := by
  simp [ObjectDoc.spelling, List.append_assoc]

theorem objectDoc_wellFormed_iff (o : ObjectDoc) (h : o.wellFormed = true) :
    allBlank o.lead = true ∧ allBlank o.inner = true ∧
      o.members.all StrMember.wellFormed = true ∧ allBlank o.trail = true := by
  simp only [ObjectDoc.wellFormed, Bool.and_eq_true] at h
  obtain ⟨⟨⟨h1, h2⟩, h3⟩, h4⟩ := h
  exact ⟨h1, h2, h3, h4⟩

/-- One array element followed by a non-blank character: a single step of
`pElems`. -/
theorem pElems_entry (fuel depth : Nat) (o : ObjectDoc) (ho : o.wellFormed = true)
    (hf : o.members.length + 1 ≤ fuel) (c2 : Char) (r2 : List Char) (h2 : isSpace c2 = false) :
    pElems (fuel + 2) (depth + 1) (skipSpace (o.spelling ++ c2 :: r2)) =
      if c2 = ',' then
        (pElems (fuel + 1) (depth + 1) (skipSpace r2)).map fun p =>
          (JVal.obj (o.fields.map fun f => (f.1, JVal.str f.2)) :: p.1, p.2)
      else if c2 = ']' then some ([JVal.obj (o.fields.map fun f => (f.1, JVal.str f.2))], r2)
      else none := by
  obtain ⟨h1, _, _, h4⟩ := objectDoc_wellFormed_iff o ho
  rw [objectDoc_spelling_eq o, skipSpace_blanks_cons _ _ _ h1 (by decide)]
  rw [pElems]
  rw [pValue_object fuel depth o ho hf]
  simp only [skipSpace_blanks_cons _ _ _ h4 h2]

theorem length_spellEntries_cons (o o2 : ObjectDoc) (os : List ObjectDoc) :
    (spellEntries (o :: o2 :: os)).length =
      o.spelling.length + 1 + (spellEntries (o2 :: os)).length := by
  simp [spellEntries]
  omega

/-- The elements of an array as they are written are parsed in order. -/
theorem pElems_spellEntries (depth : Nat) (tail : List Char) :
    ∀ (os : List ObjectDoc) (o : ObjectDoc) (fuel : Nat),
      (spellEntries (o :: os)).length < fuel →
      (o :: os).all ObjectDoc.wellFormed = true →
      pElems fuel (depth + 1) (skipSpace (spellEntries (o :: os) ++ ']' :: tail)) =
        some ((o :: os).map (fun x => JVal.obj (x.fields.map fun f => (f.1, JVal.str f.2))),
          tail) := by
  intro os
  induction os with
  | nil =>
    intro o fuel hf hall
    have hlen := objectDoc_length_spelling o
    simp only [spellEntries] at hf
    obtain ⟨f2, rfl⟩ : ∃ f2, fuel = f2 + 2 := ⟨fuel - 2, by omega⟩
    simp only [List.all_cons, List.all_nil, Bool.and_true] at hall
    simp only [spellEntries]
    rw [pElems_entry _ _ o hall (by omega) _ _ (by decide)]
    simp
  | cons o2 os2 ih =>
    intro o fuel hf hall
    have hlen := objectDoc_length_spelling o
    rw [length_spellEntries_cons] at hf
    obtain ⟨f2, rfl⟩ : ∃ f2, fuel = f2 + 2 := ⟨fuel - 2, by omega⟩
    simp only [List.all_cons, Bool.and_eq_true] at hall
    have hrec := ih o2 (f2 + 1) (by omega)
      (by simp only [List.all_cons, Bool.and_eq_true]; exact hall.2)
    simp only [spellEntries, List.append_assoc, List.cons_append]
    rw [pElems_entry _ _ o hall.1 (by omega) _ _ (by decide)]
    simp only [if_true]
    rw [hrec]
    simp

theorem skipSpace_spellEntries (o : ObjectDoc) (os : List ObjectDoc) (tail : List Char)
    (ho : o.wellFormed = true) :
    ∃ r, skipSpace (spellEntries (o :: os) ++ tail) = '\x7b' :: r := by
  obtain ⟨h1, _⟩ := objectDoc_wellFormed_iff o ho
  cases os with
  | nil =>
    simp only [spellEntries]
    rw [objectDoc_spelling_eq o, skipSpace_blanks_cons _ _ _ h1 (by decide)]
    exact ⟨_, rfl⟩
  | cons o2 os2 =>
    simp only [spellEntries, List.append_assoc]
    rw [objectDoc_spelling_eq o, skipSpace_blanks_cons _ _ _ h1 (by decide)]
    exact ⟨_, rfl⟩

/-- An array of objects of strings as it is written is parsed to its
elements. -/
theorem pValue_array (fuel depth : Nat) (inner : List Char) (os : List ObjectDoc)
    (hinner : allBlank inner = true) (hall : os.all ObjectDoc.wellFormed = true)
    (hf : (spellEntries os).length < fuel) (tail : List Char) :
    pValue (fuel + 1) (depth + 2) ('[' :: (inner ++ (spellEntries os ++ ']' :: tail))) =
      some (JVal.arr (os.map fun x => JVal.obj (x.fields.map fun f => (f.1, JVal.str f.2))),
        tail) := by
  rw [pValue]
  simp only [show ('[' : Char) ≠ '\x7b' by decide, if_false, if_true]
  rw [skipSpace_blanks _ _ hinner]
  cases hos : os with
  | nil => simp [spellEntries, skipSpace, isSpace]
  | cons o os2 =>
    rw [hos] at hall hf
    have ho : o.wellFormed = true := by
      simp only [List.all_cons, Bool.and_eq_true] at hall
      exact hall.1
    obtain ⟨r, hr⟩ := skipSpace_spellEntries o os2 (']' :: tail) ho
    have hel := pElems_spellEntries depth tail os2 o fuel hf hall
    rw [hr] at hel ⊢
    simp only [show ('\x7b' : Char) ≠ ']' by decide, if_false, hel, Option.map_some']

theorem pathMember_spelling_eq (m : PathMember) (tail : List Char) :
    m.spelling ++ tail =
      m.before ++ '\x22' :: (spellItems m.path ++ '\x22' :: (m.afterKey ++ ':' ::
        (m.afterColon ++ '[' :: (m.inner ++ (spellEntries m.entries ++ ']' ::
          (m.after ++ tail)))))) := by
  simp [PathMember.spelling, spellLiteral, List.append_assoc]

theorem pathMember_wellFormed_iff (m : PathMember) (h : m.wellFormed = true) :
    allBlank m.before = true ∧ m.path.all StrItem.wellFormed = true ∧
      allBlank m.afterKey = true ∧ allBlank m.afterColon = true ∧ allBlank m.inner = true ∧
      m.entries.all ObjectDoc.wellFormed = true ∧ allBlank m.after = true := by
  simp only [PathMember.wellFormed, Bool.and_eq_true] at h
  obtain ⟨⟨⟨⟨⟨⟨h1, h2⟩, h3⟩, h4⟩, h5⟩, h6⟩, h7⟩ := h
  exact ⟨h1, h2, h3, h4, h5, h6, h7⟩

theorem pathMember_length_spelling (m : PathMember) :
    (spellEntries m.entries).length + 5 ≤ m.spelling.length := by
  simp only [PathMember.spelling, spellLiteral, List.length_append, List.length_cons,
    List.length_nil]
  omega

/-- One member `path : [entries]` followed by a non-blank character: a single
step of `pMembers`. -/
theorem pMembers_pathMember (fuel depth : Nat) (m : PathMember) (hm : m.wellFormed = true)
    (hf : (spellEntries m.entries).length < fuel)
    (c4 : Char) (r4 : List Char) (h4 : isSpace c4 = false) :
    pMembers (fuel + 2) (depth + 2) (skipSpace (m.spelling ++ c4 :: r4)) =
      if c4 = ',' then
        (pMembers (fuel + 1) (depth + 2) (skipSpace r4)).map fun p =>
          ((literalText m.path, JVal.arr (m.entries.map fun x =>
            JVal.obj (x.fields.map fun f => (f.1, JVal.str f.2)))) :: p.1, p.2)
      else if c4 = '\x7d' then
        some ([(literalText m.path, JVal.arr (m.entries.map fun x =>
          JVal.obj (x.fields.map fun f => (f.1, JVal.str f.2))))], r4)
      else none := by
  obtain ⟨h1, h2, h3, h5, h6, h7, h8⟩ := pathMember_wellFormed_iff m hm
  rw [pathMember_spelling_eq m, skipSpace_blanks_cons _ _ _ h1 (by decide)]
  rw [pMembers]
  simp only [if_true]
  rw [strBody_spellItems m.path h2]
  simp only [skipSpace_blanks_cons _ _ _ h3 (show isSpace ':' = false by decide), if_true,
    skipSpace_blanks_cons _ _ _ h5 (show isSpace '[' = false by decide),
    pValue_array fuel depth m.inner m.entries h6 h7 hf, skipSpace_blanks_cons _ _ _ h8 h4]
  rfl

theorem length_spellPathMembers_cons (m m2 : PathMember) (ms : List PathMember) :
    (spellPathMembers (m :: m2 :: ms)).length =
      m.spelling.length + 1 + (spellPathMembers (m2 :: ms)).length := by
  simp [spellPathMembers]
  omega

/-- The members of a configuration as they are written are parsed in order. -/
theorem pMembers_spellPathMembers (depth : Nat) (tail : List Char) :
    ∀ (ms : List PathMember) (m : PathMember) (fuel : Nat),
      (spellPathMembers (m :: ms)).length < fuel →
      (m :: ms).all PathMember.wellFormed = true →
      pMembers fuel (depth + 2) (skipSpace (spellPathMembers (m :: ms) ++ '\x7d' :: tail)) =
        some ((m :: ms).map (fun x => (literalText x.path, JVal.arr (x.entries.map fun e =>
          JVal.obj (e.fields.map fun f => (f.1, JVal.str f.2))))), tail) := by
  intro ms
  induction ms with
  | nil =>
    intro m fuel hf hall
    have hlen := pathMember_length_spelling m
    simp only [spellPathMembers] at hf
    obtain ⟨f2, rfl⟩ : ∃ f2, fuel = f2 + 2 := ⟨fuel - 2, by omega⟩
    simp only [List.all_cons, List.all_nil, Bool.and_true] at hall
    simp only [spellPathMembers]
    rw [pMembers_pathMember _ _ m hall (by omega) _ _ (by decide)]
    simp
  | cons m2 ms2 ih =>
    intro m fuel hf hall
    have hlen := pathMember_length_spelling m
    rw [length_spellPathMembers_cons] at hf
    obtain ⟨f2, rfl⟩ : ∃ f2, fuel = f2 + 2 := ⟨fuel - 2, by omega⟩
    simp only [List.all_cons, Bool.and_eq_true] at hall
    have hrec := ih m2 (f2 + 1) (by omega)
      (by simp only [List.all_cons, Bool.and_eq_true]; exact hall.2)
    simp only [spellPathMembers, List.append_assoc, List.cons_append]
    rw [pMembers_pathMember _ _ m hall.1 (by omega) _ _ (by decide)]
    simp only [if_true]
    rw [hrec]
    simp

theorem skipSpace_spellPathMembers (m : PathMember) (ms : List PathMember) (tail : List Char)
    (hm : m.wellFormed = true) :
    ∃ r, skipSpace (spellPathMembers (m :: ms) ++ tail) = '\x22' :: r := by
  obtain ⟨h1, _⟩ := pathMember_wellFormed_iff m hm
  cases ms with
  | nil =>
    simp only [spellPathMembers]
    rw [pathMember_spelling_eq m, skipSpace_blanks_cons _ _ _ h1 (by decide)]
    exact ⟨_, rfl⟩
  | cons m2 ms2 =>
    simp only [spellPathMembers, List.append_assoc]
    rw [pathMember_spelling_eq m, skipSpace_blanks_cons _ _ _ h1 (by decide)]
    exact ⟨_, rfl⟩

theorem configDoc_length_spelling (d : ConfigDoc) :
    (spellPathMembers d.members).length + 2 ≤ d.spelling.length := by
  simp only [ConfigDoc.spelling, List.length_append, List.length_cons]
  omega

/-- A legal configuration text is parsed to the members that it denotes. -/
theorem parseChars_config (d : ConfigDoc) (hd : d.wellFormed = true) :
    parseChars d.spelling =
      some (JVal.obj (d.members.map fun x => (literalText x.path, JVal.arr (x.entries.map fun e =>
        JVal.obj (e.fields.map fun f => (f.1, JVal.str f.2)))))) := by
  simp only [ConfigDoc.wellFormed, Bool.and_eq_true] at hd
  obtain ⟨⟨⟨h1, h2⟩, h3⟩, h4⟩ := hd
  have hdepth : maxNestingDepth = (maxNestingDepth - 3) + 2 + 1 := by decide
  have hlen := configDoc_length_spelling d
  have hsk : skipSpace d.spelling =
      '\x7b' :: (d.inner ++ (spellPathMembers d.members ++ '\x7d' :: d.trail)) := by
    simp only [ConfigDoc.spelling]
    exact skipSpace_blanks_cons _ _ _ h1 (by decide)
  simp only [parseChars]
  rw [hdepth, hsk, pValue]
  simp only [if_true]
  rw [skipSpace_blanks _ _ h2]
  cases hms : d.members with
  | nil => simp [spellPathMembers, skipSpace, isSpace, skipSpace_allBlank _ h4]
  | cons m ms =>
    rw [hms] at h3 hlen
    have hm : m.wellFormed = true := by
      simp only [List.all_cons, Bool.and_eq_true] at h3
      exact h3.1
    obtain ⟨r, hr⟩ := skipSpace_spellPathMembers m ms ('\x7d' :: d.trail) hm
    have hmem := pMembers_spellPathMembers (maxNestingDepth - 3) d.trail ms m d.spelling.length
      (by omega) h3
    rw [hr] at hmem ⊢
    simp only [show ('\x22' : Char) ≠ '\x7d' by decide, if_false, hmem, Option.map_some',
      skipSpace_allBlank _ h4, if_true]

theorem decodeSecretConfig_of_described (o : ObjectDoc) (sc : SecretConfig)
    (h : describedEntry o = some sc) :
    decodeSecretConfig (JVal.obj (o.fields.map fun f => (f.1, JVal.str f.2))) = some sc := by
  have hne : ¬ foldName "envVar" = foldName "vaultKey" := by decide
  unfold describedEntry at h
  split at h
  · rename_i k1 v1 hf
    split at h
    · rename_i hk
      subst hk
      injection h with h
      subst h
      simp [hf, decodeSecretConfig, decodeSecretConfigFields, utf8_empty]
    · cases h
  · rename_i k1 v1 k2 v2 hf
    split at h
    · rename_i hk
      obtain ⟨hk1, hk2⟩ := hk
      subst hk1
      subst hk2
      injection h with h
      subst h
      simp [hf, decodeSecretConfig, decodeSecretConfigFields, hne]
    · split at h
      · rename_i hk
        obtain ⟨hk1, hk2⟩ := hk
        subst hk1
        subst hk2
        injection h with h
        subst h
        simp [hf, decodeSecretConfig, decodeSecretConfigFields, hne]
      · cases h
  · cases h

theorem decodeSecretConfigs_of_described :
    ∀ (os : List ObjectDoc) (scs : List SecretConfig), describedEntries os = some scs →
      decodeSecretConfigs (os.map fun x => JVal.obj (x.fields.map fun f => (f.1, JVal.str f.2))) =
        some scs := by
  intro os
  induction os with
  | nil => intro scs h; simpa [describedEntries, decodeSecretConfigs] using h
  | cons o rest ih =>
    intro scs h
    simp only [describedEntries] at h
    cases hv : describedEntry o with
    | none => rw [hv] at h; cases h
    | some sc =>
      cases hr : describedEntries rest with
      | none => rw [hv, hr] at h; cases h
      | some more =>
        rw [hv, hr] at h
        simp only [List.map_cons, decodeSecretConfigs, decodeSecretConfig_of_described o sc hv,
          ih more hr]
        exact h

/-- Assign the described paths to the map, in order. -/
theorem decodeSecretsConfigFields_of_described :
    ∀ (ms : List PathMember) (desc : List (GoString × List SecretConfig))
      (acc : SecretsConfig), describedPaths ms = some desc →
      decodeSecretsConfigFields (ms.map fun x => (literalText x.path, JVal.arr (x.entries.map
          fun e => JVal.obj (e.fields.map fun f => (f.1, JVal.str f.2))))) acc =
        some (desc.foldl (fun m pe => mapInsert pe.1 pe.2 m) acc) := by
  intro ms
  induction ms with
  | nil =>
    intro desc acc h
    simp only [describedPaths] at h
    injection h with h
    subst h
    rfl
  | cons m rest ih =>
    intro desc acc h
    simp only [describedPaths] at h
    cases hi : describedEntries m.entries with
    | none => rw [hi] at h; cases h
    | some scs =>
      cases hr : describedPaths rest with
      | none => rw [hi, hr] at h; cases h
      | some more =>
        rw [hi, hr] at h
        injection h with h
        subst h
        simp only [List.map_cons, decodeSecretsConfigFields, decodeSecretConfigSlice,
          decodeSecretConfigs_of_described m.entries scs hi, List.foldl_cons]
        exact ih more _ hr

theorem mapLookup_foldl_insert {β : Type} :
    ∀ (desc : List (GoString × β)) (acc : GoMapOf β), (desc.map Prod.fst).Nodup →
      (∀ pe ∈ desc, mapLookup pe.1 (desc.foldl (fun m pe => mapInsert pe.1 pe.2 m) acc) =
        some pe.2) ∧
      (∀ p, p ∉ desc.map Prod.fst →
        mapLookup p (desc.foldl (fun m pe => mapInsert pe.1 pe.2 m) acc) = mapLookup p acc) := by
  intro desc
  induction desc with
  | nil => intro acc _; exact ⟨fun pe h => (by cases h), fun p _ => rfl⟩
  | cons d rest ih =>
    intro acc hnd
    simp only [List.map_cons, List.nodup_cons] at hnd
    obtain ⟨h1, h2⟩ := ih (mapInsert d.1 d.2 acc) hnd.2
    constructor
    · intro pe hpe
      rcases List.mem_cons.1 hpe with heq | hin
      · subst heq
        simp only [List.foldl_cons]
        rw [h2 pe.1 hnd.1, mapLookup_insert_self]
      · exact h1 pe hin
    · intro p hp
      simp only [List.map_cons, List.mem_cons, not_or] at hp
      simp only [List.foldl_cons]
      rw [h2 p hp.2, mapLookup_insert_ne _ _ hp.1]


theorem configDoc_bytes_ne_nil (d : ConfigDoc) : d.bytes ≠ [] := by
  intro h
  have hlen := congrArg List.length h
  have : ∀ cs : List Char, cs.length ≤ (utf8Chars cs).length := by
    intro cs
    induction cs with
    | nil => simp [utf8Chars]
    | cons c cs ih =>
      obtain ⟨b, l, hbl⟩ := encodeRune_cons c
      simp only [utf8Chars, hbl, List.length_append, List.length_cons]
      omega
  have h2 := this d.spelling
  have h3 := configDoc_length_spelling d
  simp only [ConfigDoc.bytes, List.length_nil] at hlen
  omega

/-- A legal configuration text of the described shape is decoded into the map
that assigns the described mappings to the described paths, in textual
order. -/
theorem parseSecretsConfig_of_described (d : ConfigDoc)
    (desc : List (GoString × List SecretConfig)) (hd : d.wellFormed = true)
    (h : d.described = some desc) :
    parseSecretsConfig d.bytes = .ok (desc.foldl (fun m pe => mapInsert pe.1 pe.2 m) []) := by
  unfold parseSecretsConfig
  rw [ConfigDoc.bytes, parseJSON_utf8Chars, parseChars_config d hd]
  simp only [decodeSecretsConfigFields_of_described d.members desc [] h]

/-! ## Interleavings of `ensureToken` -/

/-- A goroutine that runs its two sections without interruption executes
`ensureToken`. -/
theorem Caller_step_twice (w : World) (s : State) :
    Caller.step w (Caller.step w Caller.start s).1 (Caller.step w Caller.start s).2 =
      (Caller.returned (ensureToken w s).1, (ensureToken w s).2) := by
  unfold Caller.step ensureToken
  cases s.vault.baoClient with
  | none => rfl
  | some c =>
    by_cases ht : c.token = ""
    · simp [ht]
    · simp [ht]

theorem refreshAuthToken_fail_vault (w : World) (s : State)
    (h : (refreshAuthToken w s).1 ≠ none) : (refreshAuthToken w s).2.vault = s.vault := by
  revert h
  unfold refreshAuthToken
  cases hc : s.vault.baoClient with
  | none => simp
  | some c =>
    simp only
    by_cases ht : c.token = ""
    · simp only [ht, ne_eq, not_true_eq_false, if_false]
      by_cases ha : s.vault.config.AuthToken = ""
      · simp only [ha, ne_eq, not_true_eq_false, if_false]
        cases w.ReadFile s.log s.vault.config.AuthKubernetesTokenPath with
        | error e => simp [State.logged]
        | ok k8sToken =>
          simp only
          cases w.Write _ _ k8sToken s.vault.config.AuthKubernetesRole with
          | error e => simp [State.logged]
          | ok r =>
            cases r with
            | none => simp [State.logged]
            | some secret =>
              simp only
              cases secret.Auth with
              | none => simp [State.logged]
              | some auth =>
                simp only
                by_cases hk : auth.ClientToken = ""
                · simp [hk, State.logged]
                · simp [hk]
      · simp [ha]
    · simp [ht]

theorem refreshAuthToken_success (w : World) (s0 s : State) (c : BaoClient)
    (jwt : GoString) (secret : Secret) (auth : SecretAuth)
    (hc : s0.vault.baoClient = some c) (ht : c.token = "")
    (hauth : s0.vault.config.AuthToken = "")
    (hfile : w.ReadFile s0.log s0.vault.config.AuthKubernetesTokenPath = .ok jwt)
    (hwrite : w.Write (s0.log ++ [Event.readFile s0.vault.config.AuthKubernetesTokenPath])
      ("auth/" ++ s0.vault.config.AuthKubernetesBackend ++ "/login") jwt
      s0.vault.config.AuthKubernetesRole = .ok (some secret))
    (hsecret : secret.Auth = some auth) (htoken : auth.ClientToken ≠ "")
    (hv : s.vault = s0.vault) (hl : s.log = s0.log) :
    (refreshAuthToken w s).1 = none ∧
    (refreshAuthToken w s).2.vault = (s0.setToken auth.ClientToken).vault ∧
    (refreshAuthToken w s).2.log =
      s0.log ++ [Event.readFile s0.vault.config.AuthKubernetesTokenPath,
        Event.loginWrite ("auth/" ++ s0.vault.config.AuthKubernetesBackend ++ "/login") jwt
          s0.vault.config.AuthKubernetesRole] ∧
    (refreshAuthToken w s).2.environ = s.environ := by
  have hwrite2 := hwrite
  simp only [List.append_assoc] at hwrite2
  unfold refreshAuthToken
  simp only [hv, hl, hc, ht, hauth, hfile, State.logged, hwrite2, hsecret, htoken, ne_eq,
    not_true_eq_false, if_false, State.setToken, List.append_assoc, List.singleton_append,
    and_self]

theorem runSchedule_login (w : World) (s0 : State) (c : BaoClient)
    (jwt : GoString) (secret : Secret) (auth : SecretAuth)
    (hc : s0.vault.baoClient = some c) (ht : c.token = "")
    (hauth : s0.vault.config.AuthToken = "")
    (hfile : w.ReadFile s0.log s0.vault.config.AuthKubernetesTokenPath = .ok jwt)
    (hwrite : w.Write (s0.log ++ [Event.readFile s0.vault.config.AuthKubernetesTokenPath])
      ("auth/" ++ s0.vault.config.AuthKubernetesBackend ++ "/login") jwt
      s0.vault.config.AuthKubernetesRole = .ok (some secret))
    (hsecret : secret.Auth = some auth) (htoken : auth.ClientToken ≠ "") :
    ∀ (schedule : List Nat) (callers : List Caller) (s : State),
      (BeforeLogin s0 s callers ∨ AfterLogin s0 s auth.ClientToken jwt callers) →
      (BeforeLogin s0 (runSchedule w schedule callers s).2 (runSchedule w schedule callers s).1 ∨
        AfterLogin s0 (runSchedule w schedule callers s).2 auth.ClientToken jwt
          (runSchedule w schedule callers s).1) := by
  intro schedule
  induction schedule with
  | nil => intro callers s h; exact h
  | cons i rest ih =>
    intro callers s h
    simp only [runSchedule]
    cases hi : callers[i]? with
    | none => exact ih callers s h
    | some caller =>
      simp only
      apply ih
      have hmem : caller ∈ callers := List.getElem?_mem hi
      rcases h with ⟨hv, hl, he, hcs⟩ | ⟨hv, hl, he, hcs⟩
      · -- nobody has logged in yet
        rcases hcs caller hmem with hst | hwt
        · subst hst
          left
          have hstep : Caller.step w Caller.start s = (Caller.waiting, s) := by
            simp [Caller.step, hv, hc, ht]
          rw [hstep]
          refine ⟨hv, hl, he, ?_⟩
          intro c2 hc2
          rcases List.mem_or_eq_of_mem_set hc2 with h1 | h1
          · exact hcs c2 h1
          · exact Or.inr h1
        · subst hwt
          right
          obtain ⟨r1, r2, r3, r4⟩ := refreshAuthToken_success w s0 s c jwt secret auth hc ht hauth
            hfile hwrite hsecret htoken hv hl
          simp only [Caller.step]
          refine ⟨r2, r3, by rw [r4, he], ?_⟩
          intro c2 hc2
          rcases List.mem_or_eq_of_mem_set hc2 with h1 | h1
          · rcases hcs c2 h1 with h2 | h2
            · exact Or.inl h2
            · exact Or.inr (Or.inl h2)
          · rw [h1, r1]
            exact Or.inr (Or.inr rfl)
      · -- the token is installed
        right
        have hcl : s.vault.baoClient = some { token := auth.ClientToken } := by
          rw [hv]; rfl
        have hstay : ∀ c2 ∈ callers.set i (Caller.returned none),
            c2 = Caller.start ∨ c2 = Caller.waiting ∨ c2 = Caller.returned none := by
          intro c2 hc2
          rcases List.mem_or_eq_of_mem_set hc2 with h1 | h1
          · exact hcs c2 h1
          · exact Or.inr (Or.inr h1)
        rcases hcs caller hmem with hst | hwt | hrt
        · subst hst
          have hstep : Caller.step w Caller.start s = (Caller.returned none, s) := by
            simp [Caller.step, hcl, htoken]
          rw [hstep]
          exact ⟨hv, hl, he, hstay⟩
        · subst hwt
          have hstep : refreshAuthToken w s = (none, s) := by
            simp [refreshAuthToken, hcl, htoken]
          simp only [Caller.step, hstep]
          exact ⟨hv, hl, he, hstay⟩
        · subst hrt
          simp only [Caller.step]
          exact ⟨hv, hl, he, hstay⟩

theorem runSchedule_failing (w : World) (s0 : State) (c : BaoClient) (e : GoError)
    (hc : s0.vault.baoClient = some c) (ht : c.token = "")
    (hfail : ∀ s, s.vault = s0.vault → (refreshAuthToken w s).1 = some e) :
    ∀ (schedule : List Nat) (callers : List Caller) (s : State),
      LoginFailing s0 s e callers →
      LoginFailing s0 (runSchedule w schedule callers s).2 e
        (runSchedule w schedule callers s).1 := by
  intro schedule
  induction schedule with
  | nil => intro callers s h; exact h
  | cons i rest ih =>
    intro callers s h
    simp only [runSchedule]
    cases hi : callers[i]? with
    | none => exact ih callers s h
    | some caller =>
      simp only
      apply ih
      have hmem : caller ∈ callers := List.getElem?_mem hi
      obtain ⟨hv, hcs⟩ := h
      rcases hcs caller hmem with hst | hwt | hrt
      · subst hst
        have hstep : Caller.step w Caller.start s = (Caller.waiting, s) := by
          simp [Caller.step, hv, hc, ht]
        rw [hstep]
        refine ⟨hv, ?_⟩
        intro c2 hc2
        rcases List.mem_or_eq_of_mem_set hc2 with h1 | h1
        · exact hcs c2 h1
        · exact Or.inr (Or.inl h1)
      · subst hwt
        have hr := hfail s hv
        have hvault := refreshAuthToken_fail_vault w s (by rw [hr]; simp)
        simp only [Caller.step]
        refine ⟨by rw [hvault, hv], ?_⟩
        intro c2 hc2
        rcases List.mem_or_eq_of_mem_set hc2 with h1 | h1
        · exact hcs c2 h1
        · rw [h1, hr]
          exact Or.inr (Or.inr rfl)
      · subst hrt
        simp only [Caller.step]
        refine ⟨hv, ?_⟩
        intro c2 hc2
        rcases List.mem_or_eq_of_mem_set hc2 with h1 | h1
        · exact hcs c2 h1
        · exact Or.inr (Or.inr h1)

theorem runSchedule_length (w : World) :
    ∀ (schedule : List Nat) (callers : List Caller) (s : State),
      (runSchedule w schedule callers s).1.length = callers.length := by
  intro schedule
  induction schedule with
  | nil => intro callers s; rfl
  | cons i rest ih =>
    intro callers s
    simp only [runSchedule]
    cases hi : callers[i]? with
    | none => exact ih callers s
    | some caller =>
      simp only
      rw [ih, List.length_set]

/-! ## Swapping steps of `ObtainSecrets` -/

namespace Pkg

theorem Commutes_symm {f g : GoMap → Option GoMap} (h : Commutes f g) : Commutes g f :=
  fun values => (h values).symm

theorem runSteps_append (fs gs : List (GoMap → Option GoMap)) (values : GoMap) :
    runSteps (fs ++ gs) values = (runSteps fs values).bind (runSteps gs) := by
  induction fs generalizing values with
  | nil => rfl
  | cons f fs ih =>
    simp only [List.cons_append, runSteps]
    cases f values with
    | none => rfl
    | some v => exact ih v

/-- A step that commutes with every step of a run commutes with the run. -/
theorem Commutes_runSteps (g : GoMap → Option GoMap) :
    ∀ fs : List (GoMap → Option GoMap), (∀ f ∈ fs, Commutes f g) → Commutes (runSteps fs) g := by
  intro fs
  induction fs with
  | nil =>
    intro _ values
    simp only [runSteps, Option.some_bind]
    cases g values <;> rfl
  | cons f fs ih =>
    intro h values
    have hf := h f (List.mem_cons_self _ _)
    have hfs := ih (fun f2 hf2 => h f2 (List.mem_cons_of_mem _ hf2))
    calc ((runSteps (f :: fs) values).bind g)
        = (f values).bind (fun v => (runSteps fs v).bind g) := by
          simp only [runSteps]
          cases f values <;> rfl
      _ = (f values).bind (fun v => (g v).bind (runSteps fs)) := by
          cases f values with
          | none => rfl
          | some v => exact hfs v
      _ = ((f values).bind g).bind (runSteps fs) := by
          cases f values <;> rfl
      _ = ((g values).bind f).bind (runSteps fs) := by rw [hf values]
      _ = (g values).bind (runSteps (f :: fs)) := by
          cases g values with
          | none => rfl
          | some v => rfl

/-- Two runs whose steps commute pairwise commute. -/
theorem Commutes_runSteps_both (fs gs : List (GoMap → Option GoMap))
    (h : ∀ f ∈ fs, ∀ g ∈ gs, Commutes f g) : Commutes (runSteps fs) (runSteps gs) := by
  apply Commutes_runSteps
  intro f hf
  apply Commutes_symm
  apply Commutes_runSteps
  intro g hg
  exact Commutes_symm (h f hf g hg)

/-- Reordering pairwise commuting steps does not change the run. -/
theorem runSteps_perm {l1 l2 : List (GoMap → Option GoMap)} (hp : l1.Perm l2) :
    l1.Pairwise Commutes → ∀ values, runSteps l1 values = runSteps l2 values := by
  induction hp with
  | nil => intro _ _; rfl
  | cons x _ ih =>
    intro hpw values
    simp only [runSteps]
    cases x values with
    | none => rfl
    | some v => exact ih (List.pairwise_cons.1 hpw).2 v
  | swap x y l =>
    intro hpw values
    have hyx : Commutes y x :=
      (List.pairwise_cons.1 hpw).1 x (List.mem_cons_self _ _)
    have e1 : runSteps (y :: x :: l) values = ((y values).bind x).bind (runSteps l) := by
      simp only [runSteps]
      cases y values <;> rfl
    have e2 : runSteps (x :: y :: l) values = ((x values).bind y).bind (runSteps l) := by
      simp only [runSteps]
      cases x values <;> rfl
    rw [e1, e2, hyx values]
  | trans h1 _ ih1 ih2 =>
    intro hpw values
    rw [ih1 hpw values]
    exact ih2 (h1.pairwise hpw (fun h => Commutes_symm h)) values

theorem resultMap_obtainEntries (path : GoString) (secrets : GoMap) :
    ∀ (es : List SecretConfig) (values : GoMap),
      resultMap (obtainEntries path secrets es values) =
        runSteps (es.map (entryStep path secrets)) values := by
  intro es
  induction es with
  | nil => intro values; rfl
  | cons sc es ih =>
    intro values
    simp only [obtainEntries, List.map_cons, runSteps, entryStep]
    cases obtainEntry path secrets sc values with
    | error e => rfl
    | ok v => exact ih v

theorem resultMap_obtainPaths (client : Client) :
    ∀ (config : SecretsConfig) (values : GoMap),
      resultMap (obtainPaths client config values) =
        runSteps (config.map (pathStep client)) values := by
  intro config
  induction config with
  | nil => intro values; rfl
  | cons pe rest ih =>
    intro values
    obtain ⟨path, es⟩ := pe
    simp only [obtainPaths, List.map_cons, runSteps, pathStep]
    cases client path with
    | error e => rfl
    | ok secrets =>
      simp only
      cases obtainEntries path secrets es values with
      | error e => rfl
      | ok v => exact ih v

end Pkg

/-! ## Independent mappings commute -/

theorem mapInsert_idem {β : Type} (k : GoString) (a b : β) (m : GoMapOf β) :
    mapInsert k b (mapInsert k a m) = mapInsert k b m := by
  induction m with
  | nil => simp [mapInsert, keyLt_irrefl]
  | cons e rest ih =>
    obtain ⟨k2, v2⟩ := e
    simp only [mapInsert]
    by_cases h1 : keyLt k k2 = true
    · simp [h1, mapInsert, keyLt_irrefl]
    · have h1' : keyLt k k2 = false := by simpa using h1
      by_cases h2 : k = k2
      · subst h2
        simp [h1', mapInsert, keyLt_irrefl]
      · simp [h1', h2, mapInsert, ih]

namespace Pkg

theorem mapGet_insert_self (k x : GoString) (m : GoMap) : mapGet k (mapInsert k x m) = x := by
  simp [mapGet, mapLookup_insert_self]

theorem mapGet_insert_ne {k k2 : GoString} (x : GoString) (m : GoMap) (h : k ≠ k2) :
    mapGet k (mapInsert k2 x m) = mapGet k m := by
  simp [mapGet, mapLookup_insert_ne x m h]

/-- Two merges of distinct children into one group, keys and values being
valid UTF-8: either both fail on the group, or both orders succeed with the
same result. -/
theorem appendSecretToMap_pair (g c1 x c2 y : GoString) (h : c1 ≠ c2)
    (hc1 : validString c1 = true) (hx : validString x = true)
    (hc2 : validString c2 = true) (hy : validString y = true) :
    ((∃ e, appendSecretToMap g c1 x = .error e) ∧ (∃ e, appendSecretToMap g c2 y = .error e)) ∨
    ∃ g1 g2 g12, appendSecretToMap g c1 x = .ok g1 ∧ appendSecretToMap g c2 y = .ok g2 ∧
      appendSecretToMap g1 c2 y = .ok g12 ∧ appendSecretToMap g2 c1 x = .ok g12 := by
  by_cases hg : g = []
  · subst hg
    right
    refine ⟨_, _, jsonMarshalStringMap (mapInsert c2 y [(c1, x)]),
      appendSecretToMap_empty c1 x, appendSecretToMap_empty c2 y,
      appendSecretToMap_marshal [(c1, x)] (mapInsert_clean c1 x [] hc1 hx CleanMap_nil) c2 y, ?_⟩
    rw [appendSecretToMap_marshal [(c2, y)] (mapInsert_clean c2 y [] hc2 hy CleanMap_nil) c1 x]
    exact congrArg (fun m => Except.ok (jsonMarshalStringMap m)) (mapInsert_comm x y [] h)
  · cases hd : jsonUnmarshalStringMap g with
    | error e =>
      left
      exact ⟨⟨GoError.err e, by simp [appendSecretToMap, utf8_empty, hg, hd]⟩,
        ⟨GoError.err e, by simp [appendSecretToMap, utf8_empty, hg, hd]⟩⟩
    | ok r =>
      cases r with
      | none =>
        left
        exact ⟨⟨GoError.panic "assignment to entry in nil map",
            by simp [appendSecretToMap, utf8_empty, hg, hd]⟩,
          ⟨GoError.panic "assignment to entry in nil map",
            by simp [appendSecretToMap, utf8_empty, hg, hd]⟩⟩
      | some m =>
        have hs := jsonUnmarshal_clean hd
        right
        refine ⟨_, _, jsonMarshalStringMap (mapInsert c2 y (mapInsert c1 x m)),
          appendSecretToMap_of_decode hg hd c1 x, appendSecretToMap_of_decode hg hd c2 y,
          appendSecretToMap_marshal _ (mapInsert_clean c1 x m hc1 hx hs) c2 y, ?_⟩
        rw [appendSecretToMap_marshal _ (mapInsert_clean c2 y m hc2 hy hs) c1 x]
        exact congrArg (fun m => Except.ok (jsonMarshalStringMap m)) (mapInsert_comm x y m h)

theorem Commutes_fail_left (g : GoMap → Option GoMap) : Commutes (fun _ => none) g := by
  intro values
  cases g values <;> rfl

theorem Commutes_set_set {k1 k2 : GoString} (x y : GoString) (h : k1 ≠ k2) :
    Commutes (setStep k1 x) (setStep k2 y) := by
  intro values
  simp only [setStep, Option.some_bind]
  rw [mapInsert_comm x y values h]

theorem Commutes_set_merge {k1 k2 : GoString} (x c y : GoString) (h : k1 ≠ k2) :
    Commutes (setStep k1 x) (mergeStep k2 c y) := by
  intro values
  simp only [setStep, mergeStep, Option.some_bind, mapGet_insert_ne x values (Ne.symm h)]
  cases appendSecretToMap (mapGet k2 values) c y with
  | error e => rfl
  | ok g =>
    simp only [Option.some_bind]
    rw [mapInsert_comm x g values h]

theorem Commutes_merge_merge_ne {k1 k2 : GoString} (c1 x c2 y : GoString) (h : k1 ≠ k2) :
    Commutes (mergeStep k1 c1 x) (mergeStep k2 c2 y) := by
  intro values
  simp only [mergeStep]
  cases h1 : appendSecretToMap (mapGet k1 values) c1 x with
  | error e1 =>
    cases h2 : appendSecretToMap (mapGet k2 values) c2 y with
    | error e2 => rfl
    | ok g2 =>
      simp only [Option.none_bind, Option.some_bind, mapGet_insert_ne g2 values h, h1]
  | ok g1 =>
    cases h2 : appendSecretToMap (mapGet k2 values) c2 y with
    | error e2 =>
      simp only [Option.none_bind, Option.some_bind, mapGet_insert_ne g1 values (Ne.symm h), h2]
    | ok g2 =>
      simp only [Option.some_bind, mapGet_insert_ne g1 values (Ne.symm h),
        mapGet_insert_ne g2 values h, h1, h2]
      rw [mapInsert_comm g1 g2 values h]

theorem Commutes_merge_merge_same (k : GoString) {c1 c2 : GoString} (x y : GoString)
    (h : c1 ≠ c2) (hc1 : validString c1 = true) (hx : validString x = true)
    (hc2 : validString c2 = true) (hy : validString y = true) :
    Commutes (mergeStep k c1 x) (mergeStep k c2 y) := by
  intro values
  simp only [mergeStep]
  rcases appendSecretToMap_pair (mapGet k values) c1 x c2 y h hc1 hx hc2 hy with
    ⟨⟨e1, h1⟩, ⟨e2, h2⟩⟩ | ⟨g1, g2, g12, h1, h2, h3, h4⟩
  · simp only [h1, h2, Option.none_bind]
  · simp only [h1, h2, Option.some_bind, mapGet_insert_self, h3, h4, mapInsert_idem]

/-- The three shapes of the step of a mapping: it fails, it assigns its top
key, or it merges its child into the group under its top key. -/
theorem entryStep_shape (path : GoString) (secrets : GoMap) (sc : SecretConfig) :
    entryStep path secrets sc = (fun _ => none) ∨
    (childKey sc = none ∧ ∃ x, entryStep path secrets sc = setStep (topKey sc) x) ∨
    (∃ c x, childKey sc = some c ∧ mapLookup sc.VaultKey secrets = some x ∧
      entryStep path secrets sc = mergeStep (topKey sc) c x) := by
  cases hl : mapLookup sc.VaultKey secrets with
  | none =>
    left
    funext values
    simp [entryStep, obtainEntry, hl, resultMap]
  | some secret =>
    right
    have hsegdef : splitDot (effectiveConfigKey sc) = segments sc := rfl
    cases hs : segments sc with
    | nil =>
      left
      refine ⟨by simp [childKey, hs], secret, ?_⟩
      funext values
      simp [entryStep, obtainEntry, hl, hsegdef, hs, resultMap, setStep, topKey]
    | cons k0 t =>
      cases t with
      | nil =>
        left
        refine ⟨by simp [childKey, hs], secret, ?_⟩
        funext values
        simp [entryStep, obtainEntry, hl, hsegdef, hs, resultMap, setStep, topKey]
      | cons k1 t2 =>
        right
        refine ⟨k1, secret, by simp [childKey, hs], rfl, ?_⟩
        funext values
        simp only [entryStep, obtainEntry, hl, hsegdef, hs, mergeStep, topKey]
        cases ha : appendSecretToMap (mapGet k0 values) k1 secret with
        | ok g => rfl
        | error e =>
          cases e with
          | err msg => rfl
          | panic msg => rfl

/-- Independent mappings commute, whatever their paths and fetched data, when
the child keys of dotted mappings and the values fetched for them are valid
UTF-8. -/
theorem Commutes_entryStep (path1 path2 : GoString) (secrets1 secrets2 : GoMap)
    (sc1 sc2 : SecretConfig) (h : independent sc1 sc2 = true)
    (hv1 : ∀ c x, childKey sc1 = some c → mapLookup sc1.VaultKey secrets1 = some x →
      validString c = true ∧ validString x = true)
    (hv2 : ∀ c x, childKey sc2 = some c → mapLookup sc2.VaultKey secrets2 = some x →
      validString c = true ∧ validString x = true) :
    Commutes (entryStep path1 secrets1 sc1) (entryStep path2 secrets2 sc2) := by
  rcases entryStep_shape path1 secrets1 sc1 with e1 | ⟨hc1, x, e1⟩ | ⟨c1, x, hc1, hx1, e1⟩ <;>
    rcases entryStep_shape path2 secrets2 sc2 with
      e2 | ⟨hc2, y, e2⟩ | ⟨c2, y, hc2, hy2, e2⟩ <;>
    rw [e1, e2]
  · exact Commutes_fail_left _
  · exact Commutes_fail_left _
  · exact Commutes_fail_left _
  · exact Commutes_symm (Commutes_fail_left _)
  · have hk : topKey sc1 ≠ topKey sc2 := by simpa [independent, hc1, hc2] using h
    exact Commutes_set_set x y hk
  · have hk : topKey sc1 ≠ topKey sc2 := by simpa [independent, hc1, hc2] using h
    exact Commutes_set_merge x c2 y hk
  · exact Commutes_symm (Commutes_fail_left _)
  · have hk : topKey sc1 ≠ topKey sc2 := by simpa [independent, hc1, hc2] using h
    exact Commutes_symm (Commutes_set_merge y c1 x (Ne.symm hk))
  · by_cases hk : topKey sc1 = topKey sc2
    · have hc : c1 ≠ c2 := by simpa [independent, hc1, hc2, hk] using h
      rw [hk]
      exact Commutes_merge_merge_same _ x y hc (hv1 c1 x hc1 hx1).1 (hv1 c1 x hc1 hx1).2
        (hv2 c2 y hc2 hy2).1 (hv2 c2 y hc2 hy2).2
    · exact Commutes_merge_merge_ne c1 x c2 y hk

end Pkg
/-! ## Claims about `pkg/vault` -/

namespace Pkg

/-- C5, counterexample. (1) The child keys `\xff` and `\xfe` (one byte each,
no valid UTF-8) are distinct and the group is empty; merging them succeeds in
both orders, but the two results differ: `json.Marshal` writes an invalid byte
as `\ufffd`, so the key merged first comes back from `json.Unmarshal` as
U+FFFD and sorts before the other one. (2) With the valid keys `x` and `y` and
the value `\xff` for `x` both orders succeed with different strings as well:
the value merged first is re-encoded as the character U+FFFD, the value merged
last is written as the escape. -/
theorem C5_sibling_merge_counterexample :
    (([0xff] : GoString) ≠ [0xfe] ∧
      appendSecretToMap "" [0xff] "v1" = .ok "\x7b\"\\ufffd\":\"v1\"\x7d" ∧
      appendSecretToMap "\x7b\"\\ufffd\":\"v1\"\x7d" [0xfe] "v2" =
        .ok "\x7b\"\uFFFD\":\"v1\",\"\\ufffd\":\"v2\"\x7d" ∧
      appendSecretToMap "" [0xfe] "v2" = .ok "\x7b\"\\ufffd\":\"v2\"\x7d" ∧
      appendSecretToMap "\x7b\"\\ufffd\":\"v2\"\x7d" [0xff] "v1" =
        .ok "\x7b\"\uFFFD\":\"v2\",\"\\ufffd\":\"v1\"\x7d" ∧
      ("\x7b\"\uFFFD\":\"v1\",\"\\ufffd\":\"v2\"\x7d" : GoString) ≠
        "\x7b\"\uFFFD\":\"v2\",\"\\ufffd\":\"v1\"\x7d") ∧
    ((("x" : GoString) ≠ "y" ∧
      appendSecretToMap "" "x" [0xff] = .ok "\x7b\"x\":\"\\ufffd\"\x7d" ∧
      appendSecretToMap "\x7b\"x\":\"\\ufffd\"\x7d" "y" "2" =
        .ok "\x7b\"x\":\"\uFFFD\",\"y\":\"2\"\x7d" ∧
      appendSecretToMap "" "y" "2" = .ok "\x7b\"y\":\"2\"\x7d" ∧
      appendSecretToMap "\x7b\"y\":\"2\"\x7d" "x" [0xff] =
        .ok "\x7b\"x\":\"\\ufffd\",\"y\":\"2\"\x7d" ∧
      ("\x7b\"x\":\"\uFFFD\",\"y\":\"2\"\x7d" : GoString) ≠
        "\x7b\"x\":\"\\ufffd\",\"y\":\"2\"\x7d")) := by
  decide

/-- C5, amended: merging two sibling keys into a group is order-independent
when keys and values are valid UTF-8. For every group value `g` that is empty
or a JSON object of strings (a legal text `doc`, with any whitespace, whose
escapes denote characters), all distinct child keys and all values that are
valid UTF-8, `appendSecretToMap` succeeds in both orders and returns the same
string; for any other string `g0` the two orders still end the same way, with
the same string or the same failure; and `ObtainSecrets` over the mappings
`a.x = 1` and `a.y = 2` yields the group `{"x":"1","y":"2"}` under `a` in
either order. -/
theorem C5_sibling_merge_amended (g k1 k2 v1 v2 : GoString)
    (hg : g = [] ∨ ∃ doc : ObjectDoc, doc.wellFormed = true ∧ g = doc.bytes)
    (hk : k1 ≠ k2)
    (hk1 : validString k1 = true) (hk2 : validString k2 = true)
    (hv1 : validString v1 = true) (hv2 : validString v2 = true) :
    (∃ g1 g2 s, appendSecretToMap g k1 v1 = .ok g1 ∧ appendSecretToMap g1 k2 v2 = .ok s ∧
        appendSecretToMap g k2 v2 = .ok g2 ∧ appendSecretToMap g2 k1 v1 = .ok s) ∧
    (∀ g0 : GoString,
      ((appendSecretToMap g0 k1 v1).bind fun g1 => appendSecretToMap g1 k2 v2) =
        (appendSecretToMap g0 k2 v2).bind fun g2 => appendSecretToMap g2 k1 v1) ∧
    (∀ (path kx ky : GoString) (secrets : GoMap),
        mapLookup kx secrets = some ("1" : GoString) →
        mapLookup ky secrets = some ("2" : GoString) →
        ObtainSecrets [(path, [⟨kx, some "a.x"⟩, ⟨ky, some "a.y"⟩])] (fun _ => .ok secrets) =
            .ok [("a", "\x7b\"x\":\"1\",\"y\":\"2\"\x7d")] ∧
        ObtainSecrets [(path, [⟨ky, some "a.y"⟩, ⟨kx, some "a.x"⟩])] (fun _ => .ok secrets) =
            .ok [("a", "\x7b\"x\":\"1\",\"y\":\"2\"\x7d")]) := by
  refine ⟨?_, fun g0 => appendSecretToMap_agree g0 k1 k2 v1 v2 hk hk1 hk2 hv1 hv2, ?_⟩
  · have hdec : g = [] ∨ (g ≠ [] ∧ ∃ m, jsonUnmarshalStringMap g = .ok (some m)) := by
      rcases hg with hg | ⟨doc, hdoc, rfl⟩
      · exact Or.inl hg
      · exact Or.inr ⟨objectDoc_bytes_ne_nil doc, objectDoc_decode doc hdoc⟩
    rcases hdec with rfl | ⟨hne, m, hd⟩
    · refine ⟨_, _, jsonMarshalStringMap (mapInsert k2 v2 [(k1, v1)]),
        appendSecretToMap_empty k1 v1, ?_, appendSecretToMap_empty k2 v2, ?_⟩
      · exact appendSecretToMap_marshal [(k1, v1)]
          (mapInsert_clean k1 v1 [] hk1 hv1 CleanMap_nil) k2 v2
      · rw [appendSecretToMap_marshal [(k2, v2)]
          (mapInsert_clean k2 v2 [] hk2 hv2 CleanMap_nil) k1 v1]
        exact congrArg (fun m => Except.ok (jsonMarshalStringMap m))
          (mapInsert_comm v1 v2 [] hk)
    · have hs := jsonUnmarshal_clean hd
      refine ⟨_, _, jsonMarshalStringMap (mapInsert k2 v2 (mapInsert k1 v1 m)),
        appendSecretToMap_of_decode hne hd k1 v1, ?_,
        appendSecretToMap_of_decode hne hd k2 v2, ?_⟩
      · exact appendSecretToMap_marshal _ (mapInsert_clean k1 v1 m hk1 hv1 hs) k2 v2
      · rw [appendSecretToMap_marshal _ (mapInsert_clean k2 v2 m hk2 hv2 hs) k1 v1]
        exact congrArg (fun m => Except.ok (jsonMarshalStringMap m))
          (mapInsert_comm v1 v2 m hk)
  · intro path kx ky secrets hx hy
    have e1 : splitDot "a.x" = (["a", "x"] : List GoString) := by decide
    have e2 : splitDot "a.y" = (["a", "y"] : List GoString) := by decide
    have ne1 : ("a.x" : GoString) ≠ "" := by decide
    have ne2 : ("a.y" : GoString) ≠ "" := by decide
    have a1 : appendSecretToMap "" "x" "1" = .ok "\x7b\"x\":\"1\"\x7d" := by decide
    have a2 : appendSecretToMap "\x7b\"x\":\"1\"\x7d" "y" "2" =
        .ok "\x7b\"x\":\"1\",\"y\":\"2\"\x7d" := by decide
    have a3 : appendSecretToMap "" "y" "2" = .ok "\x7b\"y\":\"2\"\x7d" := by decide
    have a4 : appendSecretToMap "\x7b\"y\":\"2\"\x7d" "x" "1" =
        .ok "\x7b\"x\":\"1\",\"y\":\"2\"\x7d" := by decide
    constructor
    · simp only [ObtainSecrets, obtainPaths, obtainEntries, obtainEntry, hx, hy,
        effectiveConfigKey, ne1, ne2, if_true, ne_eq, not_false_eq_true, e1, e2, mapGet,
        mapLookup, Option.getD_none, a1, mapInsert, if_true, Option.getD_some, a2,
        keyLt_irrefl, Bool.false_eq_true, if_false]
    · simp only [ObtainSecrets, obtainPaths, obtainEntries, obtainEntry, hx, hy,
        effectiveConfigKey, ne1, ne2, if_true, ne_eq, not_false_eq_true, e1, e2, mapGet,
        mapLookup, Option.getD_none, a3, mapInsert, if_true, Option.getD_some, a4,
        keyLt_irrefl, Bool.false_eq_true, if_false]

/-- Witness of the amended C5 at the group ` {"w\u0041" : "0"} `, written with
whitespace and an escape, with the children `x` and `é`. -/
theorem C5_sibling_merge_amended_witness :
    (((" \x7b\"w\\u0041\" : \"0\"\x7d " : GoString) = [] ∨
        ∃ doc : ObjectDoc, doc.wellFormed = true ∧
          (" \x7b\"w\\u0041\" : \"0\"\x7d " : GoString) = doc.bytes) ∧
      ("x" : GoString) ≠ "é" ∧ validString "x" = true ∧ validString "é" = true ∧
      validString "1" = true ∧ validString "2" = true ∧
      appendSecretToMap " \x7b\"w\\u0041\" : \"0\"\x7d " "x" "1" =
        .ok "\x7b\"wA\":\"0\",\"x\":\"1\"\x7d") ∧
    ((∃ g1 g2 s, appendSecretToMap " \x7b\"w\\u0041\" : \"0\"\x7d " "x" "1" = .ok g1 ∧
        appendSecretToMap g1 "é" "2" = .ok s ∧
        appendSecretToMap " \x7b\"w\\u0041\" : \"0\"\x7d " "é" "2" = .ok g2 ∧
        appendSecretToMap g2 "x" "1" = .ok s) ∧
    (∀ g0 : GoString,
      ((appendSecretToMap g0 "x" "1").bind fun g1 => appendSecretToMap g1 "é" "2") =
        (appendSecretToMap g0 "é" "2").bind fun g2 => appendSecretToMap g2 "x" "1") ∧
    (∀ (path kx ky : GoString) (secrets : GoMap),
        mapLookup kx secrets = some ("1" : GoString) →
        mapLookup ky secrets = some ("2" : GoString) →
        ObtainSecrets [(path, [⟨kx, some "a.x"⟩, ⟨ky, some "a.y"⟩])] (fun _ => .ok secrets) =
            .ok [("a", "\x7b\"x\":\"1\",\"y\":\"2\"\x7d")] ∧
        ObtainSecrets [(path, [⟨ky, some "a.y"⟩, ⟨kx, some "a.x"⟩])] (fun _ => .ok secrets) =
            .ok [("a", "\x7b\"x\":\"1\",\"y\":\"2\"\x7d")])) :=
  ⟨⟨Or.inr ⟨⟨[' '], [], [⟨[], [.plain 'w', .hex ⟨0x41, false, false, false, false⟩], [' '],
        [' '], [.plain '0'], []⟩], [' ']⟩, by decide, by decide⟩,
      by decide, by decide, by decide, by decide, by decide, by decide⟩,
    C5_sibling_merge_amended " \x7b\"w\\u0041\" : \"0\"\x7d " "x" "é" "1" "2"
      (Or.inr ⟨⟨[' '], [], [⟨[], [.plain 'w', .hex ⟨0x41, false, false, false, false⟩], [' '],
        [' '], [.plain '0'], []⟩], [' ']⟩, by decide, by decide⟩)
      (by decide) (by decide) (by decide) (by decide) (by decide)⟩

end Pkg

namespace Pkg

end Pkg

namespace Pkg

/-- C1, counterexample. Every declared vaultKey exists and every destination
key has one or two segments, yet (1) with the mappings `a` and `b -> a.x` over
`{a: hello, b: 1}` the call returns an error, because the value bound to the
one-segment key `a` is not a JSON object that `a.x` could be merged into;
(2) with the mappings `a -> k` and `b -> k` the key `k` is not bound to the
value fetched for `a`; (3) with the mapping `a -> g.\xff`, whose child segment
is the byte 0xFF, the object stored under `g` holds the child U+FFFD and no
child `\xff`; (4) with the mapping `a -> g.x` over the value `\xff` the child
`x` of the object stored under `g` holds U+FFFD, not the fetched value. -/
theorem C1_resolution_counterexample :
    ((∀ pm ∈ mappings [("p", [⟨"a", none⟩, ⟨"b", some "a.x"⟩])],
        (fetched (fun _ => .ok [("a", "hello"), ("b", "1")]) pm).isSome = true ∧
        1 ≤ (segments pm.2).length ∧ (segments pm.2).length ≤ 2) ∧
      ObtainSecrets [("p", [⟨"a", none⟩, ⟨"b", some "a.x"⟩])]
          (fun _ => .ok [("a", "hello"), ("b", "1")]) =
        .error (GoError.err "nested secret key a.x from vault path p is not valid")) ∧
    ((∀ pm ∈ mappings [("p", [⟨"a", some "k"⟩, ⟨"b", some "k"⟩])],
        (fetched (fun _ => .ok [("a", "hello"), ("b", "1")]) pm).isSome = true ∧
        1 ≤ (segments pm.2).length ∧ (segments pm.2).length ≤ 2) ∧
      ObtainSecrets [("p", [⟨"a", some "k"⟩, ⟨"b", some "k"⟩])]
          (fun _ => .ok [("a", "hello"), ("b", "1")]) = .ok [("k", "1")] ∧
      fetched (fun _ => .ok [("a", "hello"), ("b", "1")]) ("p", ⟨"a", some "k"⟩) =
        some ("hello" : GoString)) ∧
    (segments ⟨"a", some [0x67, 0x2E, 0xff]⟩ = [("g" : GoString), [0xff]] ∧
      fetched (fun _ => .ok [("a", "hello")]) ("p", ⟨"a", some [0x67, 0x2E, 0xff]⟩) =
        some ("hello" : GoString) ∧
      ObtainSecrets [("p", [⟨"a", some [0x67, 0x2E, 0xff]⟩])] (fun _ => .ok [("a", "hello")]) =
        .ok [("g", "\x7b\"\\ufffd\":\"hello\"\x7d")] ∧
      jsonUnmarshalStringMap "\x7b\"\\ufffd\":\"hello\"\x7d" =
        .ok (some [("\uFFFD", "hello")]) ∧
      mapLookup [0xff] ([("\uFFFD", "hello")] : GoMap) = none) ∧
    (segments ⟨"a", some "g.x"⟩ = [("g" : GoString), "x"] ∧
      fetched (fun _ => .ok [("a", [0xff])]) ("p", ⟨"a", some "g.x"⟩) = some [0xff] ∧
      ObtainSecrets [("p", [⟨"a", some "g.x"⟩])] (fun _ => .ok [("a", [0xff])]) =
        .ok [("g", "\x7b\"x\":\"\\ufffd\"\x7d")] ∧
      jsonUnmarshalStringMap "\x7b\"x\":\"\\ufffd\"\x7d" = .ok (some [("x", "\uFFFD")]) ∧
      mapLookup "x" ([("x", "\uFFFD")] : GoMap) ≠ some [0xff]) := by
  refine ⟨by decide, by decide, ⟨by decide, by decide, by decide, by decide, by decide⟩,
    ⟨by decide, by decide, by decide, by decide, by decide⟩⟩

/-- C1, amended: when every path is fetched, every declared vaultKey exists in
the data fetched for its path, every destination key has one or two segments,
the destination keys are pairwise distinct, no one-segment destination key is
the parent of a two-segment one, and the child segment of every two-segment
key and the value fetched for it are valid UTF-8, `ObtainSecrets` returns no
error and the returned map contains exactly the declared destinations: a
one-segment key is bound to the fetched value, a two-segment key
`parent.child` is the entry `child -> fetched value` of the JSON object under
`parent` (the string that `json.Marshal` writes for the map `group`, which
`json.Unmarshal` decodes to `group` again, and whose entries are all
declared), and every top-level key is declared. -/
theorem C1_resolution_amended (config : SecretsConfig) (client : Client)
    (hclients : ∀ pe ∈ config, ∃ secrets, client pe.1 = .ok secrets)
    (hfetch : ∀ pm ∈ mappings config, (fetched client pm).isSome = true)
    (hsegs : ∀ pm ∈ mappings config, (segments pm.2).length ≤ 2)
    (hvalid : ∀ pm ∈ mappings config, ∀ p c v, segments pm.2 = [p, c] →
      fetched client pm = some v → validString c = true ∧ validString v = true)
    (hdist : ((mappings config).map fun pm => effectiveConfigKey pm.2).Nodup)
    (hcoll : ∀ pm ∈ mappings config, ∀ pm2 ∈ mappings config, (segments pm.2).length = 1 →
      (segments pm2.2).length = 2 → (segments pm2.2).head? ≠ some (effectiveConfigKey pm.2)) :
    ∃ values, ObtainSecrets config client = .ok values ∧
      (∀ pm ∈ mappings config, (segments pm.2).length = 1 →
        ∃ v, fetched client pm = some v ∧ mapLookup (effectiveConfigKey pm.2) values = some v) ∧
      (∀ pm ∈ mappings config, ∀ parent child, segments pm.2 = [parent, child] →
        ∃ v group, fetched client pm = some v ∧
          mapLookup parent values = some (jsonMarshalStringMap group) ∧
          jsonUnmarshalStringMap (jsonMarshalStringMap group) = .ok (some group) ∧
          mapLookup child group = some v ∧
          ∀ c, (mapLookup c group).isSome = true →
            ∃ pm2 ∈ mappings config, segments pm2.2 = [parent, c]) ∧
      (∀ k, (mapLookup k values).isSome = true →
        ∃ pm ∈ mappings config, ((segments pm.2).length = 1 ∧ effectiveConfigKey pm.2 = k) ∨
          ∃ child, segments pm.2 = [k, child]) := by
  obtain ⟨values, hrun, h1, h2, h3⟩ := obtainPaths_resolves client (mappings config)
    hfetch hsegs hvalid hdist hcoll config [] [] (by simp) hclients (Resolves_nil client)
  simp only [List.nil_append] at h1 h2 h3
  refine ⟨values, hrun, ?_, ?_, h3⟩
  · intro pm hpm hlen
    obtain ⟨v, hv⟩ := Option.isSome_iff_exists.1 (hfetch pm hpm)
    exact ⟨v, hv, by rw [h1 pm hpm hlen, hv]⟩
  · intro pm hpm parent child hpc
    obtain ⟨v, hv⟩ := Option.isSome_iff_exists.1 (hfetch pm hpm)
    obtain ⟨g, hg1, hg2, hg3, hg4⟩ := h2 pm hpm parent child hpc
    exact ⟨v, g, hv, hg2, jsonUnmarshal_marshal g hg1, by rw [hg3, hv], hg4⟩

/-- Witness of the amended C1: the mappings `a`, `b -> g.x` and `a -> g.y`
over the data `{a: hello, b: 1}`. -/
theorem C1_resolution_amended_witness :
    ((∀ pe ∈ ([("p", [⟨"a", none⟩, ⟨"b", some "g.x"⟩, ⟨"a", some "g.y"⟩])] : SecretsConfig),
        ∃ secrets, (fun _ => .ok [("a", "hello"), ("b", "1")] : Client) pe.1 = .ok secrets) ∧
      (∀ pm ∈ mappings [("p", [⟨"a", none⟩, ⟨"b", some "g.x"⟩, ⟨"a", some "g.y"⟩])],
        (fetched (fun _ => .ok [("a", "hello"), ("b", "1")]) pm).isSome = true) ∧
      (∀ pm ∈ mappings [("p", [⟨"a", none⟩, ⟨"b", some "g.x"⟩, ⟨"a", some "g.y"⟩])],
        (segments pm.2).length ≤ 2) ∧
      (∀ pm ∈ mappings [("p", [⟨"a", none⟩, ⟨"b", some "g.x"⟩, ⟨"a", some "g.y"⟩])],
        ∀ c, childKey pm.2 = some c → validString c = true ∧
          ∀ v, fetched (fun _ => .ok [("a", "hello"), ("b", "1")]) pm = some v →
            validString v = true) ∧
      ((mappings [("p", [⟨"a", none⟩, ⟨"b", some "g.x"⟩, ⟨"a", some "g.y"⟩])]).map
        fun pm => effectiveConfigKey pm.2).Nodup ∧
      (∀ pm ∈ mappings [("p", [⟨"a", none⟩, ⟨"b", some "g.x"⟩, ⟨"a", some "g.y"⟩])],
        ∀ pm2 ∈ mappings [("p", [⟨"a", none⟩, ⟨"b", some "g.x"⟩, ⟨"a", some "g.y"⟩])],
        (segments pm.2).length = 1 → (segments pm2.2).length = 2 →
        (segments pm2.2).head? ≠ some (effectiveConfigKey pm.2)) ∧
      ObtainSecrets [("p", [⟨"a", none⟩, ⟨"b", some "g.x"⟩, ⟨"a", some "g.y"⟩])]
          (fun _ => .ok [("a", "hello"), ("b", "1")]) =
        .ok [("a", "hello"), ("g", "\x7b\"x\":\"1\",\"y\":\"hello\"\x7d")]) ∧
    ∃ values, ObtainSecrets [("p", [⟨"a", none⟩, ⟨"b", some "g.x"⟩, ⟨"a", some "g.y"⟩])]
        (fun _ => .ok [("a", "hello"), ("b", "1")]) = .ok values ∧
      (∀ pm ∈ mappings [("p", [⟨"a", none⟩, ⟨"b", some "g.x"⟩, ⟨"a", some "g.y"⟩])],
        (segments pm.2).length = 1 →
        ∃ v, fetched (fun _ => .ok [("a", "hello"), ("b", "1")]) pm = some v ∧
          mapLookup (effectiveConfigKey pm.2) values = some v) ∧
      (∀ pm ∈ mappings [("p", [⟨"a", none⟩, ⟨"b", some "g.x"⟩, ⟨"a", some "g.y"⟩])],
        ∀ parent child, segments pm.2 = [parent, child] →
        ∃ v group, fetched (fun _ => .ok [("a", "hello"), ("b", "1")]) pm = some v ∧
          mapLookup parent values = some (jsonMarshalStringMap group) ∧
          jsonUnmarshalStringMap (jsonMarshalStringMap group) = .ok (some group) ∧
          mapLookup child group = some v ∧
          ∀ c, (mapLookup c group).isSome = true →
            ∃ pm2 ∈ mappings [("p", [⟨"a", none⟩, ⟨"b", some "g.x"⟩, ⟨"a", some "g.y"⟩])],
              segments pm2.2 = [parent, c]) ∧
      (∀ k, (mapLookup k values).isSome = true →
        ∃ pm ∈ mappings [("p", [⟨"a", none⟩, ⟨"b", some "g.x"⟩, ⟨"a", some "g.y"⟩])],
          ((segments pm.2).length = 1 ∧ effectiveConfigKey pm.2 = k) ∨
          ∃ child, segments pm.2 = [k, child]) :=
  ⟨⟨fun _ _ => ⟨_, rfl⟩, by decide, by decide, by decide, by decide, by decide, by decide⟩,
    C1_resolution_amended [("p", [⟨"a", none⟩, ⟨"b", some "g.x"⟩, ⟨"a", some "g.y"⟩])]
      (fun _ => .ok [("a", "hello"), ("b", "1")])
      (fun _ _ => ⟨_, rfl⟩) (by decide) (by decide)
      (by
        intro pm hpm p c v hpc hv
        have hall : ∀ pm ∈ mappings [("p", [(⟨"a", none⟩ : SecretConfig), ⟨"b", some "g.x"⟩,
            ⟨"a", some "g.y"⟩])],
            ∀ c, childKey pm.2 = some c → validString c = true ∧
              ∀ v, fetched (fun _ => .ok [("a", "hello"), ("b", "1")]) pm = some v →
                validString v = true := by decide
        have hck : childKey pm.2 = some c := by simp [childKey, hpc]
        exact ⟨(hall pm hpm c hck).1, (hall pm hpm c hck).2 v hv⟩)
      (by decide) (by decide)⟩

end Pkg

/-! ## Claims about failing resolution -/

/-- C2, counterexample: the vaultKey `missing` is absent from the data fetched
for `p`, but `ObtainSecrets` fails earlier, at the mapping `b -> a.x`, with an
error that names another key. -/
theorem C2_absent_key_counterexample :
    Pkg.exampleClient "p" = .ok [("a", "hello"), ("b", "1")] ∧
    Pkg.fetched Pkg.exampleClient ("p", ⟨"missing", none⟩) = none ∧
    Pkg.ObtainSecrets [("p", [⟨"a", none⟩, ⟨"b", some "a.x"⟩, ⟨"missing", none⟩])]
        Pkg.exampleClient =
      .error (GoError.err "nested secret key a.x from vault path p is not valid") ∧
    Pkg.ObtainSecrets [("p", [⟨"a", none⟩, ⟨"b", some "a.x"⟩, ⟨"missing", none⟩])]
        Pkg.exampleClient ≠
      .error (GoError.err "key missing does not exist at vault path p") := by
  decide

/-- C2, amended: if a declared vaultKey is absent from the data fetched for
its path and everything processed before that mapping went through without
error, resolution fails with the error that names that key and that path and
nothing from a later mapping is exposed. `ObtainSecrets` returns the error
(and with it the nil map); `FetchSecretsToEnv` returns its error in the state
`s3` reached right after the mappings before the failing one, so no
`os.Setenv` is performed for any later mapping. Without the assumption on the
earlier mappings `ObtainSecrets` still fails whenever some declared vaultKey
has no fetched value. -/
theorem C2_absent_key_amended
    (client : Pkg.Client) (pre post : Pkg.SecretsConfig) (path : GoString)
    (es1 es2 : List Pkg.SecretConfig) (sc : Pkg.SecretConfig) (secrets values1 values2 : GoMap)
    (hpre : Pkg.obtainPaths client pre [] = .ok values1)
    (hclient : client path = .ok secrets)
    (hes1 : Pkg.obtainEntries path secrets es1 values1 = .ok values2)
    (habsent : mapLookup sc.VaultKey secrets = none)
    (w : World) (s s1 s2 s3 : State) (rpre rpost : SecretsConfig) (rpath : GoString)
    (res1 res2 : List SecretConfig) (rsc : SecretConfig) (rsecrets : GoMap)
    (hconfig : s.vault.config.SecretsConfig = rpre ++ (rpath, res1 ++ rsc :: res2) :: rpost)
    (hrpre : fetchPaths w rpre s = (none, s1))
    (hrfetch : FetchSecrets w s1 rpath = (.ok rsecrets, s2))
    (hres1 : fetchEntries rpath rsecrets res1 s2 = (none, s3))
    (hrabsent : mapLookup rsc.VaultKey rsecrets = none) :
    Pkg.ObtainSecrets (pre ++ (path, es1 ++ sc :: es2) :: post) client =
      .error (GoError.err ("key " ++ sc.VaultKey ++ " does not exist at vault path " ++ path)) ∧
    FetchSecretsToEnv w s =
      (some (GoError.err ("failed to find vault key " ++ rsc.VaultKey ++ " at vault path " ++
        rpath)), s3) ∧
    (∀ (config : Pkg.SecretsConfig) (client2 : Pkg.Client),
      (∃ pm ∈ Pkg.mappings config, Pkg.fetched client2 pm = none) →
      ∃ e, Pkg.ObtainSecrets config client2 = .error e) := by
  refine ⟨?_, ?_, fun config client2 h => Pkg.obtainPaths_fails client2 config [] h⟩
  · unfold Pkg.ObtainSecrets
    rw [Pkg.obtainPaths_append_ok client pre _ _ _ hpre]
    simp only [Pkg.obtainPaths, hclient]
    rw [Pkg.obtainEntries_append_ok path secrets es1 _ _ _ hes1]
    simp only [Pkg.obtainEntries, Pkg.obtainEntry_absent path secrets sc values2 habsent]
  · unfold FetchSecretsToEnv
    rw [hconfig, fetchPaths_append_ok w rpre _ _ _ hrpre]
    simp only [fetchPaths, hrfetch]
    rw [fetchEntries_append_ok rpath rsecrets res1 _ _ _ hres1]
    simp only [fetchEntries, fetchEntry, hrabsent]

/-- Witness of the amended C2. In `pkg/vault` the mapping `missing` follows a
resolved path and a resolved mapping; in the root package it follows the
mapping `password -> APP_PASSWORD`, whose variable is the only one set. -/
theorem C2_absent_key_amended_witness :
    (Pkg.obtainPaths Pkg.exampleClient [("p0", [⟨"a", none⟩])] [] = .ok [("a", "hello")] ∧
      Pkg.exampleClient "p" = .ok [("a", "hello"), ("b", "1")] ∧
      Pkg.obtainEntries "p" [("a", "hello"), ("b", "1")] [⟨"b", some "g.x"⟩] [("a", "hello")] =
        .ok [("a", "hello"), ("g", "\x7b\"x\":\"1\"\x7d")] ∧
      mapLookup "missing" ([("a", "hello"), ("b", "1")] : GoMap) = none ∧
      fetchPaths exampleWorld [] (exampleState "tok"
          [("secret/data/app", [⟨"password", some "APP_PASSWORD"⟩, ⟨"missing", none⟩,
            ⟨"username", none⟩])]) =
        (none, exampleState "tok"
          [("secret/data/app", [⟨"password", some "APP_PASSWORD"⟩, ⟨"missing", none⟩,
            ⟨"username", none⟩])]) ∧
      mapLookup "missing" ([("password", "s3cr3t"), ("username", "svc")] : GoMap) = none) ∧
    (Pkg.ObtainSecrets [("p0", [⟨"a", none⟩]),
          ("p", [⟨"b", some "g.x"⟩, ⟨"missing", none⟩, ⟨"a", some "z"⟩])]
        Pkg.exampleClient =
      .error (GoError.err ("key " ++ ("missing" : GoString) ++
        " does not exist at vault path " ++ ("p" : GoString))) ∧
    FetchSecretsToEnv exampleWorld (exampleState "tok"
        [("secret/data/app", [⟨"password", some "APP_PASSWORD"⟩, ⟨"missing", none⟩,
          ⟨"username", none⟩])]) =
      (some (GoError.err ("failed to find vault key " ++ ("missing" : GoString) ++
        " at vault path " ++ ("secret/data/app" : GoString))),
        { exampleState "tok"
            [("secret/data/app", [⟨"password", some "APP_PASSWORD"⟩, ⟨"missing", none⟩,
              ⟨"username", none⟩])] with
          environ := [("APP_PASSWORD", "s3cr3t")],
          log := [Event.read "secret/data/app", Event.setenv "APP_PASSWORD" "s3cr3t"] }) ∧
    (∀ (config : Pkg.SecretsConfig) (client2 : Pkg.Client),
      (∃ pm ∈ Pkg.mappings config, Pkg.fetched client2 pm = none) →
      ∃ e, Pkg.ObtainSecrets config client2 = .error e)) :=
  ⟨⟨by decide, by decide, by decide, by decide, by decide, by decide⟩,
    C2_absent_key_amended Pkg.exampleClient [("p0", [⟨"a", none⟩])] [] "p"
      [⟨"b", some "g.x"⟩] [⟨"a", some "z"⟩] ⟨"missing", none⟩ [("a", "hello"), ("b", "1")]
      [("a", "hello")] [("a", "hello"), ("g", "\x7b\"x\":\"1\"\x7d")]
      (by decide) (by decide) (by decide) (by decide)
      exampleWorld
      (exampleState "tok"
        [("secret/data/app", [⟨"password", some "APP_PASSWORD"⟩, ⟨"missing", none⟩,
          ⟨"username", none⟩])])
      (exampleState "tok"
        [("secret/data/app", [⟨"password", some "APP_PASSWORD"⟩, ⟨"missing", none⟩,
          ⟨"username", none⟩])])
      { exampleState "tok"
          [("secret/data/app", [⟨"password", some "APP_PASSWORD"⟩, ⟨"missing", none⟩,
            ⟨"username", none⟩])] with
        log := [Event.read "secret/data/app"] }
      { exampleState "tok"
          [("secret/data/app", [⟨"password", some "APP_PASSWORD"⟩, ⟨"missing", none⟩,
            ⟨"username", none⟩])] with
        environ := [("APP_PASSWORD", "s3cr3t")],
        log := [Event.read "secret/data/app", Event.setenv "APP_PASSWORD" "s3cr3t"] }
      [] [] "secret/data/app" [⟨"password", some "APP_PASSWORD"⟩] [⟨"username", none⟩]
      ⟨"missing", none⟩ [("password", "s3cr3t"), ("username", "svc")]
      (by decide) (by decide) (by decide) (by decide) (by decide)⟩

/-! ## Claims about `FetchSecretsToEnv` -/

set_option maxRecDepth 4000 in
/-- C3, counterexample. The store holds `{password: s3cr3t, username: svc}` at
`secret/data/app`, so every declared vaultKey exists. (1) With the mappings
`password -> X` and `username -> X` the call returns nil but `X` ends up
holding `svc`, not the value of `password`. (2) With the mapping
`password -> A=B` the call returns the error of `os.Setenv`. -/
theorem C3_env_counterexample :
    (FetchSecrets exampleWorld (exampleState "tok" []) "secret/data/app").1 =
      .ok [("password", "s3cr3t"), ("username", "svc")] ∧
    ((FetchSecretsToEnv exampleWorld (exampleState "tok"
        [("secret/data/app", [⟨"password", some "X"⟩, ⟨"username", some "X"⟩])])).1 = none ∧
      mapLookup "X" (FetchSecretsToEnv exampleWorld (exampleState "tok"
        [("secret/data/app", [⟨"password", some "X"⟩, ⟨"username", some "X"⟩])])).2.environ =
        some ("svc" : GoString)) ∧
    (FetchSecretsToEnv exampleWorld (exampleState "tok"
        [("secret/data/app", [⟨"password", some "A=B"⟩])])).1 =
      some (GoError.err (("failed to set env var A=B for vault key password from vault path " :
        GoString) ++ "secret/data/app: setenv: invalid argument")) := by
  decide

/-- C3, amended: on a Vault whose token can be ensured and whose store answers
every read of a configured path with the data of that path, if every declared
vaultKey exists in that data, the destination names are pairwise distinct and
`os.Setenv` accepts every name and value, then `FetchSecretsToEnv` returns nil
and for each mapping the variable named by the effective destination key
(`EnvVar` when non-nil and non-empty, otherwise `VaultKey`) ends up holding the
fetched value of `VaultKey`. -/
theorem C3_env_amended (w : World) (s : State) (c : BaoClient) (data : GoString → GoMap)
    (hens : (ensureToken w s).1 = none)
    (hc : (ensureToken w s).2.vault.baoClient = some c)
    (hread : ∀ pe ∈ s.vault.config.SecretsConfig, ∀ hist, ∃ secret,
      w.Read hist pe.1 c.token = .ok (some secret) ∧ secretData secret = .ok (data pe.1))
    (hkeys : ∀ pm ∈ envMappings s.vault.config.SecretsConfig,
      (mapLookup pm.2.VaultKey (data pm.1)).isSome = true)
    (hvalid : ∀ pm ∈ envMappings s.vault.config.SecretsConfig, ∀ v,
      mapLookup pm.2.VaultKey (data pm.1) = some v →
      setenvInvalid (effectiveEnvVar pm.2) v = false)
    (hdist : ((envMappings s.vault.config.SecretsConfig).map
      fun pm => effectiveEnvVar pm.2).Nodup) :
    (FetchSecretsToEnv w s).1 = none ∧
    ∀ pm ∈ envMappings s.vault.config.SecretsConfig,
      ∃ v, mapLookup pm.2.VaultKey (data pm.1) = some v ∧
        mapLookup (effectiveEnvVar pm.2) (FetchSecretsToEnv w s).2.environ = some v := by
  obtain ⟨⟨c1, hc1, ht1⟩, _, _⟩ := ensureToken_ok w s hens
  have hcc : c1 = c := by
    rw [hc] at hc1
    injection hc1 with hc1
    exact hc1.symm
  subst hcc
  obtain ⟨s2, hrun, _, hlook⟩ := fetchPaths_holds w data (ensureToken w s).2.vault c1
    (envMappings s.vault.config.SecretsConfig) hc ht1 hkeys hvalid hdist
    s.vault.config.SecretsConfig [] (ensureToken w s).2 (by simp) hread
    ⟨rfl, fun pm hpm => by cases hpm⟩
  simp only [List.nil_append] at hlook
  obtain ⟨e1, e2⟩ := fetchPaths_after_ensure w s s.vault.config.SecretsConfig hens
  unfold FetchSecretsToEnv
  rw [e1, e2, hrun]
  refine ⟨rfl, fun pm hpm => ?_⟩
  obtain ⟨v, hv⟩ := Option.isSome_iff_exists.1 (hkeys pm hpm)
  exact ⟨v, hv, by rw [hlook pm hpm, hv]⟩

/-- Witness of the amended C3, the example of the specification: the mappings
`password -> APP_PASSWORD` and `username` over `{password: s3cr3t, username:
svc}` leave `APP_PASSWORD=s3cr3t` and `username=svc`. -/
theorem C3_env_amended_witness :
    ((ensureToken exampleWorld (exampleState "tok" [("secret/data/app",
        [⟨"password", some "APP_PASSWORD"⟩, ⟨"username", none⟩])])).1 = none ∧
      (FetchSecretsToEnv exampleWorld (exampleState "tok" [("secret/data/app",
        [⟨"password", some "APP_PASSWORD"⟩, ⟨"username", none⟩])])).2.environ =
        ([("APP_PASSWORD", "s3cr3t"), ("username", "svc")] : GoMap)) ∧
    ((FetchSecretsToEnv exampleWorld (exampleState "tok" [("secret/data/app",
        [⟨"password", some "APP_PASSWORD"⟩, ⟨"username", none⟩])])).1 = none ∧
    ∀ pm ∈ envMappings (exampleState "tok" [("secret/data/app",
        [⟨"password", some "APP_PASSWORD"⟩, ⟨"username", none⟩])]).vault.config.SecretsConfig,
      ∃ v, mapLookup pm.2.VaultKey
          ((fun _ => [("password", "s3cr3t"), ("username", "svc")] : GoString → GoMap) pm.1) =
          some v ∧
        mapLookup (effectiveEnvVar pm.2)
          (FetchSecretsToEnv exampleWorld (exampleState "tok" [("secret/data/app",
            [⟨"password", some "APP_PASSWORD"⟩, ⟨"username", none⟩])])).2.environ = some v) :=
  ⟨⟨by decide, by decide⟩,
    C3_env_amended exampleWorld
      (exampleState "tok" [("secret/data/app",
        [⟨"password", some "APP_PASSWORD"⟩, ⟨"username", none⟩])])
      { token := "tok" } (fun _ => [("password", "s3cr3t"), ("username", "svc")])
      (by decide) (by decide)
      (by
        intro pe hpe hist
        rw [show (exampleState "tok" [("secret/data/app",
          [⟨"password", some "APP_PASSWORD"⟩, ⟨"username", none⟩])]).vault.config.SecretsConfig
          = ([("secret/data/app", [⟨"password", some "APP_PASSWORD"⟩, ⟨"username", none⟩])] :
            SecretsConfig)
          from rfl, List.mem_singleton] at hpe
        subst hpe
        exact ⟨exampleSecret, rfl, by decide⟩)
      (by decide) (by decide) (by decide)⟩

/-! ## Claims about `FetchSecrets` and the token -/

/-- C6, counterexample: for the secret fields `m = {data: x}` the response
`{"data": m}` yields the map `{data: x}`, while the response `m` itself is
rejected as an unexpected data format. -/
theorem C6_envelope_counterexample :
    (FetchSecrets (exampleWorld.withBody [("data", GoAny.map [("data", GoAny.str "x")])])
        (exampleState "tok" []) "p").1 = .ok [("data", "x")] ∧
    (FetchSecrets (exampleWorld.withBody [("data", GoAny.str "x")])
        (exampleState "tok" []) "p").1 =
      .error (GoError.err "unexpected data format in KV v2 response") := by
  decide

/-- C6, amended: for every mapping `m` of secret fields that has no field
named `data`, `FetchSecrets` on a response whose body is `{"data": m}` returns
the same result as on a response whose body is `m` itself; when `ensureToken`
succeeds this result is a string map with exactly the keys of `m`, string
values unchanged and non-string values in their `%v` form. -/
theorem C6_envelope_amended (w : World) (s : State) (path : GoString) (m : GoMapOf GoAny)
    (hm : mapLookup "data" m = none) :
    FetchSecrets (w.withBody [("data", GoAny.map m)]) s path =
      FetchSecrets (w.withBody m) s path ∧
    ((ensureToken w s).1 = none →
      (FetchSecrets (w.withBody m) s path).1 = .ok (stringifyData m)) ∧
    (∀ k, mapLookup k (stringifyData m) = (mapLookup k m).map stringValue) ∧
    (∀ x, stringValue (GoAny.str x) = x) ∧
    (∀ v, (∀ x, v ≠ GoAny.str x) → stringValue v = fmtV v) := by
  have h1 : secretData { Data := [("data", GoAny.map m)], Auth := none } =
      .ok (stringifyData m) := by
    simp [secretData, mapLookup]
  have h2 : secretData { Data := m, Auth := none } = .ok (stringifyData m) := by
    simp [secretData, hm]
  refine ⟨?_, ?_, fun k => mapLookup_stringifyData k m, fun _ => rfl, ?_⟩
  · rw [FetchSecrets_withBody, FetchSecrets_withBody, h1, h2]
  · intro hok
    rw [FetchSecrets_withBody, h2]
    cases hc : s.vault.baoClient with
    | none => simp [ensureToken, hc] at hok
    | some c =>
      cases he : ensureToken w s with
      | mk r s1 =>
        rw [he] at hok
        simp only at hok
        subst hok
        rfl
  · intro v hv
    cases v with
    | str x => exact absurd rfl (hv x)
    | nil => rfl
    | bool b => rfl
    | number l => rfl
    | slice xs => rfl
    | map fs => rfl

/-- Witness of the amended C6 at the fields `{n: 5, password: s3cr3t}`. -/
theorem C6_envelope_amended_witness :
    mapLookup "data" [("n", GoAny.number "5"), ("password", GoAny.str "s3cr3t")] = none ∧
    (FetchSecrets (exampleWorld.withBody
          [("data", GoAny.map [("n", GoAny.number "5"), ("password", GoAny.str "s3cr3t")])])
        (exampleState "tok" []) "p").1 = .ok [("n", "5"), ("password", "s3cr3t")] ∧
    (FetchSecrets (exampleWorld.withBody
          [("data", GoAny.map [("n", GoAny.number "5"), ("password", GoAny.str "s3cr3t")])])
        (exampleState "tok" []) "p" =
      FetchSecrets (exampleWorld.withBody
          [("n", GoAny.number "5"), ("password", GoAny.str "s3cr3t")])
        (exampleState "tok" []) "p" ∧
    ((ensureToken exampleWorld (exampleState "tok" [])).1 = none →
      (FetchSecrets (exampleWorld.withBody
          [("n", GoAny.number "5"), ("password", GoAny.str "s3cr3t")])
        (exampleState "tok" []) "p").1 =
        .ok (stringifyData [("n", GoAny.number "5"), ("password", GoAny.str "s3cr3t")])) ∧
    (∀ k, mapLookup k (stringifyData [("n", GoAny.number "5"), ("password", GoAny.str "s3cr3t")]) =
      (mapLookup k [("n", GoAny.number "5"), ("password", GoAny.str "s3cr3t")]).map
        stringValue) ∧
    (∀ x, stringValue (GoAny.str x) = x) ∧
    (∀ v, (∀ x, v ≠ GoAny.str x) → stringValue v = fmtV v)) :=
  ⟨rfl, by decide,
    C6_envelope_amended exampleWorld (exampleState "tok" []) "p"
      [("n", GoAny.number "5"), ("password", GoAny.str "s3cr3t")] rfl⟩


/-- C7: on a Vault built by `New` from a configuration with a non-empty
`AuthToken`, every call of `ensureToken`, after any sequence of calls of the
methods of the Vault, returns nil and leaves the state unchanged, so it
neither reads the service-account token file nor issues a login write; the
log of effects never contains either of the two. -/
theorem C7_static_token (w : World) (config : Config) (environ : GoMap) (s : State)
    (calls : List Call) (hauth : config.AuthToken ≠ "") (hnew : New w config environ = .ok s) :
    ensureToken w (runCalls w calls s) = (none, runCalls w calls s) ∧
    ∀ e ∈ (ensureToken w (runCalls w calls s)).2.log, e.isLogin = false := by
  have hinst := runCalls_installed w calls s (New_installed w config environ s hauth hnew)
  have hrun := ensureToken_installed w _ hinst
  refine ⟨hrun, ?_⟩
  rw [hrun]
  exact hinst.2

/-- Witness of C7: the Vault of `exampleConfig` with the static token `tok`,
after a fetch and a refresh. -/
theorem C7_static_token_witness :
    ((exampleConfig "tok" []).AuthToken ≠ "" ∧
      New exampleWorld (exampleConfig "tok" []) [] = .ok (exampleState "tok" [])) ∧
    (ensureToken exampleWorld
        (runCalls exampleWorld [Call.fetch "secret/data/app", Call.refresh]
          (exampleState "tok" [])) =
      (none, runCalls exampleWorld [Call.fetch "secret/data/app", Call.refresh]
          (exampleState "tok" [])) ∧
    ∀ e ∈ (ensureToken exampleWorld
        (runCalls exampleWorld [Call.fetch "secret/data/app", Call.refresh]
          (exampleState "tok" []))).2.log, e.isLogin = false) :=
  ⟨⟨by decide, by decide⟩,
    C7_static_token exampleWorld (exampleConfig "tok" []) [] (exampleState "tok" [])
      [Call.fetch "secret/data/app", Call.refresh] (by decide) (by decide)⟩

/-- C8: for every starting state (whatever the token) and every outcome of the
file read and of the login write, `refreshAuthToken` returns nil exactly when
the token of the client is non-empty afterwards; every failing attempt leaves
the Vault and the environment as they were, with no token set, so the next
call starts from scratch. -/
theorem C8_refresh_result (w : World) (s : State) :
    ((refreshAuthToken w s).1 = none ↔
      ∃ c2, (refreshAuthToken w s).2.vault.baoClient = some c2 ∧ c2.token ≠ "") ∧
    ((refreshAuthToken w s).1 ≠ none →
      (refreshAuthToken w s).2.vault = s.vault ∧
      (refreshAuthToken w s).2.environ = s.environ ∧
      ∀ c2, (refreshAuthToken w s).2.vault.baoClient = some c2 → c2.token = "") := by
  unfold refreshAuthToken
  cases hc : s.vault.baoClient with
  | none => simp [hc]
  | some c =>
    simp only
    by_cases ht : c.token = ""
    · simp only [ht, ne_eq, not_true_eq_false, if_false]
      by_cases ha : s.vault.config.AuthToken = ""
      · simp only [ha, ne_eq, not_true_eq_false, if_false]
        cases w.ReadFile s.log s.vault.config.AuthKubernetesTokenPath with
        | error e => simp [State.logged, hc, ht]
        | ok k8sToken =>
          simp only
          cases w.Write _ _ k8sToken s.vault.config.AuthKubernetesRole with
          | error e => simp [State.logged, hc, ht]
          | ok r =>
            cases r with
            | none => simp [State.logged, hc, ht, errNoClientToken]
            | some secret =>
              simp only
              cases secret.Auth with
              | none => simp [State.logged, hc, ht, errNoClientToken]
              | some auth =>
                simp only
                by_cases hk : auth.ClientToken = ""
                · simp [hk, State.logged, hc, ht, errNoClientToken]
                · simp [hk, State.logged, State.setToken]
      · simp [ha, State.setToken]
    · simp [ht, hc]
/-! ## Claims about the configuration -/

/-- C9, counterexample. (1) The text `{"p":[{"vaultKey":"k"}]}` is a JSON
object of the described shape and `parseSecretsConfig` decodes it, but
`ObtainValuesFromEnv` reading it from `VAULT_SECRETS_CONFIG` fails when
`VAULT_DISABLED=yes` is set as well: `yes` is no boolean for
`strconv.ParseBool`. (2) The object `{"p":[{"vaultKey":"a"}],"p":[{"vaultKey":"b"}]}`
names the path `p` twice; `parseSecretsConfig` succeeds, but `p` holds only
the entries of the second array. -/
theorem C9_parse_secrets_config_counterexample :
    (parseSecretsConfig "\x7b\"p\":[\x7b\"vaultKey\":\"k\"\x7d]\x7d" = .ok [("p", [⟨"k", none⟩])] ∧
      parseBool "yes" = none ∧
      ∃ e, ObtainValuesFromEnv NewConfig [("VAULT_DISABLED", "yes"),
          ("VAULT_SECRETS_CONFIG", "\x7b\"p\":[\x7b\"vaultKey\":\"k\"\x7d]\x7d")] =
        .error e) ∧
    parseSecretsConfig
        "\x7b\"p\":[\x7b\"vaultKey\":\"a\"\x7d],\"p\":[\x7b\"vaultKey\":\"b\"\x7d]\x7d" =
      .ok [("p", [⟨"b", none⟩])] := by
  refine ⟨⟨by decide, by decide,
    GoError.err "env: parse error on field \"Disabled\" of type \"bool\"", by decide⟩,
    by decide⟩

/-- C9, amended: for every legal JSON text `doc` (given by its spelling, with
any whitespace, its escapes denoting characters) that is an object mapping
pairwise distinct paths to arrays of objects with a `vaultKey` and an optional
`envVar`, `parseSecretsConfig` succeeds and yields a `SecretsConfig` with
exactly those paths, each holding its entries in array order, with `VaultKey`
the `vaultKey` field and `EnvVar` nil exactly when `envVar` is absent;
`ObtainValuesFromEnv` stores that value when `VAULT_SECRETS_CONFIG` holds the
text and `VAULT_DISABLED` is unset, empty or a boolean for
`strconv.ParseBool`. The text `{}`, the default for an unset variable, yields
no entries. -/
theorem C9_parse_secrets_config_amended (doc : ConfigDoc)
    (desc : List (GoString × List SecretConfig))
    (hdoc : doc.wellFormed = true) (hshape : doc.described = some desc)
    (hpaths : (desc.map Prod.fst).Nodup) :
    (∃ cfg, parseSecretsConfig doc.bytes = .ok cfg ∧
      (∀ pe ∈ desc, mapLookup pe.1 cfg = some pe.2) ∧
      (∀ p, (mapLookup p cfg).isSome = true → p ∈ desc.map Prod.fst) ∧
      (∀ (c : Config) (environ : GoMap),
        mapLookup "VAULT_SECRETS_CONFIG" environ = some doc.bytes →
        (parseBool (getOr environ "VAULT_DISABLED" (some "false"))).isSome = true →
        ∃ c2, ObtainValuesFromEnv c environ = .ok c2 ∧ c2.SecretsConfig = cfg)) ∧
    parseSecretsConfig "\x7b\x7d" = .ok [] ∧
    (∀ (c : Config) (environ : GoMap),
      mapLookup "VAULT_SECRETS_CONFIG" environ = none →
      (parseBool (getOr environ "VAULT_DISABLED" (some "false"))).isSome = true →
      ∃ c2, ObtainValuesFromEnv c environ = .ok c2 ∧ c2.SecretsConfig = []) := by
  have hparse := parseSecretsConfig_of_described doc desc hdoc hshape
  have hne : doc.bytes ≠ utf8 "" := configDoc_bytes_ne_nil doc
  obtain ⟨h1, h2⟩ := mapLookup_foldl_insert desc ([] : SecretsConfig) hpaths
  have hempty : parseSecretsConfig "\x7b\x7d" = .ok [] := by decide
  have hbraces : ("\x7b\x7d" : GoString) ≠ "" := by decide
  have henv : ∀ (c : Config) (environ : GoMap) (value : GoString) (cfg : SecretsConfig),
      getOr environ "VAULT_SECRETS_CONFIG" (some "\x7b\x7d") = value → value ≠ "" →
      parseSecretsConfig value = .ok cfg →
      (parseBool (getOr environ "VAULT_DISABLED" (some "false"))).isSome = true →
      ∃ c2, ObtainValuesFromEnv c environ = .ok c2 ∧ c2.SecretsConfig = cfg := by
    intro c environ value cfg hval hvne hcfg hdis
    obtain ⟨b, hb⟩ := Option.isSome_iff_exists.1 hdis
    have hdne : getOr environ "VAULT_DISABLED" (some "false") ≠ "" := by
      intro h0
      have hnone : parseBool "" = none := by decide
      rw [h0, hnone] at hb
      cases hb
    unfold ObtainValuesFromEnv
    simp only [hval, hvne, hcfg, hdne, hb, ne_eq, not_false_eq_true, if_true]
    exact ⟨_, rfl, rfl⟩
  refine ⟨⟨_, hparse, h1, ?_, ?_⟩, hempty, ?_⟩
  · intro p hp
    by_contra hnot
    rw [h2 p hnot] at hp
    simp [mapLookup] at hp
  · intro c environ hlook hdis
    refine henv c environ doc.bytes _ ?_ hne hparse hdis
    simp [getOr, hlook, hne]
  · intro c environ hlook hdis
    refine henv c environ "\x7b\x7d" [] ?_ hbraces hempty hdis
    simp [getOr, hlook]

/-- Witness of the amended C9: the text of the repository's test, with its
expected result, also through `ObtainValuesFromEnv`; and a text written with
whitespace and escapes. -/
theorem C9_parse_secrets_config_amended_witness :
    (exampleConfigDoc.wellFormed = true ∧
      exampleConfigDoc.bytes =
        ("\x7b\"my/secret/path\":[\x7b\"vaultKey\":\"password\",\"envVar\":\"APP_PASSWORD\"\x7d," :
          GoString) ++ "\x7b\"vaultKey\":\"username\"\x7d]\x7d" ∧
      exampleConfigDoc.described =
        some ([("my/secret/path", [⟨"password", some "APP_PASSWORD"⟩, ⟨"username", none⟩])] :
          List (GoString × List SecretConfig)) ∧
      (([("my/secret/path", [⟨"password", some "APP_PASSWORD"⟩, ⟨"username", none⟩])] :
        List (GoString × List SecretConfig)).map Prod.fst).Nodup ∧
      (ObtainValuesFromEnv NewConfig [("VAULT_DISABLED", "0"),
          ("VAULT_SECRETS_CONFIG", exampleConfigDoc.bytes)]).map Config.SecretsConfig =
        .ok [("my/secret/path", [⟨"password", some "APP_PASSWORD"⟩, ⟨"username", none⟩])] ∧
      (ObtainValuesFromEnv NewConfig []).map Config.SecretsConfig = .ok [] ∧
      exampleSpacedConfigDoc.wellFormed = true ∧
      exampleSpacedConfigDoc.bytes =
        ("\x7b \"p\" : [ \x7b\"envVar\":\"\\u0041\\n\", \"vault\\u004bey\" : " : GoString) ++
          "\"k\\ud83d\\ude00\"\x7d ] \x7d\n" ∧
      parseSecretsConfig exampleSpacedConfigDoc.bytes = .ok [("p", [⟨"k😀", some "A\n"⟩])]) ∧
    ((∃ cfg, parseSecretsConfig exampleConfigDoc.bytes = .ok cfg ∧
      (∀ pe ∈ ([("my/secret/path", [⟨"password", some "APP_PASSWORD"⟩, ⟨"username", none⟩])] :
          List (GoString × List SecretConfig)),
        mapLookup pe.1 cfg = some pe.2) ∧
      (∀ p, (mapLookup p cfg).isSome = true →
        p ∈ ([("my/secret/path", [⟨"password", some "APP_PASSWORD"⟩, ⟨"username", none⟩])] :
          List (GoString × List SecretConfig)).map Prod.fst) ∧
      (∀ (c : Config) (environ : GoMap),
        mapLookup "VAULT_SECRETS_CONFIG" environ = some exampleConfigDoc.bytes →
        (parseBool (getOr environ "VAULT_DISABLED" (some "false"))).isSome = true →
        ∃ c2, ObtainValuesFromEnv c environ = .ok c2 ∧ c2.SecretsConfig = cfg)) ∧
    parseSecretsConfig "\x7b\x7d" = .ok [] ∧
    (∀ (c : Config) (environ : GoMap),
      mapLookup "VAULT_SECRETS_CONFIG" environ = none →
      (parseBool (getOr environ "VAULT_DISABLED" (some "false"))).isSome = true →
      ∃ c2, ObtainValuesFromEnv c environ = .ok c2 ∧ c2.SecretsConfig = [])) :=
  ⟨⟨by decide, by decide, by decide, by decide, by decide, by decide, by decide, by decide,
      by decide⟩,
    C9_parse_secrets_config_amended exampleConfigDoc
      [("my/secret/path", [⟨"password", some "APP_PASSWORD"⟩, ⟨"username", none⟩])]
      (by decide) (by decide) (by decide)⟩

/-! ## Claims about concurrent callers -/

/-- C10, counterexample: two goroutines call `ensureToken` on a Vault without a
token while the login fails. Both see no token, both run `refreshAuthToken` in
turn, and two login writes are issued, not one. -/
theorem C10_concurrent_login_counterexample :
    (exampleState "" []).token = some ("" : GoString) ∧
    (runSchedule exampleWorld [0, 1, 0, 1] [Caller.start, Caller.start]
        (exampleState "" [])).1 =
      [Caller.returned (some (GoError.err "kubernetes auth failed: permission denied")),
       Caller.returned (some (GoError.err "kubernetes auth failed: permission denied"))] ∧
    loginWrites (runSchedule exampleWorld [0, 1, 0, 1] [Caller.start, Caller.start]
        (exampleState "" [])).2.log = 2 := by
  decide

/-- C10, amended: several goroutines call `ensureToken` concurrently on one
Vault that has no token installed, and all of them return. If the first login
attempt succeeds, exactly one login write is issued and all callers return nil
with the token installed. If every login attempt fails with the same error,
all callers return that error and the token stays unset. -/
theorem C10_concurrent_login_amended (w : World) (s0 : State) (c : BaoClient) (n : Nat)
    (schedule : List Nat)
    (hc : s0.vault.baoClient = some c) (ht : c.token = "") (hn : 0 < n)
    (hdone : allReturned (runSchedule w schedule (List.replicate n Caller.start) s0).1 = true) :
    (∀ (jwt : GoString) (secret : Secret) (auth : SecretAuth),
      s0.vault.config.AuthToken = "" →
      w.ReadFile s0.log s0.vault.config.AuthKubernetesTokenPath = .ok jwt →
      w.Write (s0.log ++ [Event.readFile s0.vault.config.AuthKubernetesTokenPath])
        ("auth/" ++ s0.vault.config.AuthKubernetesBackend ++ "/login") jwt
        s0.vault.config.AuthKubernetesRole = .ok (some secret) →
      secret.Auth = some auth → auth.ClientToken ≠ "" →
      (∀ caller ∈ (runSchedule w schedule (List.replicate n Caller.start) s0).1,
        caller = Caller.returned none) ∧
      loginWrites (runSchedule w schedule (List.replicate n Caller.start) s0).2.log =
        loginWrites s0.log + 1 ∧
      (runSchedule w schedule (List.replicate n Caller.start) s0).2.token =
        some auth.ClientToken) ∧
    (∀ e : GoError, (∀ s, s.vault = s0.vault → (refreshAuthToken w s).1 = some e) →
      (∀ caller ∈ (runSchedule w schedule (List.replicate n Caller.start) s0).1,
        caller = Caller.returned (some e)) ∧
      (runSchedule w schedule (List.replicate n Caller.start) s0).2.token = some ("" : GoString)) := by
  have hstart : ∀ c2 ∈ List.replicate n Caller.start, c2 = Caller.start :=
    fun c2 h => (List.mem_replicate.1 h).2
  have hlen := runSchedule_length w schedule (List.replicate n Caller.start) s0
  rw [List.length_replicate] at hlen
  have hall : ∀ caller ∈ (runSchedule w schedule (List.replicate n Caller.start) s0).1,
      ∃ r, caller = Caller.returned r := by
    intro caller hmem
    have := List.all_eq_true.1 hdone caller hmem
    cases caller with
    | returned r => exact ⟨r, rfl⟩
    | start => simp at this
    | waiting => simp at this
  obtain ⟨first, hfirst⟩ : ∃ first,
      first ∈ (runSchedule w schedule (List.replicate n Caller.start) s0).1 := by
    cases hr : (runSchedule w schedule (List.replicate n Caller.start) s0).1 with
    | nil => rw [hr] at hlen; simp at hlen; omega
    | cons a t => exact ⟨a, List.mem_cons_self _ _⟩
  constructor
  · intro jwt secret auth hauth hfile hwrite hsecret htoken
    have hinv := runSchedule_login w s0 c jwt secret auth hc ht hauth hfile hwrite hsecret htoken
      schedule (List.replicate n Caller.start) s0
      (Or.inl ⟨rfl, rfl, rfl, fun c2 h => Or.inl (hstart c2 h)⟩)
    rcases hinv with ⟨_, _, _, hcs⟩ | ⟨hv, hl, _, hcs⟩
    · obtain ⟨r, hr⟩ := hall first hfirst
      rcases hcs first hfirst with h1 | h1 <;> rw [hr] at h1 <;> cases h1
    · refine ⟨?_, ?_, ?_⟩
      · intro caller hmem
        obtain ⟨r, hr⟩ := hall caller hmem
        rcases hcs caller hmem with h1 | h1 | h1
        · rw [hr] at h1; cases h1
        · rw [hr] at h1; cases h1
        · exact h1
      · rw [hl]
        simp [loginWrites, Event.isLoginWrite, List.filter_append]
      · simp [State.token, hv, State.setToken]
  · intro e hfail
    have hinv := runSchedule_failing w s0 c e hc ht hfail schedule
      (List.replicate n Caller.start) s0 ⟨rfl, fun c2 h => Or.inl (hstart c2 h)⟩
    obtain ⟨hv, hcs⟩ := hinv
    refine ⟨?_, ?_⟩
    · intro caller hmem
      obtain ⟨r, hr⟩ := hall caller hmem
      rcases hcs caller hmem with h1 | h1 | h1
      · rw [hr] at h1; cases h1
      · rw [hr] at h1; cases h1
      · exact h1
    · simp [State.token, hv, hc, ht]

/-- Witness of the amended C10: two goroutines under the schedule 0, 1, 0, 1,
once in a world whose login succeeds with the token `t1` and once in a world
whose login is always refused. -/
theorem C10_concurrent_login_amended_witness :
    ((exampleState "" []).vault.baoClient = some { token := "" } ∧
      allReturned (runSchedule exampleLoginWorld [0, 1, 0, 1]
        (List.replicate 2 Caller.start) (exampleState "" [])).1 = true ∧
      allReturned (runSchedule exampleWorld [0, 1, 0, 1]
        (List.replicate 2 Caller.start) (exampleState "" [])).1 = true) ∧
    ((∀ caller ∈ (runSchedule exampleLoginWorld [0, 1, 0, 1]
          (List.replicate 2 Caller.start) (exampleState "" [])).1,
        caller = Caller.returned none) ∧
      loginWrites (runSchedule exampleLoginWorld [0, 1, 0, 1]
          (List.replicate 2 Caller.start) (exampleState "" [])).2.log =
        loginWrites (exampleState "" []).log + 1 ∧
      (runSchedule exampleLoginWorld [0, 1, 0, 1]
          (List.replicate 2 Caller.start) (exampleState "" [])).2.token = some ("t1" : GoString)) ∧
    ((∀ caller ∈ (runSchedule exampleWorld [0, 1, 0, 1]
          (List.replicate 2 Caller.start) (exampleState "" [])).1,
        caller = Caller.returned
          (some (GoError.err "kubernetes auth failed: permission denied"))) ∧
      (runSchedule exampleWorld [0, 1, 0, 1]
          (List.replicate 2 Caller.start) (exampleState "" [])).2.token = some ("" : GoString)) :=
  ⟨⟨rfl, by decide, by decide⟩,
    (C10_concurrent_login_amended exampleLoginWorld (exampleState "" []) { token := "" } 2
      [0, 1, 0, 1] rfl rfl (by decide) (by decide)).1 "jwt"
      { Data := [], Auth := some { ClientToken := "t1" } } { ClientToken := "t1" }
      rfl rfl rfl rfl (by decide),
    (C10_concurrent_login_amended exampleWorld (exampleState "" []) { token := "" } 2
      [0, 1, 0, 1] rfl rfl (by decide) (by decide)).2
      (GoError.err "kubernetes auth failed: permission denied")
      (fun s hv => by
        have h1 : s.vault.baoClient = some { token := "" } := by rw [hv]; rfl
        have h2 : s.vault.config.AuthToken = "" := by rw [hv]; rfl
        simp [refreshAuthToken, h1, h2, exampleWorld, State.logged]
        decide)⟩

/-! ## Claims about the order of the paths -/

namespace Pkg

/-- Paths whose mappings are independent commute as steps, when the child
keys of dotted mappings and the values fetched for them are valid UTF-8. -/
theorem Commutes_pathStep (client : Client) (pe1 pe2 : GoString × List SecretConfig)
    (h : ∀ sc1 ∈ pe1.2, ∀ sc2 ∈ pe2.2, independent sc1 sc2 = true)
    (hv1 : ∀ sc ∈ pe1.2, ∀ c v, childKey sc = some c → fetched client (pe1.1, sc) = some v →
      validString c = true ∧ validString v = true)
    (hv2 : ∀ sc ∈ pe2.2, ∀ c v, childKey sc = some c → fetched client (pe2.1, sc) = some v →
      validString c = true ∧ validString v = true) :
    Commutes (pathStep client pe1) (pathStep client pe2) := by
  have hfun : ∀ pe : GoString × List SecretConfig,
      pathStep client pe = (fun _ => none) ∨
      ∃ secrets, client pe.1 = .ok secrets ∧
        pathStep client pe = runSteps (pe.2.map (entryStep pe.1 secrets)) := by
    intro pe
    cases hc : client pe.1 with
    | error e =>
      left
      funext values
      simp [pathStep, hc]
    | ok secrets =>
      right
      refine ⟨secrets, rfl, ?_⟩
      funext values
      simp only [pathStep, hc, resultMap_obtainEntries]
  rcases hfun pe1 with e1 | ⟨secrets1, hc1, e1⟩
  · rw [e1]
    exact Commutes_fail_left _
  · rcases hfun pe2 with e2 | ⟨secrets2, hc2, e2⟩
    · rw [e2]
      exact Commutes_symm (Commutes_fail_left _)
    · rw [e1, e2]
      apply Commutes_runSteps_both
      intro f hf g hg
      obtain ⟨sc1, hsc1, rfl⟩ := List.mem_map.1 hf
      obtain ⟨sc2, hsc2, rfl⟩ := List.mem_map.1 hg
      exact Commutes_entryStep pe1.1 pe2.1 secrets1 secrets2 sc1 sc2 (h sc1 hsc1 sc2 hsc2)
        (fun c x hc hx => hv1 sc1 hsc1 c x hc (by rw [fetched_of_client hc1, hx]))
        (fun c x hc hx => hv2 sc2 hsc2 c x hc (by rw [fetched_of_client hc2, hx]))

/-- C11, counterexample. Over the data `{a: hello, b: 1}`: (1) with the paths
`p1: a -> x` and `p2: b -> x.y`, resolution fails when `p1` is processed
first and succeeds when `p2` is processed first; (2) with `p1: a -> k` and
`p2: b -> k` both orders succeed, with different maps; (3) with
`p1: a -> g.\xff` and `p2: b -> g.\xfe`, whose child segments are single bytes
that are no valid UTF-8, the mappings write different places and both orders
succeed, but the objects stored under `g` differ. -/
theorem C11_path_order_counterexample :
    (List.Perm ([("p1", [⟨"a", some "x"⟩]), ("p2", [⟨"b", some "x.y"⟩])] : SecretsConfig)
        [("p2", [⟨"b", some "x.y"⟩]), ("p1", [⟨"a", some "x"⟩])] ∧
      ObtainSecrets [("p1", [⟨"a", some "x"⟩]), ("p2", [⟨"b", some "x.y"⟩])] exampleClient =
        .error (GoError.err "nested secret key x.y from vault path p2 is not valid") ∧
      ObtainSecrets [("p2", [⟨"b", some "x.y"⟩]), ("p1", [⟨"a", some "x"⟩])] exampleClient =
        .ok [("x", "hello")]) ∧
    (List.Perm ([("p1", [⟨"a", some "k"⟩]), ("p2", [⟨"b", some "k"⟩])] : SecretsConfig)
        [("p2", [⟨"b", some "k"⟩]), ("p1", [⟨"a", some "k"⟩])] ∧
      ObtainSecrets [("p1", [⟨"a", some "k"⟩]), ("p2", [⟨"b", some "k"⟩])] exampleClient =
        .ok [("k", "1")] ∧
      ObtainSecrets [("p2", [⟨"b", some "k"⟩]), ("p1", [⟨"a", some "k"⟩])] exampleClient =
        .ok [("k", "hello")]) ∧
    (List.Perm ([("p1", [⟨"a", some [0x67, 0x2E, 0xff]⟩]),
          ("p2", [⟨"b", some [0x67, 0x2E, 0xfe]⟩])] : SecretsConfig)
        [("p2", [⟨"b", some [0x67, 0x2E, 0xfe]⟩]), ("p1", [⟨"a", some [0x67, 0x2E, 0xff]⟩])] ∧
      PathsIndependent [("p1", [⟨"a", some [0x67, 0x2E, 0xff]⟩]),
        ("p2", [⟨"b", some [0x67, 0x2E, 0xfe]⟩])] ∧
      ObtainSecrets [("p1", [⟨"a", some [0x67, 0x2E, 0xff]⟩]),
          ("p2", [⟨"b", some [0x67, 0x2E, 0xfe]⟩])] exampleClient =
        .ok [("g", "\x7b\"\uFFFD\":\"hello\",\"\\ufffd\":\"1\"\x7d")] ∧
      ObtainSecrets [("p2", [⟨"b", some [0x67, 0x2E, 0xfe]⟩]),
          ("p1", [⟨"a", some [0x67, 0x2E, 0xff]⟩])] exampleClient =
        .ok [("g", "\x7b\"\uFFFD\":\"1\",\"\\ufffd\":\"hello\"\x7d")]) :=
  ⟨⟨List.Perm.swap _ _ _, by decide, by decide⟩, ⟨List.Perm.swap _ _ _, by decide, by decide⟩,
    ⟨List.Perm.swap _ _ _, by unfold PathsIndependent; decide, by decide, by decide⟩⟩

/-- C11, amended: when mappings of different paths write different places (no
two of them share their top-level key, unless both keys are dotted and differ
in their second segment) and the second segment of every dotted key and the
value fetched for it are valid UTF-8, the order in which the paths are
processed does not affect the result of `ObtainSecrets`: for every fetched
data and any two orderings of the same paths, resolution succeeds under one
ordering exactly when it succeeds under the other, and then the two returned
maps are equal. -/
theorem C11_path_order_amended (config1 config2 : SecretsConfig) (client : Client)
    (hperm : config1.Perm config2) (hind : PathsIndependent config1)
    (hvalid : ∀ pe ∈ config1, ∀ sc ∈ pe.2, ∀ c v, childKey sc = some c →
      fetched client (pe.1, sc) = some v → validString c = true ∧ validString v = true) :
    ((∃ values, ObtainSecrets config1 client = .ok values) ↔
      (∃ values, ObtainSecrets config2 client = .ok values)) ∧
    (∀ values1 values2, ObtainSecrets config1 client = .ok values1 →
      ObtainSecrets config2 client = .ok values2 → values1 = values2) := by
  have hsteps : (config1.map (pathStep client)).Pairwise Commutes := by
    rw [List.pairwise_map]
    exact List.Pairwise.imp_of_mem
      (fun {pe1 pe2} h1 h2 h => Commutes_pathStep client pe1 pe2 h (hvalid pe1 h1) (hvalid pe2 h2))
      hind
  have heq : resultMap (ObtainSecrets config1 client) = resultMap (ObtainSecrets config2 client) := by
    unfold ObtainSecrets
    rw [resultMap_obtainPaths, resultMap_obtainPaths]
    exact runSteps_perm (hperm.map (pathStep client)) hsteps []
  cases h1 : ObtainSecrets config1 client with
  | error e1 =>
    cases h2 : ObtainSecrets config2 client with
    | error e2 =>
      refine ⟨⟨fun ⟨_, h⟩ => (by cases h), fun ⟨_, h⟩ => (by cases h)⟩, ?_⟩
      intro _ _ h
      cases h
    | ok v2 =>
      rw [h1, h2] at heq
      cases heq
  | ok v1 =>
    cases h2 : ObtainSecrets config2 client with
    | error e2 =>
      rw [h1, h2] at heq
      cases heq
    | ok v2 =>
      rw [h1, h2] at heq
      simp only [resultMap, Option.some.injEq] at heq
      refine ⟨⟨fun _ => ⟨v2, rfl⟩, fun _ => ⟨v1, rfl⟩⟩, ?_⟩
      intro a b ha hb
      injection ha with ha
      injection hb with hb
      rw [← ha, ← hb, heq]

/-- Witness of the amended C11: the paths `p1: a -> g.x, b` and `p2: b -> g.y`
in both orders. -/
theorem C11_path_order_amended_witness :
    (List.Perm ([("p1", [⟨"a", some "g.x"⟩, ⟨"b", none⟩]),
          ("p2", [⟨"b", some "g.y"⟩])] : SecretsConfig)
        [("p2", [⟨"b", some "g.y"⟩]), ("p1", [⟨"a", some "g.x"⟩, ⟨"b", none⟩])] ∧
      PathsIndependent [("p1", [⟨"a", some "g.x"⟩, ⟨"b", none⟩]), ("p2", [⟨"b", some "g.y"⟩])] ∧
      (∀ pe ∈ ([("p1", [⟨"a", some "g.x"⟩, ⟨"b", none⟩]), ("p2", [⟨"b", some "g.y"⟩])] :
          SecretsConfig),
        ∀ sc ∈ pe.2, ∀ c, childKey sc = some c → validString c = true ∧
          ∀ v, fetched exampleClient (pe.1, sc) = some v → validString v = true) ∧
      ObtainSecrets [("p1", [⟨"a", some "g.x"⟩, ⟨"b", none⟩]), ("p2", [⟨"b", some "g.y"⟩])]
          exampleClient =
        .ok [("b", "1"), ("g", "\x7b\"x\":\"hello\",\"y\":\"1\"\x7d")]) ∧
    (((∃ values, ObtainSecrets [("p1", [⟨"a", some "g.x"⟩, ⟨"b", none⟩]),
          ("p2", [⟨"b", some "g.y"⟩])] exampleClient = .ok values) ↔
      (∃ values, ObtainSecrets [("p2", [⟨"b", some "g.y"⟩]),
          ("p1", [⟨"a", some "g.x"⟩, ⟨"b", none⟩])] exampleClient = .ok values)) ∧
    (∀ values1 values2,
      ObtainSecrets [("p1", [⟨"a", some "g.x"⟩, ⟨"b", none⟩]), ("p2", [⟨"b", some "g.y"⟩])]
        exampleClient = .ok values1 →
      ObtainSecrets [("p2", [⟨"b", some "g.y"⟩]), ("p1", [⟨"a", some "g.x"⟩, ⟨"b", none⟩])]
        exampleClient = .ok values2 → values1 = values2)) :=
  ⟨⟨List.Perm.swap _ _ _, by unfold PathsIndependent; decide, by decide, by decide⟩,
    C11_path_order_amended _ _ exampleClient (List.Perm.swap _ _ _)
      (by unfold PathsIndependent; decide)
      (by
        intro pe hpe sc hsc c v hc hv
        have hall : ∀ pe ∈ ([("p1", [⟨"a", some "g.x"⟩, ⟨"b", none⟩]),
            ("p2", [⟨"b", some "g.y"⟩])] : SecretsConfig),
            ∀ sc ∈ pe.2, ∀ c, childKey sc = some c → validString c = true ∧
              ∀ v, fetched exampleClient (pe.1, sc) = some v → validString v = true := by
          decide
        exact ⟨(hall pe hpe sc hsc c hc).1, (hall pe hpe sc hsc c hc).2 v hv⟩)⟩

end Pkg

end GoAutumnVault
